import Mathlib

/-!
# A verification model of the prsqlite B-tree cursor (`src/cursor.rs`)

This file gives a shallow embedding of the B-tree cursor layer of the
prsqlite repository and proves properties of it.

Scope and modelling conventions:

* The functions of `src/cursor.rs` (`table_move_to`, `index_move_to`,
  `move_to_first`, `move_to_last`, `move_next`, `insert`,
  `get_table_key`, `get_table_payload`, `get_index_payload`,
  `BtreePayload::load` and the private helpers `move_to_root`,
  `move_to_child`, `back_to_parent`, `move_to_left_most`) are translated
  one by one, keeping the source's names and control flow.
* The repository modules `btree.rs`, `pager.rs`, `record.rs`, `utils.rs`
  are not part of the sources provided; everything taken from them
  (page header decoders, cell parsers, the record comparator, varints)
  is modelled from the specification, and each such definition is marked
  `Modelled from the spec:` in its doc comment.
* B-tree pages are modelled at the cell level: a page is one of the four
  page kinds holding its decoded cells.  The page store (the pager) is a
  partial map from page ids to pages; a missing page makes the modelled
  pager fail, like an I/O or decode error in the original.
* Rust functions returning `anyhow::Result` become `Except String`.
  A Rust `assert!`/`todo!` (a panic) is modelled as an `Except.error`
  whose message starts with `assertion failed` or `todo`, so that a
  panic is observable and distinguishable in theorems.
* Source loops whose termination depends on the page graph get an
  explicit fuel argument; exhausting fuel is an error, and the theorems
  show that enough fuel for the tree height never exhausts it.
* The cursor's `parent_pages` stack is a Rust `Vec` pushed/popped at the
  end; here it is kept top-of-stack-first, so `Vec::push`/`pop` become
  cons/head and `parent_pages[0]` (used by `move_to_root`) is `getLast?`.
-/

namespace Prsqlite

/-- Modelled from the spec: the four B-tree page kinds of `btree.rs`
(`0x05` table interior, `0x0D` table leaf, `0x02` index interior,
`0x0A` index leaf). -/
inductive BtreePageType where
  | tableLeaf
  | tableInterior
  | indexLeaf
  | indexInterior
deriving DecidableEq

/-- Modelled from the spec: `BtreePageType::is_table` of `btree.rs`. -/
def BtreePageType.is_table : BtreePageType → Bool
  | .tableLeaf => true
  | .tableInterior => true
  | _ => false

/-- Modelled from the spec: `BtreePageType::is_index` of `btree.rs`. -/
def BtreePageType.is_index : BtreePageType → Bool
  | .indexLeaf => true
  | .indexInterior => true
  | _ => false

/-- Modelled from the spec: `BtreePageType::is_leaf` of `btree.rs`. -/
def BtreePageType.is_leaf : BtreePageType → Bool
  | .tableLeaf => true
  | .indexLeaf => true
  | _ => false

/-- A decoded table-leaf cell: `varint payload_size, varint rowid,
payload-bytes` (spec §3).  The payload is kept as its byte list. -/
structure TableLeafCell where
  key : Int
  payload : List Nat
deriving DecidableEq

/-- A decoded table-interior cell: `u32 left_child_page_id, varint rowid`
(spec §3). -/
structure TableInteriorCell where
  child : Nat
  key : Int
deriving DecidableEq

/-- A decoded index-interior cell: `u32 left_child_page_id, varint
payload_size, payload-bytes` (spec §3).  The record payload is modelled
as its decoded column tuple. -/
structure IndexInteriorCell where
  child : Nat
  record : List Int
deriving DecidableEq

/-- The byte-layout header fields of a table-leaf page that `insert`
reads and writes (spec §3: first-freeblock offset, fragmented-free
bytes, cell-content-area offset), plus the page's header offset
(100 on page 1, else 0; spec §4.2).  `cell_content_area_offset` is kept
already decoded (`0` on disk means `65536`). -/
structure LeafLayout where
  first_freeblock : Nat
  fragmented_free_bytes : Nat
  cell_content_area_offset : Nat
  header_offset : Nat
deriving DecidableEq

/-- Modelled from the spec: a decoded B-tree page (`btree.rs`).
Cells are kept in cell-pointer-array order. -/
inductive Page where
  | tableLeaf (layout : LeafLayout) (cells : List TableLeafCell)
  | tableInterior (cells : List TableInteriorCell) (right_page_id : Nat)
  | indexLeaf (cells : List (List Int))
  | indexInterior (cells : List IndexInteriorCell) (right_page_id : Nat)
deriving DecidableEq

/-- Modelled from the spec: the pager as a partial map from page ids to
decoded pages; `Pager::get_page` fails on a missing id. -/
def Pages := Nat → Option Page

/-- Modelled from the spec: `BtreePageHeader::page_type` of `btree.rs`. -/
def Page.page_type : Page → BtreePageType
  | .tableLeaf _ _ => .tableLeaf
  | .tableInterior _ _ => .tableInterior
  | .indexLeaf _ => .indexLeaf
  | .indexInterior _ _ => .indexInterior

/-- Modelled from the spec: `BtreePageHeader::n_cells` of `btree.rs`. -/
def Page.n_cells : Page → Nat
  | .tableLeaf _ cells => cells.length
  | .tableInterior cells _ => cells.length
  | .indexLeaf cells => cells.length
  | .indexInterior cells _ => cells.length

/-- Modelled from the spec: `BtreePageHeader::right_page_id` of
`btree.rs`; only interior pages have the field. -/
def Page.right_page_id : Page → Option Nat
  | .tableInterior _ r => some r
  | .indexInterior _ r => some r
  | _ => none

/-- Modelled from the spec: `parse_btree_interior_cell_page_id` of
`btree.rs` (the 4-byte left-child id of interior cell `i`). -/
def parse_btree_interior_cell_page_id : Page → Nat → Option Nat
  | .tableInterior cells _, i => (cells[i]?).map TableInteriorCell.child
  | .indexInterior cells _, i => (cells[i]?).map IndexInteriorCell.child
  | _, _ => none

/-- Modelled from the spec: `TableCellKeyParser::get_cell_key` of
`btree.rs` (the rowid of cell `i` of a table page). -/
def table_cell_key : Page → Nat → Option Int
  | .tableLeaf _ cells, i => (cells[i]?).map TableLeafCell.key
  | .tableInterior cells _, i => (cells[i]?).map TableInteriorCell.key
  | _, _ => none

/-- Modelled from the spec: `IndexCellKeyParser::get_cell_key` of
`btree.rs` followed by record decoding; yields the record tuple of cell
`i` of an index page. -/
def index_cell_key : Page → Nat → Option (List Int)
  | .indexLeaf cells, i => cells[i]?
  | .indexInterior cells _, i => (cells[i]?).map IndexInteriorCell.record
  | _, _ => none

/-- Modelled from the spec: `parse_btree_leaf_table_cell` of `btree.rs`
(rowid and payload of cell `i` of a table-leaf page). -/
def parse_btree_leaf_table_cell : Page → Nat → Option TableLeafCell
  | .tableLeaf _ cells, i => cells[i]?
  | _, _ => none

/-- The lexicographic three-way comparison of two integer tuples, the
order in which index records are stored. -/
def lex_cmp : List Int → List Int → Ordering
  | [], [] => .eq
  | [], _ :: _ => .lt
  | _ :: _, [] => .gt
  | a :: as_, b :: bs =>
    match compare a b with
    | .eq => lex_cmp as_ bs
    | o => o

/-- Modelled from the spec: `compare_record` of `record.rs`
(`compare_record(keys, payload)` compares the key tuple against the
first `|keys|` columns of the record). -/
def compare_record (keys : List Int) (rec : List Int) : Ordering :=
  lex_cmp keys (rec.take keys.length)

/-- `CursorPage` of `cursor.rs`: the cursor's per-level state, caching
the page's cell count, type and leaf-ness as `CursorPage::new` does. -/
structure CursorPage where
  page_id : Nat
  idx_cell : Nat
  n_cells : Nat
  page_type : BtreePageType
  is_leaf : Bool
deriving DecidableEq

/-- `CursorPage::new` of `cursor.rs`: fetch the page (via the pager) and
cache its header fields; `idx_cell` starts at 0. -/
def CursorPage.new (pages : Pages) (page_id : Nat) : Except String CursorPage :=
  match pages page_id with
  | none => .error "get page"
  | some pg =>
    .ok { page_id := page_id, idx_cell := 0, n_cells := pg.n_cells,
          page_type := pg.page_type, is_leaf := pg.page_type.is_leaf }

/-- `BtreeCursor` of `cursor.rs`.  `parent_pages` is kept top-of-stack
first (the reverse of the source's `Vec`).  The source field
`initialized` is named `inited` here. -/
structure BtreeCursor where
  current_page : CursorPage
  parent_pages : List CursorPage
  inited : Bool
deriving DecidableEq

/-- `BtreeCursor::new` of `cursor.rs`. -/
def BtreeCursor.new (pages : Pages) (root_page_id : Nat) : Except String BtreeCursor :=
  match CursorPage.new pages root_page_id with
  | .error e => .error e
  | .ok page => .ok { current_page := page, parent_pages := [], inited := false }

/-- `BtreeCursor::move_to_root` of `cursor.rs`: if the stack is
non-empty, truncate it to its first element and install that element as
current.  With the stack kept top-first, the first pushed element is the
last of the list.  Note that it does not reset `idx_cell`. -/
def move_to_root (cur : BtreeCursor) : BtreeCursor :=
  match cur.parent_pages.getLast? with
  | none => cur
  | some root => { cur with current_page := root, parent_pages := [] }

/-- `BtreeCursor::move_to_child` of `cursor.rs`: fetch the child page,
push the current page, and install the child (with `idx_cell = 0`, from
`CursorPage::new`) as current. -/
def move_to_child (pages : Pages) (cur : BtreeCursor) (page_id : Nat) :
    Except String BtreeCursor :=
  match CursorPage.new pages page_id with
  | .error e => .error e
  | .ok page =>
    .ok { cur with current_page := page,
                   parent_pages := cur.current_page :: cur.parent_pages }

/-- The completion condition used at the top of `BtreeCursor::move_next`
(`cursor.rs` lines 336-342): parent stack empty and
`idx_cell == n_cells + 1`, or `n_cells == 0`. -/
def is_completed (cur : BtreeCursor) : Bool :=
  cur.parent_pages.isEmpty &&
    (cur.current_page.idx_cell == cur.current_page.n_cells + 1 ||
     cur.current_page.n_cells == 0)

/-- The inner `while !leaf` descent of `BtreeCursor::move_to_left_most`
(`cursor.rs` lines 583-592): keep following interior cell 0's left
child until a leaf is reached. -/
def left_most_descend (pages : Pages) : Nat → BtreeCursor → Except String BtreeCursor
  | 0, _ => .error "page fuel exhausted"
  | fuel + 1, cur =>
    if cur.current_page.is_leaf then .ok cur
    else
      match pages cur.current_page.page_id with
      | none => .error "get page"
      | some pg =>
        match parse_btree_interior_cell_page_id pg 0 with
        | none => .error "get btree interior cell page id"
        | some page_id =>
          match move_to_child pages cur page_id with
          | .error e => .error e
          | .ok cur => left_most_descend pages fuel cur

/-- `BtreeCursor::move_to_left_most` of `cursor.rs`: from an interior
page, descend into the subtree addressed by `idx_cell` (the cell's left
child if `idx_cell < n_cells`, the right page if equal) and then keep
descending left-most; return `false` without moving when
`idx_cell > n_cells`. -/
def move_to_left_most (pages : Pages) (fuel : Nat) (cur : BtreeCursor) :
    Except String (Bool × BtreeCursor) :=
  if cur.current_page.is_leaf then .error "assertion failed: not is_leaf"
  else
    match pages cur.current_page.page_id with
    | none => .error "get page"
    | some pg =>
      match compare cur.current_page.idx_cell cur.current_page.n_cells with
      | .gt => .ok (false, cur)
      | ord =>
        let page_id? :=
          match ord with
          | .lt => parse_btree_interior_cell_page_id pg cur.current_page.idx_cell
          | _ => pg.right_page_id
        match page_id? with
        | none => .error "get btree interior cell page id"
        | some page_id =>
          match move_to_child pages cur page_id with
          | .error e => .error e
          | .ok cur =>
            match left_most_descend pages fuel
                { cur with current_page := { cur.current_page with idx_cell := 0 } } with
            | .error e => .error e
            | .ok cur => .ok (true, cur)

/-- `BtreeCursor::move_to_first` of `cursor.rs`. -/
def move_to_first (pages : Pages) (fuel : Nat) (cur : BtreeCursor) :
    Except String BtreeCursor :=
  let cur := move_to_root cur
  let cur := { cur with current_page := { cur.current_page with idx_cell := 0 } }
  if cur.current_page.is_leaf = false then
    match move_to_left_most pages fuel cur with
    | .error e => .error e
    | .ok (_, cur) => .ok { cur with inited := true }
  else .ok { cur with inited := true }

/-- The `while !leaf` right-spine descent of `BtreeCursor::move_to_last`
(`cursor.rs` lines 320-326). -/
def last_descend (pages : Pages) : Nat → BtreeCursor → Except String BtreeCursor
  | 0, _ => .error "page fuel exhausted"
  | fuel + 1, cur =>
    if cur.current_page.is_leaf then .ok cur
    else
      match pages cur.current_page.page_id with
      | none => .error "get page"
      | some pg =>
        match pg.right_page_id with
        | none => .error "right page id"
        | some page_id =>
          match move_to_child pages cur page_id with
          | .error e => .error e
          | .ok cur => last_descend pages fuel cur

/-- `BtreeCursor::move_to_last` of `cursor.rs`.  Note that it sets
`idx_cell` only on the final leaf (or on an empty root); the pages
pushed on the way keep whatever `idx_cell` they had. -/
def move_to_last (pages : Pages) (fuel : Nat) (cur : BtreeCursor) :
    Except String BtreeCursor :=
  let cur := move_to_root cur
  if cur.current_page.n_cells = 0 then
    .ok { cur with
            current_page := { cur.current_page with idx_cell := 0 },
            inited := true }
  else
    match last_descend pages fuel cur with
    | .error e => .error e
    | .ok cur =>
      .ok { cur with
              current_page := { cur.current_page with
                                  idx_cell := cur.current_page.n_cells - 1 },
              inited := true }

/-- The ascend loop of the table branch of `BtreeCursor::move_next`
(`cursor.rs` lines 353-363): pop to the parent (`back_to_parent`),
increment its `idx_cell` and try `move_to_left_most`; when there is no
parent left, increment `idx_cell` once more and stop.  The recursion is
on the parent stack; in the `move_to_left_most == false` case the
cursor is unchanged by it, so the recursive call continues from the
same state. -/
def table_next_ascend (pages : Pages) (fuel : Nat) :
    CursorPage → List CursorPage → Except String (CursorPage × List CursorPage)
  | c, [] => .ok ({ c with idx_cell := c.idx_cell + 1 }, [])
  | _, p :: rest =>
    let p := { p with idx_cell := p.idx_cell + 1 }
    match move_to_left_most pages fuel
        { current_page := p, parent_pages := rest, inited := true } with
    | .error e => .error e
    | .ok (found, cur) =>
      if found then .ok (cur.current_page, cur.parent_pages)
      else table_next_ascend pages fuel p rest

/-- The ascend loop shared by the index branch of
`BtreeCursor::move_next` (`cursor.rs` lines 373-383) and the leaf-miss
adjustment of `index_move_to` (lines 272-282): pop while the restored
page is fully consumed (`idx_cell == n_cells`); if no parent remains,
increment `idx_cell` past `n_cells` to denote completion. -/
def index_next_ascend : CursorPage → List CursorPage → CursorPage × List CursorPage
  | c, [] => ({ c with idx_cell := c.idx_cell + 1 }, [])
  | _, p :: rest =>
    if p.idx_cell = p.n_cells then index_next_ascend p rest else (p, rest)

/-- `BtreeCursor::move_next` of `cursor.rs`. -/
def move_next (pages : Pages) (fuel : Nat) (cur : BtreeCursor) :
    Except String BtreeCursor :=
  if !cur.inited then .error "cursor is not initialized"
  else if is_completed cur then .ok cur
  else
    let c := { cur.current_page with idx_cell := cur.current_page.idx_cell + 1 }
    if c.is_leaf ∧ c.idx_cell < c.n_cells then .ok { cur with current_page := c }
    else if c.page_type.is_table then
      if !c.is_leaf then .error "assertion failed: is_leaf"
      else if c.idx_cell ≠ c.n_cells then .error "assertion failed: idx_cell == n_cells"
      else
        match table_next_ascend pages fuel c cur.parent_pages with
        | .error e => .error e
        | .ok (c2, s2) =>
          .ok { current_page := c2, parent_pages := s2, inited := cur.inited }
    else if c.page_type.is_index then
      if !c.is_leaf ∧ c.idx_cell ≤ c.n_cells then
        match move_to_left_most pages fuel { cur with current_page := c } with
        | .error e => .error e
        | .ok (found, cur2) =>
          if found then .ok cur2
          else .error "assertion failed: move_to_left_most"
      else if c.is_leaf ∧ c.idx_cell = c.n_cells then
        let (c2, s2) := index_next_ascend c cur.parent_pages
        .ok { current_page := c2, parent_pages := s2, inited := cur.inited }
      else .error "assertion failed: is_leaf and idx_cell == n_cells"
    else .error "not a btree page"

/-- The binary-search loop of `BtreeCursor::table_move_to` (`cursor.rs`
lines 184-204).  Returns the final `i_min` and `max_cell_key`; on an
exact match it stops at `i_mid` remembering the matched key.  The fuel
only bounds the loop; `i_max - i_min + 1` is always enough. -/
def table_bin_search (pg : Page) (key : Int) :
    Nat → Nat → Nat → Option Int → Except String (Nat × Option Int)
  | 0, _, _, _ => .error "bin search fuel exhausted"
  | fuel + 1, i_min, i_max, max_cell_key =>
    if i_min < i_max then
      let i_mid := (i_min + i_max) / 2
      match table_cell_key pg i_mid with
      | none => .error "parse table cell key"
      | some cell_key =>
        match compare key cell_key with
        | .lt => table_bin_search pg key fuel i_min i_mid (some cell_key)
        | .eq => .ok (i_mid, some cell_key)
        | .gt => table_bin_search pg key fuel (i_mid + 1) i_max max_cell_key
    else .ok (i_min, max_cell_key)

/-- The per-page loop of `BtreeCursor::table_move_to` (`cursor.rs`
lines 175-224): binary search the page, set `idx_cell`; at a leaf
return `max_cell_key`, at an interior page descend into cell
`i_min`'s left child (or the right page if `i_min == n_cells`). -/
def table_move_to_loop (pages : Pages) (key : Int) :
    Nat → BtreeCursor → Except String (BtreeCursor × Option Int)
  | 0, _ => .error "page fuel exhausted"
  | fuel + 1, cur =>
    if !cur.current_page.page_type.is_table then .error "not a table page"
    else
      match pages cur.current_page.page_id with
      | none => .error "get page"
      | some pg =>
        match table_bin_search pg key (cur.current_page.n_cells + 1) 0
            cur.current_page.n_cells none with
        | .error e => .error e
        | .ok (i_min, max_cell_key) =>
          let cur := { cur with current_page := { cur.current_page with idx_cell := i_min } }
          if cur.current_page.is_leaf = true then
            .ok ({ cur with inited := true }, max_cell_key)
          else
            match
              (if i_min = cur.current_page.n_cells then pg.right_page_id
               else parse_btree_interior_cell_page_id pg cur.current_page.idx_cell) with
            | none => .error "get btree interior cell page id"
            | some page_id =>
              match move_to_child pages cur page_id with
              | .error e => .error e
              | .ok cur => table_move_to_loop pages key fuel cur

/-- `BtreeCursor::table_move_to` of `cursor.rs`. -/
def table_move_to (pages : Pages) (fuel : Nat) (cur : BtreeCursor) (key : Int) :
    Except String (BtreeCursor × Option Int) :=
  table_move_to_loop pages key fuel (move_to_root cur)

/-- The binary-search loop of `BtreeCursor::index_move_to` (`cursor.rs`
lines 242-265).  On an exact record match it returns `some i_mid`
(the source sets `idx_cell` and returns); otherwise `none` with the
final `i_min`. -/
def index_bin_search (pg : Page) (keys : List Int) :
    Nat → Nat → Nat → Except String (Option Nat × Nat)
  | 0, _, _ => .error "bin search fuel exhausted"
  | fuel + 1, i_min, i_max =>
    if i_min < i_max then
      let i_mid := (i_min + i_max) / 2
      match index_cell_key pg i_mid with
      | none => .error "parse index cell key"
      | some rec =>
        match compare_record keys rec with
        | .lt => index_bin_search pg keys fuel i_min i_mid
        | .eq => .ok (some i_mid, i_mid)
        | .gt => index_bin_search pg keys fuel (i_mid + 1) i_max
    else .ok (none, i_min)

/-- The per-page loop of `BtreeCursor::index_move_to` (`cursor.rs`
lines 232-301): binary search the page; stop on an exact match (also at
interior pages); at a leaf miss with `idx_cell == n_cells` ascend past
fully-consumed parents; otherwise descend like the table search. -/
def index_move_to_loop (pages : Pages) (keys : List Int) :
    Nat → BtreeCursor → Except String BtreeCursor
  | 0, _ => .error "page fuel exhausted"
  | fuel + 1, cur =>
    if !cur.current_page.page_type.is_index then .error "not an index page"
    else
      match pages cur.current_page.page_id with
      | none => .error "get page"
      | some pg =>
        match index_bin_search pg keys (cur.current_page.n_cells + 1) 0
            cur.current_page.n_cells with
        | .error e => .error e
        | .ok (some i, _) =>
          .ok { cur with current_page := { cur.current_page with idx_cell := i },
                         inited := true }
        | .ok (none, i_min) =>
          let cur := { cur with current_page := { cur.current_page with idx_cell := i_min } }
          if cur.current_page.is_leaf = true then
            if cur.current_page.idx_cell = cur.current_page.n_cells then
              let (c2, s2) := index_next_ascend cur.current_page cur.parent_pages
              .ok { current_page := c2, parent_pages := s2, inited := true }
            else .ok { cur with inited := true }
          else
            match
              (if i_min = cur.current_page.n_cells then pg.right_page_id
               else parse_btree_interior_cell_page_id pg cur.current_page.idx_cell) with
            | none => .error "get btree interior cell page id"
            | some page_id =>
              match move_to_child pages cur page_id with
              | .error e => .error e
              | .ok cur => index_move_to_loop pages keys fuel cur

/-- `BtreeCursor::index_move_to` of `cursor.rs`. -/
def index_move_to (pages : Pages) (fuel : Nat) (cur : BtreeCursor) (keys : List Int) :
    Except String BtreeCursor :=
  index_move_to_loop pages keys fuel (move_to_root cur)

/-- `BtreeCursor::get_table_key` of `cursor.rs`. -/
def get_table_key (pages : Pages) (cur : BtreeCursor) : Except String (Option Int) :=
  if !cur.inited then .error "cursor is not initialized"
  else if !cur.current_page.page_type.is_table then .error "not a table page"
  else if cur.current_page.n_cells ≤ cur.current_page.idx_cell then .ok none
  else if !cur.current_page.is_leaf then .error "assertion failed: is_leaf"
  else
    match pages cur.current_page.page_id with
    | none => .error "get page"
    | some pg =>
      match table_cell_key pg cur.current_page.idx_cell with
      | none => .error "parse table cell key"
      | some key => .ok (some key)

/-- `BtreeCursor::get_table_payload` of `cursor.rs`.  The returned
payload handle is modelled by the cell's rowid and payload bytes. -/
def get_table_payload (pages : Pages) (cur : BtreeCursor) :
    Except String (Option (Int × List Nat)) :=
  if !cur.inited then .error "cursor is not initialized"
  else if !cur.current_page.page_type.is_table then .error "not a table page"
  else if cur.current_page.n_cells ≤ cur.current_page.idx_cell then .ok none
  else if !cur.current_page.is_leaf then .error "assertion failed: is_leaf"
  else
    match pages cur.current_page.page_id with
    | none => .error "get page"
    | some pg =>
      match parse_btree_leaf_table_cell pg cur.current_page.idx_cell with
      | none => .error "parse btree leaf table cell"
      | some cell => .ok (some (cell.key, cell.payload))

/-- `BtreeCursor::get_index_payload` of `cursor.rs`.  The returned
payload handle is modelled by the decoded record tuple. -/
def get_index_payload (pages : Pages) (cur : BtreeCursor) :
    Except String (Option (List Int)) :=
  if !cur.inited then .error "cursor is not initialized"
  else if !cur.current_page.page_type.is_index then .error "not a index page"
  else if cur.current_page.n_cells ≤ cur.current_page.idx_cell then .ok none
  else
    match pages cur.current_page.page_id with
    | none => .error "get page"
    | some pg =>
      match index_cell_key pg cur.current_page.idx_cell with
      | none => .error "parse btree leaf index cell"
      | some rec => .ok (some rec)

/-- Modelled from the spec: fixed-width big-endian 7-bit groups of a
value (used by the 9-byte varint case of `put_varint`, `utils.rs`). -/
def fixed_groups : Nat → Nat → List Nat
  | 0, _ => []
  | k + 1, v => fixed_groups k (v / 128) ++ [v % 128]

/-- Modelled from the spec: little-endian 7-bit groups of a value,
lowest first, at most `fuel` groups (`utils.rs` varint helper). -/
def varint_le : Nat → Nat → List Nat
  | 0, _ => []
  | fuel + 1, v => if v < 128 then [v] else v % 128 :: varint_le fuel (v / 128)

/-- Modelled from the spec: `put_varint` of `utils.rs`, SQLite's 1-9
byte big-endian self-describing varint.  Values below `2^56` use as few
bytes as possible with the continuation bit on all but the last byte;
larger values use 9 bytes, the last holding the low 8 bits. -/
def put_varint (v : Nat) : List Nat :=
  if v < 2 ^ 56 then
    match varint_le 8 v with
    | [] => []
    | low :: rest => (rest.reverse.map (· + 128)) ++ [low]
  else
    ((fixed_groups 8 (v / 256)).map (· + 128)) ++ [v % 256]

/-- The number of bytes `put_varint` writes. -/
def varint_len (v : Nat) : Nat := (put_varint v).length

/-- Modelled from the spec: `i64_to_u64` of `utils.rs`, the
two's-complement reinterpretation of a signed 64-bit rowid as u64
(the file format is bit-exact SQLite, spec §6). -/
def i64_to_u64 (v : Int) : Nat := (v % (2 ^ 64 : Int)).toNat

/-- `BtreeCursor::insert` of `cursor.rs` at the decoded-page level:
position with `table_move_to`; fail on an exact key match (`todo!`
update path); check the header assumptions and the free space
(`todo!` balance path); then allocate the cell at
`cell_content_area_offset - cell_size` and splice its pointer into the
cell-pointer array — at `idx_cell` when the search saw a key
(`current_cell_key.is_some()`), else appended at the tail.  The
byte-level effect of the splice on the page image is modelled
separately by `page_insert_cell`. -/
def insert (pages : Pages) (fuel : Nat) (cur : BtreeCursor) (key : Int)
    (payload : List Nat) : Except String (Pages × BtreeCursor) :=
  match table_move_to pages fuel cur key with
  | .error e => .error e
  | .ok (cur, current_cell_key) =>
  let cell_header_size := varint_len payload.length + varint_len (i64_to_u64 key)
  let cell_size := cell_header_size + payload.length
  if current_cell_key = some key then .error "todo: update the payload"
  else
    match pages cur.current_page.page_id with
    | some (.tableLeaf layout cells) =>
      if layout.first_freeblock ≠ 0 then
        .error "assertion failed: first_freeblock_offset == 0"
      else if layout.fragmented_free_bytes ≠ 0 then
        .error "assertion failed: fragmented_free_bytes == 0"
      else
        let cell_content_area_offset := layout.cell_content_area_offset
        let header_size := 8
        let unallocated_space_offset :=
          layout.header_offset + header_size + 2 * cur.current_page.n_cells
        let free_size := cell_content_area_offset - unallocated_space_offset
        if free_size < cell_size + 2 then .error "todo: balance the btree"
        else
          let offset := cell_content_area_offset - cell_size
          if ¬ offset < 65535 then .error "assertion failed: offset < u16 max"
          else if ¬ 0 < offset then .error "assertion failed: offset > 0"
          else
            let cells2 :=
              if current_cell_key.isSome then
                cells.insertIdx cur.current_page.idx_cell ⟨key, payload⟩
              else cells ++ [⟨key, payload⟩]
            let layout2 := { layout with cell_content_area_offset := offset }
            let pages2 : Pages := fun q =>
              if q = cur.current_page.page_id then some (.tableLeaf layout2 cells2)
              else pages q
            let cur2 := { cur with
              current_page := { cur.current_page with
                                  n_cells := cur.current_page.n_cells + 1 } }
            .ok (pages2, cur2)
    | _ => .error "not a table leaf page"

/-- The slice `l[a..b]` of a byte list (Rust's `&l[a..b]`; the model
truncates instead of panicking on an out-of-range bound). -/
def list_slice (l : List Nat) (a b : Nat) : List Nat := (l.take b).drop a

/-- Modelled from the spec: `PayloadInfo` of `btree.rs` — total
`payload_size` (an `i32`), the byte-range of the locally stored prefix
within the host page buffer, and the optional first overflow page id. -/
structure PayloadInfo where
  payload_size : Int
  local_start : Nat
  local_stop : Nat
  overflow : Option Nat
deriving DecidableEq

/-- `BtreePayload` of `cursor.rs` at the byte level: the borrowed host
page buffer plus the cell's `PayloadInfo`. -/
structure BtreePayload where
  local_payload_buffer : List Nat
  payload_info : PayloadInfo
deriving DecidableEq

/-- `BtreePayload::buf` of `cursor.rs`: the locally stored prefix
(`&local_payload_buffer[local_range]`). -/
def BtreePayload.buf (p : BtreePayload) : List Nat :=
  list_slice p.local_payload_buffer p.payload_info.local_start p.payload_info.local_stop

/-- Modelled from the spec: the pager's raw byte pages, used when `load`
walks an overflow chain. -/
def BytePages := Nat → Option (List Nat)

/-- Modelled from the spec: `OverflowPage::parse` of `btree.rs` — a
4-byte big-endian next-page id followed by `usable_size - 4` payload
bytes; a next id of 0 ends the chain. -/
def overflow_parse (usable_size : Nat) (buf : List Nat) : Option (List Nat × Option Nat) :=
  if 4 ≤ usable_size ∧ usable_size ≤ buf.length then
    let next := buf.getD 0 0 * 16777216 + buf.getD 1 0 * 65536 +
      buf.getD 2 0 * 256 + buf.getD 3 0
    some (list_slice buf 4 usable_size, if next = 0 then none else some next)
  else none

/-- The overflow-chain walk of `BtreePayload::load` (`cursor.rs` lines
84-105): while the destination is not exhausted and bytes remain, fetch
the next overflow page, copy the in-range part, and continue.  The
destination `buf` is consumed from the front as the source's
`buf = &mut buf[n..]` does; the returned list is the written prefix
followed by the untouched tail of `buf`. -/
def load_loop (pager : BytePages) (usable_size : Nat) (payload_size : Int) :
    Nat → Int → List Nat → Nat → Int → Option Nat → Except String (Nat × List Nat)
  | 0, _, _, _, _, _ => .error "page fuel exhausted"
  | fuel + 1, offset, buf, n_loaded, cur, ov =>
    if buf ≠ [] ∧ cur < payload_size then
      match ov with
      | none => .error "overflow page is not found"
      | some page_id =>
        match pager page_id with
        | none => .error "get page"
        | some buffer =>
          match overflow_parse usable_size buffer with
          | none => .error "parse overflow"
          | some (payload, next_overflow) =>
            if offset < cur + (payload.length : Int) then
              let local_offset := (offset - cur).toNat
              let n := min (payload.length - local_offset) buf.length
              let chunk := (payload.drop local_offset).take n
              match load_loop pager usable_size payload_size fuel
                  (offset + n) (buf.drop n) (n_loaded + n)
                  (cur + payload.length) next_overflow with
              | .error e => .error e
              | .ok (m, rest) => .ok (m, chunk ++ rest)
            else
              load_loop pager usable_size payload_size fuel
                offset buf n_loaded (cur + payload.length) next_overflow
    else .ok (n_loaded, buf)

/-- `BtreePayload::load` of `cursor.rs`: reject a negative or
out-of-range offset, copy from the local prefix, then walk the overflow
chain.  Returns the number of bytes loaded and the destination after
the call. -/
def BtreePayload.load (pager : BytePages) (usable_size : Nat) (fuel : Nat)
    (p : BtreePayload) (offset : Int) (buf : List Nat) :
    Except String (Nat × List Nat) :=
  if offset < 0 then .error "offset must be non-negative"
  else if p.payload_info.payload_size ≤ offset then .error "offset exceeds payload size"
  else
    let payload := p.buf
    if offset < (payload.length : Int) then
      let local_offset := offset.toNat
      let n := min (payload.length - local_offset) buf.length
      let chunk := (payload.drop local_offset).take n
      match load_loop pager usable_size p.payload_info.payload_size fuel
          (offset + n) (buf.drop n) n (payload.length : Int)
          p.payload_info.overflow with
      | .error e => .error e
      | .ok (m, rest) => .ok (m, chunk ++ rest)
    else
      load_loop pager usable_size p.payload_info.payload_size fuel
        offset buf 0 (payload.length : Int) p.payload_info.overflow

/-- The overflow chain reachable from a first overflow page id: the
chain pages' payload slices in order, or `none` on a broken chain (or
out of fuel).  This is the §3 well-formedness of an overflow chain,
computed so that concrete witnesses can evaluate it. -/
def chain_list (pager : BytePages) (usable_size : Nat) :
    Nat → Option Nat → Option (List (List Nat))
  | _, none => some []
  | 0, some _ => none
  | fuel + 1, some page_id =>
    match pager page_id with
    | none => none
    | some buffer =>
      match overflow_parse usable_size buffer with
      | none => none
      | some (payload, next) =>
        match chain_list pager usable_size fuel next with
        | none => none
        | some rest => some (payload :: rest)

/-- The cursor-page cache fields agree with the page store, exactly as
`CursorPage::new` establishes them. -/
def cache_ok (pages : Pages) (c : CursorPage) : Prop :=
  ∃ pg, pages c.page_id = some pg ∧ c.n_cells = pg.n_cells ∧
    c.page_type = pg.page_type ∧ c.is_leaf = pg.page_type.is_leaf

/-- `lb < k` for an optional lower bound (`none` = unbounded). -/
def opt_lt : Option Int → Int → Bool
  | none, _ => true
  | some b, k => decide (b < k)

/-- Strict ascending order of a key list, §3 invariant 1. -/
def keys_ascending : List Int → Bool
  | [] => true
  | [_] => true
  | a :: b :: t => decide (a < b) && keys_ascending (b :: t)

/-- The rows of a table subtree in cell-pointer order: the
concatenation of its leaves' cells, left to right.  `none` on a
malformed tree or out of fuel. -/
def table_flatten (pages : Pages) : Nat → Nat → Option (List TableLeafCell)
  | 0, _ => none
  | fuel + 1, page_id =>
    match pages page_id with
    | some (.tableLeaf _ cells) => some cells
    | some (.tableInterior cells right) =>
      cells.foldr
        (fun c acc =>
          match table_flatten pages fuel c.child, acc with
          | some lc, some ls => some (lc ++ ls)
          | _, _ => none)
        (table_flatten pages fuel right)
    | _ => none

/-- The rows of the child subtrees of a (suffix of a) table interior
page followed by its right subtree; equal to `table_flatten` of the
interior page when applied to its whole cell list. -/
def table_children_flatten (pages : Pages) (fuel : Nat) (right : Nat) :
    List TableInteriorCell → Option (List TableLeafCell)
  | [] => table_flatten pages fuel right
  | c :: cs =>
    match table_flatten pages fuel c.child, table_children_flatten pages fuel right cs with
    | some lc, some ls => some (lc ++ ls)
    | _, _ => none

/-- Well-formedness of the children of a table interior page under an
optional strict lower bound: every child subtree is well-formed and
non-empty, its keys exceed the bound, its cell's key is the maximum key
of the subtree and is present in it (§3 invariant 2 for SQLite-written
table trees), and the bound advances cell by cell; the right subtree is
non-empty with keys above the last cell's key. -/
def wf_table_children (flat : Nat → Option (List TableLeafCell)) (wf : Nat → Bool) :
    Option Int → List TableInteriorCell → Nat → Bool
  | lb, [], right =>
    wf right &&
    (match flat right with
     | some l => !l.isEmpty && l.all (fun e => opt_lt lb e.key)
     | none => false)
  | lb, c :: cs, right =>
    wf c.child &&
    (match flat c.child with
     | some l => !l.isEmpty && l.all (fun e => opt_lt lb e.key) &&
         l.all (fun e => decide (e.key ≤ c.key)) &&
         l.any (fun e => decide (e.key = c.key))
     | none => false) &&
    wf_table_children flat wf (some c.key) cs right

/-- Well-formedness of a table subtree as SQLite writes them (§3): leaf
cells strictly ascending by rowid; interior pages non-empty with
well-formed, ordered, non-empty children whose cells carry their
subtree's maximum key. -/
def wf_table (pages : Pages) : Nat → Nat → Bool
  | 0, _ => false
  | fuel + 1, page_id =>
    match pages page_id with
    | some (.tableLeaf _ cells) => keys_ascending (cells.map TableLeafCell.key)
    | some (.tableInterior cells right) =>
      !cells.isEmpty &&
      wf_table_children (table_flatten pages fuel)
        (fun pid => wf_table pages fuel pid) none cells right
    | _ => false

/-- `lb` strictly below `r` in record order, for an optional lower
bound (`none` = unbounded). -/
def opt_rec_lt : Option (List Int) → List Int → Bool
  | none, _ => true
  | some b, r => decide (lex_cmp b r = .lt)

/-- Strict ascending record order of a cell list, §3 invariant 1 for
index pages. -/
def recs_ascending : List (List Int) → Bool
  | [] => true
  | [_] => true
  | a :: b :: t => decide (lex_cmp a b = .lt) && recs_ascending (b :: t)

/-- The records of an index subtree in in-order (left subtree, cell
record, next subtree, ..., right subtree); `none` on a malformed tree
or out of fuel. -/
def index_flatten (pages : Pages) : Nat → Nat → Option (List (List Int))
  | 0, _ => none
  | fuel + 1, page_id =>
    match pages page_id with
    | some (.indexLeaf cells) => some cells
    | some (.indexInterior cells right) =>
      cells.foldr
        (fun c acc =>
          match index_flatten pages fuel c.child, acc with
          | some lc, some ls => some (lc ++ c.record :: ls)
          | _, _ => none)
        (index_flatten pages fuel right)
    | _ => none

/-- The records of a suffix of an index interior page (child subtrees
interleaved with cell records, then the right subtree); equal to
`index_flatten` of the page on its whole cell list. -/
def index_children_flatten (pages : Pages) (fuel : Nat) (right : Nat) :
    List IndexInteriorCell → Option (List (List Int))
  | [] => index_flatten pages fuel right
  | c :: cs =>
    match index_flatten pages fuel c.child,
        index_children_flatten pages fuel right cs with
    | some lc, some ls => some (lc ++ c.record :: ls)
    | _, _ => none

/-- Well-formedness of the children of an index interior page under an
optional strict lower bound: every child subtree is well-formed and
non-empty, its records are above the bound and strictly below the
cell's record, the cell's record is above the bound, and the bound
advances cell by cell; the right subtree is non-empty with records
above the last cell's record. -/
def wf_index_children (flat : Nat → Option (List (List Int))) (wf : Nat → Bool) :
    Option (List Int) → List IndexInteriorCell → Nat → Bool
  | lb, [], right =>
    wf right &&
    (match flat right with
     | some l => !l.isEmpty && l.all (fun r => opt_rec_lt lb r)
     | none => false)
  | lb, c :: cs, right =>
    wf c.child &&
    (match flat c.child with
     | some l => !l.isEmpty && l.all (fun r => opt_rec_lt lb r) &&
         l.all (fun r => decide (lex_cmp r c.record = .lt)) &&
         opt_rec_lt lb c.record
     | none => false) &&
    wf_index_children flat wf (some c.record) cs right

/-- Well-formedness of an index subtree as SQLite writes them (§3):
leaf records strictly ascending; interior pages non-empty with
well-formed, ordered, non-empty children separated by the cell
records. -/
def wf_index (pages : Pages) : Nat → Nat → Bool
  | 0, _ => false
  | fuel + 1, page_id =>
    match pages page_id with
    | some (.indexLeaf cells) => recs_ascending cells
    | some (.indexInterior cells right) =>
      !cells.isEmpty &&
      wf_index_children (index_flatten pages fuel)
        (fun pid => wf_index pages fuel pid) none cells right
    | _ => false

/-- The invariant tying an index cursor's parent stack to the list `R`
of records that follow the current subtree in global in-order: each
frame is a cached interior page positioned at the cell it descended
through (`idx_cell = n_cells` for a right-child descent), and `R`
concatenates each frame's remaining content top-down, starting with
the record of the cell the frame rests on. -/
def stack_rest (pages : Pages) :
    List CursorPage → List (List Int) → Prop
  | [], R => R = []
  | p :: rest, R =>
    ∃ cells right pageR restR,
      pages p.page_id = some (.indexInterior cells right) ∧
      p.n_cells = cells.length ∧ p.page_type = .indexInterior ∧
      p.is_leaf = false ∧
      ((p.idx_cell = cells.length ∧ pageR = []) ∨
       (∃ hlt : p.idx_cell < cells.length, ∃ L,
          pageR = cells[p.idx_cell].record :: L)) ∧
      R = pageR ++ restR ∧
      stack_rest pages rest restR

/-- A concrete two-level index tree: root interior page 1 with a
single cell (left child 2, record `[2, 20]`) and right child 3; leaf 2
holds record `[1, 10]`, leaf 3 holds record `[3, 30]`. -/
def pagesI : Pages := fun pid =>
  if pid = 1 then some (.indexInterior [⟨2, [2, 20]⟩] 3)
  else if pid = 2 then some (.indexLeaf [[1, 10]])
  else if pid = 3 then some (.indexLeaf [[3, 30]])
  else none

/-- The fresh cursor `BtreeCursor::new` builds on the root of
`pagesI`. -/
def cursorInew : BtreeCursor :=
  { current_page := { page_id := 1, idx_cell := 0, n_cells := 1,
                      page_type := .indexInterior, is_leaf := false },
    parent_pages := [], inited := false }

/-- A concrete two-page overflow chain (usable size 6): page 7 holds
next-id 8 and bytes `[10, 11]`, page 8 ends the chain with `[12, 13]`. -/
def pagerC : BytePages := fun pid =>
  if pid = 7 then some [0, 0, 0, 8, 10, 11]
  else if pid = 8 then some [0, 0, 0, 0, 12, 13]
  else none

/-- A concrete payload over `pagerC`: local bytes `[2, 3, 4]` (range
1..4 of the host buffer) and total size 7; the logical payload is
`[2, 3, 4, 10, 11, 12, 13]`. -/
def payloadC : BtreePayload :=
  { local_payload_buffer := [1, 2, 3, 4, 5],
    payload_info :=
      { payload_size := 7, local_start := 1, local_stop := 4, overflow := some 7 } }

/-- A leaf layout with plenty of slack, used by concrete example trees. -/
def layout0 : LeafLayout :=
  { first_freeblock := 0, fragmented_free_bytes := 0,
    cell_content_area_offset := 512, header_offset := 0 }

/-- A concrete two-level table tree: root interior page 1 with a single
cell (left child 2, key 1) and right child 3; leaf 2 holds key 1, leaf
3 holds keys 2 and 3.  This is the shape any SQLite table B-tree with
one interior level takes, and it is the failing input for the
`move_to_last` / completion-sentinel defects. -/
def pagesT2 : Pages := fun pid =>
  if pid = 1 then some (.tableInterior [⟨2, 1⟩] 3)
  else if pid = 2 then some (.tableLeaf layout0 [⟨1, [10]⟩])
  else if pid = 3 then some (.tableLeaf layout0 [⟨2, [20]⟩, ⟨3, [30]⟩])
  else none

/-- An initialized cursor resting on cell 0 of leaf page 3 of
`pagesT2`, with a consistent cache (as `CursorPage.new` builds it). -/
def cursor9 : BtreeCursor :=
  { current_page := { page_id := 3, idx_cell := 0, n_cells := 2,
                      page_type := .tableLeaf, is_leaf := true },
    parent_pages := [], inited := true }

/-- A completed cursor over the single-leaf store used by witnesses. -/
def pagesT1 : Pages := fun pid =>
  if pid = 1 then some (.tableLeaf layout0 [⟨1, [7]⟩, ⟨2, [8]⟩]) else none

/-- A cursor on `pagesT1` in the completed state (`idx_cell = n_cells + 1`,
empty parent stack). -/
def cursorT1done : BtreeCursor :=
  { current_page := { page_id := 1, idx_cell := 3, n_cells := 2,
                      page_type := .tableLeaf, is_leaf := true },
    parent_pages := [], inited := true }

/-- Modelled from the spec: big-endian 16-bit read
(`u16::from_be_bytes` on a 2-byte buffer slice, spec §3); bytes outside
the buffer read as zero. -/
def read_be16 (buf : List Nat) (off : Nat) : Nat :=
  256 * (buf[off]?).getD 0 + (buf[off + 1]?).getD 0

/-- Modelled from the spec: the big-endian byte pair a 16-bit store
writes (`(v as u16).to_be_bytes()`). -/
def be16_bytes (v : Nat) : List Nat := [v / 256 % 256, v % 256]

/-- `buffer[off..off + src.len()].copy_from_slice(src)` on a byte
buffer. -/
def write_bytes (buf : List Nat) (off : Nat) (src : List Nat) : List Nat :=
  buf.take off ++ src ++ buf.drop (off + src.length)

/-- `buffer.copy_within(a..b, dst)` on a byte buffer. -/
def copy_within (buf : List Nat) (a b dst : Nat) : List Nat :=
  write_bytes buf dst (list_slice buf a b)

/-- The decoded cell-content-area offset of the page header at
`header_offset` (`0` stored means `65536`; spec §3). -/
def page_ccao (buf : List Nat) (header_offset : Nat) : Nat :=
  if read_be16 buf (header_offset + 5) = 0 then 65536
  else read_be16 buf (header_offset + 5)

/-- The byte-level page mutation of `BtreeCursor::insert` (`cursor.rs`
lines 407-477) on the target table-leaf page (header size 8): reject a
page with freeblocks or fragmented bytes (the two `assert_eq!`), check
the free gap, allocate the new cell at the bottom of the cell content
area, store the two header fields (content-area offset first, then the
incremented cell count), shift the cell-pointer tail right by one slot
when the new cell lands between existing cells
(`current_cell_key.is_some()`), and write the new pointer, the varint
cell header and the payload.  The `usize` underflow of
`cell_content_area_offset - unallocated_space_offset` is the Rust
debug-build panic. -/
def page_insert_cell (buf : List Nat) (header_offset idx_cell n_cells : Nat)
    (insert_between : Bool) (cell_header payload : List Nat) :
    Except String (List Nat) :=
  let cell_size := cell_header.length + payload.length
  if read_be16 buf (header_offset + 1) ≠ 0 then
    .error "assertion failed: first_freeblock_offset == 0"
  else if (buf[header_offset + 7]?).getD 0 ≠ 0 then
    .error "assertion failed: fragmented_free_bytes == 0"
  else
    let cell_content_area_offset := page_ccao buf header_offset
    let header_size := 8
    let unallocated_space_offset := header_offset + header_size + 2 * n_cells
    if cell_content_area_offset < unallocated_space_offset then
      .error "attempt to subtract with overflow"
    else if cell_content_area_offset - unallocated_space_offset
        < cell_size + 2 then
      .error "todo: balance the btree"
    else
      let offset := cell_content_area_offset - cell_size
      if 65535 ≤ offset then .error "assertion failed: offset < u16::MAX"
      else if offset = 0 then .error "assertion failed: offset > 0"
      else
        let buf1 := write_bytes buf (header_offset + 5) (be16_bytes offset)
        let buf2 := write_bytes buf1 (header_offset + 3)
          (be16_bytes (n_cells + 1))
        let cell_pointer_offset :=
          if insert_between then header_offset + header_size + 2 * idx_cell
          else unallocated_space_offset
        let buf3 :=
          if insert_between then
            copy_within buf2 (header_offset + header_size + 2 * idx_cell)
              unallocated_space_offset
              (header_offset + header_size + 2 * idx_cell + 2)
          else buf2
        let buf4 := write_bytes buf3 cell_pointer_offset (be16_bytes offset)
        let buf5 := write_bytes buf4 offset cell_header
        .ok (write_bytes buf5 (offset + cell_header.length) payload)

/-- The page ids of a table subtree, root first; `none` on a malformed
tree or out of fuel.  Insertion only rewrites one page, so its frame
arguments need the tree not to alias pages. -/
def table_pids (pages : Pages) : Nat → Nat → Option (List Nat)
  | 0, _ => none
  | fuel + 1, page_id =>
    match pages page_id with
    | some (.tableLeaf _ _) => some [page_id]
    | some (.tableInterior cells right) =>
      match cells.foldr
          (fun c acc =>
            match table_pids pages fuel c.child, acc with
            | some a, some b => some (a ++ b)
            | _, _ => none)
          (table_pids pages fuel right) with
      | some ids => some (page_id :: ids)
      | none => none
    | _ => none

/-- The page ids of the child subtrees of (a suffix of) a table
interior page followed by its right subtree. -/
def table_children_pids (pages : Pages) (fuel : Nat) (right : Nat) :
    List TableInteriorCell → Option (List Nat)
  | [] => table_pids pages fuel right
  | c :: cs =>
    match table_pids pages fuel c.child,
        table_children_pids pages fuel right cs with
    | some a, some b => some (a ++ b)
    | _, _ => none

/-- `table_children_flatten` abstracted over the subtree-flatten
function, for reasoning about a store update. -/
def children_flatten_f (flat : Nat → Option (List TableLeafCell)) (right : Nat) :
    List TableInteriorCell → Option (List TableLeafCell)
  | [] => flat right
  | c :: cs =>
    match flat c.child, children_flatten_f flat right cs with
    | some lc, some ls => some (lc ++ ls)
    | _, _ => none

/-- A 32-byte table-leaf page buffer (header offset 0) holding one
4-byte cell at offset 28, with pointer `[0, 28]` and cell content area
28; used by the byte-level insert witness. -/
def bufW : List Nat :=
  [13, 0, 0, 0, 1, 0, 28, 0, 0, 28, 0, 0, 0, 0, 0, 0,
   0, 0, 0, 0, 0, 0, 0, 0, 0, 0, 0, 0, 9, 9, 9, 9]

/-- `bufW` after appending the 3-byte cell `[2, 5] ++ [9]` at offset
25: content-area offset 25, cell count 2, new pointer at slot 1. -/
def bufW2 : List Nat :=
  [13, 0, 0, 0, 2, 0, 25, 0, 0, 28, 0, 25, 0, 0, 0, 0,
   0, 0, 0, 0, 0, 0, 0, 0, 0, 2, 5, 9, 9, 9, 9, 9]

/-- The rows of `pagesT2` in key order (its `table_flatten`). -/
def rowsT2 : List TableLeafCell := [⟨1, [10]⟩, ⟨2, [20]⟩, ⟨3, [30]⟩]

/-- The fresh cursor `BtreeCursor::new` builds on the root of
`pagesT2`. -/
def cursorT2new : BtreeCursor :=
  { current_page := { page_id := 1, idx_cell := 0, n_cells := 1,
                      page_type := .tableInterior, is_leaf := false },
    parent_pages := [], inited := false }

/-!
## Theorems

Each claim of the specification gets one theorem below (plus a witness
when the theorem has hypotheses, and a counterexample where the claim
fails on the code).
-/

/-- **C9.** For an initialized cursor positioned on a table leaf page
(with its cached header fields consistent with the store, as every
cursor built by `CursorPage::new` has), `get_table_key` returns exactly
the rowid component of `get_table_payload`, and both return `none`
exactly when `idx_cell ≥ n_cells`. -/
theorem get_table_key_agrees_with_get_table_payload
    (pages : Pages) (cur : BtreeCursor) (lay : LeafLayout) (cells : List TableLeafCell)
    (hin : cur.inited = true)
    (hpg : pages cur.current_page.page_id = some (.tableLeaf lay cells))
    (hty : cur.current_page.page_type = .tableLeaf)
    (hn : cur.current_page.n_cells = cells.length)
    (hleaf : cur.current_page.is_leaf = true) :
    get_table_key pages cur
      = (get_table_payload pages cur).map (fun o => o.map Prod.fst) ∧
    (get_table_key pages cur = .ok none ↔
      cells.length ≤ cur.current_page.idx_cell) := by
  unfold get_table_key get_table_payload
  rw [hin, hpg, hty, hn, hleaf]
  by_cases h : cells.length ≤ cur.current_page.idx_cell
  · simp [h, BtreePageType.is_table, Except.map]
  · have hlt : cur.current_page.idx_cell < cells.length := Nat.lt_of_not_le h
    have hcell : cells[cur.current_page.idx_cell]? =
        some cells[cur.current_page.idx_cell] := List.getElem?_eq_getElem hlt
    simp [h, BtreePageType.is_table, table_cell_key, parse_btree_leaf_table_cell,
      hcell, Except.map]

/-- Witness for `get_table_key_agrees_with_get_table_payload` at a
concrete cursor. -/
theorem get_table_key_agrees_with_get_table_payload_witness :
    (cursor9.inited = true ∧
     pagesT2 cursor9.current_page.page_id
       = some (.tableLeaf layout0 [⟨2, [20]⟩, ⟨3, [30]⟩]) ∧
     cursor9.current_page.page_type = .tableLeaf ∧
     cursor9.current_page.n_cells = ([⟨2, [20]⟩, ⟨3, [30]⟩] : List TableLeafCell).length ∧
     cursor9.current_page.is_leaf = true) ∧
    (get_table_key pagesT2 cursor9
       = (get_table_payload pagesT2 cursor9).map (fun o => o.map Prod.fst) ∧
     (get_table_key pagesT2 cursor9 = .ok none ↔
       ([⟨2, [20]⟩, ⟨3, [30]⟩] : List TableLeafCell).length ≤ cursor9.current_page.idx_cell)) :=
  ⟨⟨by decide, by decide, by decide, by decide, by decide⟩,
   get_table_key_agrees_with_get_table_payload pagesT2 cursor9 layout0 _
     (by decide) (by decide) (by decide) (by decide) (by decide)⟩

/-- **C8 (amended).** `move_next` fails when the cursor is
uninitialized, and once the cursor is in the completed state
(`parent_pages` empty and `idx_cell = n_cells + 1`, or `n_cells = 0`)
every further `move_next` returns success and leaves the cursor — hence
the completed state — unchanged.  (The original claim's "fails *only
if* uninitialized" direction is refuted by
`move_next_fails_on_initialized_cursor`.) -/
theorem move_next_uninit_fails_completed_unchanged
    (pages : Pages) (fuel : Nat) (cur : BtreeCursor) :
    (cur.inited = false →
      move_next pages fuel cur = .error "cursor is not initialized") ∧
    (cur.inited = true → is_completed cur = true →
      move_next pages fuel cur = .ok cur) := by
  constructor
  · intro h; simp [move_next, h]
  · intro h hc; simp [move_next, h, hc]

/-- Witness for `move_next_uninit_fails_completed_unchanged` at a
concrete uninitialized cursor and a concrete completed cursor. -/
theorem move_next_uninit_fails_completed_unchanged_witness :
    (({ cursorT1done with inited := false } : BtreeCursor).inited = false →
      move_next pagesT1 5 { cursorT1done with inited := false }
        = .error "cursor is not initialized") ∧
    (cursorT1done.inited = true → is_completed cursorT1done = true →
      move_next pagesT1 5 cursorT1done = .ok cursorT1done) :=
  ⟨(move_next_uninit_fails_completed_unchanged pagesT1 5
      { cursorT1done with inited := false }).1,
   (move_next_uninit_fails_completed_unchanged pagesT1 5 cursorT1done).2⟩

/-- **C8 (counterexample).** The claim "move_next fails if and only if
the cursor is uninitialized" is false: on the well-formed two-level
table tree `pagesT2`, after the positioning operation `move_to_first`
succeeds and three `move_next` calls succeed, the cursor is initialized
yet the fourth `move_next` fails (it trips the `assert!(is_leaf)` panic
of the table branch, because the terminal state left
`idx_cell = n_cells + 2` on the root instead of the completion
sentinel `n_cells + 1`). -/
theorem move_next_fails_on_initialized_cursor :
    (do
      let c ← BtreeCursor.new pagesT2 1
      let c ← move_to_first pagesT2 9 c
      let c ← move_next pagesT2 9 c
      let c ← move_next pagesT2 9 c
      let c ← move_next pagesT2 9 c
      pure (c.inited, move_next pagesT2 9 c)) =
    .ok (true, .error "assertion failed: is_leaf") := by rfl

/-- **C4 (code bug).** On the two-level table tree `pagesT2`, a fresh
cursor's `move_to_last` does position on the maximum key 3, but the
following `move_next` does not complete the cursor: it re-descends into
the right-most leaf and yields key 2 again, because `move_to_last`
leaves every ancestor's `idx_cell` untouched (at 0) instead of marking
it consumed.  The claim requires the cursor to be completed (reads
returning `none`). -/
theorem move_to_last_then_move_next_not_completed :
    (do
      let c ← BtreeCursor.new pagesT2 1
      let c ← move_to_last pagesT2 9 c
      let k1 ← get_table_key pagesT2 c
      let c2 ← move_next pagesT2 9 c
      let k2 ← get_table_key pagesT2 c2
      pure (k1, k2, is_completed c2)) = .ok (some 3, some 2, false) := by rfl

/-- **C2 (code bug).** On the two-level table tree `pagesT2`, the
forward traversal from `move_to_first` does visit every row exactly
once in ascending key order (1, 2, 3) after which reads return `none`,
but the cursor never reaches the completed state: the final ascent
increments the root's `idx_cell` twice (to `n_cells + 2`), so
"calling move_next until the cursor is completed" cannot terminate —
the very next `move_next` hits the `assert!(is_leaf)` panic. -/
theorem table_traversal_visits_rows_but_never_completes :
    (do
      let c ← BtreeCursor.new pagesT2 1
      let c ← move_to_first pagesT2 9 c
      let k1 ← get_table_key pagesT2 c
      let c ← move_next pagesT2 9 c
      let k2 ← get_table_key pagesT2 c
      let c ← move_next pagesT2 9 c
      let k3 ← get_table_key pagesT2 c
      let c ← move_next pagesT2 9 c
      let k4 ← get_table_key pagesT2 c
      pure (k1, k2, k3, k4, is_completed c, move_next pagesT2 9 c)) =
    .ok (some 1, some 2, some 3, none, false,
         .error "assertion failed: is_leaf") := by rfl

/-- `chain_list` at a `none` head is the empty chain, at any fuel. -/
theorem chain_list_none (pager : BytePages) (usable : Nat) :
    ∀ cfuel, chain_list pager usable cfuel none = some []
  | 0 => rfl
  | _ + 1 => rfl

/-- Inverting a well-formed empty chain: it can only start at `none`. -/
theorem chain_list_eq_nil {pager : BytePages} {usable cfuel : Nat} {ov : Option Nat}
    (h : chain_list pager usable cfuel ov = some []) : ov = none := by
  cases ov with
  | none => rfl
  | some pid =>
    cases cfuel with
    | zero => simp [chain_list] at h
    | succ f =>
      unfold chain_list at h
      split at h
      · exact absurd h (by simp)
      · split at h
        · exact absurd h (by simp)
        · split at h
          · exact absurd h (by simp)
          · simp at h

/-- Inverting a well-formed non-empty chain. -/
theorem chain_list_eq_cons {pager : BytePages} {usable cfuel : Nat} {ov : Option Nat}
    {p : List Nat} {rest : List (List Nat)}
    (h : chain_list pager usable cfuel ov = some (p :: rest)) :
    ∃ pid buffer next cf, ov = some pid ∧ pager pid = some buffer ∧
      overflow_parse usable buffer = some (p, next) ∧
      chain_list pager usable cf next = some rest := by
  cases ov with
  | none =>
    rw [chain_list_none] at h
    simp at h
  | some pid =>
    cases cfuel with
    | zero => simp [chain_list] at h
    | succ f =>
      unfold chain_list at h
      split at h
      · exact absurd h (by simp)
      · rename_i buffer hbuffer
        split at h
        · exact absurd h (by simp)
        · rename_i payload next hparse
          split at h
          · exact absurd h (by simp)
          · rename_i rest0 hrest
            have h2 := Option.some.inj h
            injection h2 with hp hr
            subst hp; subst hr
            exact ⟨pid, buffer, next, f, rfl, hbuffer, hparse, hrest⟩

/-- `load_loop` on an exhausted destination buffer stops at once. -/
theorem load_loop_nil_buf (pager : BytePages) (usable : Nat) (psize : Int)
    (f : Nat) (offset cur : Int) (n0 : Nat) (ov : Option Nat) :
    load_loop pager usable psize (f + 1) offset [] n0 cur ov = .ok (n0, []) := by
  unfold load_loop
  simp

/-- List assembly for the loop step in which the current chain page is
exhausted at or before the destination. -/
theorem load_assemble_page_done (p fr buf : List Nat) (loc K2 : Nat)
    (hloc : loc ≤ p.length) :
    (p.drop loc).take (p.length - loc) ++ (fr.take K2 ++ (buf.drop (p.length - loc)).drop K2)
      = ((p ++ fr).drop loc).take (p.length - loc + K2) ++ buf.drop (p.length - loc + K2) := by
  have hAlen : (p.drop loc).length = p.length - loc := List.length_drop _ _
  have h1 : (p.drop loc).take (p.length - loc) = p.drop loc :=
    List.take_of_length_le (le_of_eq hAlen)
  have h2 : (buf.drop (p.length - loc)).drop K2 = buf.drop (p.length - loc + K2) :=
    List.drop_drop K2 _ buf
  have h3 : (p ++ fr).drop loc = p.drop loc ++ fr := by
    rw [List.drop_append_eq_append_drop, Nat.sub_eq_zero_of_le hloc, List.drop_zero]
  have h4a : (p.drop loc).take (p.length - loc + K2) = p.drop loc :=
    List.take_of_length_le (by omega)
  have h4b : p.length - loc + K2 - (p.drop loc).length = K2 := by omega
  have h4 : (p.drop loc ++ fr).take (p.length - loc + K2) = p.drop loc ++ fr.take K2 := by
    rw [List.take_append_eq_append_take, h4a, h4b]
  rw [h1, h2, h3, h4, List.append_assoc]

/-- List assembly for the loop step in which the destination is
exhausted inside the current chain page. -/
theorem load_assemble_buf_done (p fr buf : List Nat) (loc : Nat)
    (hloc : loc ≤ p.length) (hbuf : buf.length ≤ p.length - loc) :
    (p.drop loc).take buf.length ++ ([] : List Nat)
      = ((p ++ fr).drop loc).take buf.length ++ buf.drop buf.length := by
  have hAlen : (p.drop loc).length = p.length - loc := List.length_drop _ _
  have h3 : (p ++ fr).drop loc = p.drop loc ++ fr := by
    rw [List.drop_append_eq_append_drop, Nat.sub_eq_zero_of_le hloc, List.drop_zero]
  have h4 : (p.drop loc ++ fr).take buf.length
      = (p.drop loc).take buf.length ++ fr.take (buf.length - (p.drop loc).length) :=
    List.take_append_eq_append_take
  have h5 : buf.length - (p.drop loc).length = 0 := by omega
  rw [h3, h4, h5, List.take_zero, List.append_nil, List.drop_length, List.append_nil]

/-- List assembly for the loop step that skips a chain page entirely. -/
theorem load_assemble_skip (p fr buf : List Nat) (loc K : Nat)
    (hloc : p.length ≤ loc) :
    (fr.drop (loc - p.length)).take K ++ buf.drop K
      = ((p ++ fr).drop loc).take K ++ buf.drop K := by
  rw [List.drop_append_eq_append_drop, List.drop_of_length_le hloc, List.nil_append]

/-- The overflow-walk loop of `load` copies exactly the in-range bytes:
over a well-formed chain holding `payload_size - cur` bytes, starting at
or past `cur`, the loop succeeds, loads `min (payload_size - offset)
|buf|` further bytes, and the destination becomes the chain bytes from
`offset` on followed by its untouched tail. -/
theorem load_loop_ok (pager : BytePages) (usable : Nat) (psize : Int)
    (ps : List (List Nat)) :
    ∀ (cfuel fuel : Nat) (offset cur : Int)
      (buf : List Nat) (n0 : Nat) (ov : Option Nat),
      chain_list pager usable cfuel ov = some ps →
      psize = cur + ((ps.map List.length).sum : Int) →
      cur ≤ offset →
      ps.length < fuel →
      load_loop pager usable psize fuel offset buf n0 cur ov =
        .ok (n0 + min (psize - offset).toNat buf.length,
          (ps.flatten.drop (offset - cur).toNat).take
              (min (psize - offset).toNat buf.length) ++
            buf.drop (min (psize - offset).toNat buf.length)) := by
  induction ps with
  | nil =>
    intro cfuel fuel offset cur buf n0 ov hch hsz hco hfuel
    have hov := chain_list_eq_nil hch
    subst hov
    obtain ⟨f, rfl⟩ : ∃ f, fuel = f + 1 := ⟨fuel - 1, by omega⟩
    have hsz' : psize = cur := by simpa using hsz
    have hk : min (psize - offset).toNat buf.length = 0 := by
      have : (psize - offset).toNat = 0 := by omega
      simp [this]
    rw [load_loop, if_neg (fun hc => absurd hc.2 (by omega)), hk]
    simp
  | cons p rest ih =>
    intro cfuel fuel offset cur buf n0 ov hch hsz hco hfuel
    obtain ⟨pid, buffer, next, cf, hov, hpager, hparse, hrest⟩ := chain_list_eq_cons hch
    subst hov
    obtain ⟨f, rfl⟩ : ∃ f, fuel = f + 1 := ⟨fuel - 1, by omega⟩
    have hfuel' : rest.length < f := by
      simp only [List.length_cons] at hfuel; omega
    have hsz' : psize = cur + (p.length : Int) + ((rest.map List.length).sum : Int) := by
      rw [hsz]; push_cast [List.map_cons, List.sum_cons]; ring
    have hS : (0 : Int) ≤ ((rest.map List.length).sum : Int) := by positivity
    rw [load_loop]
    by_cases hcond : buf ≠ [] ∧ cur < psize
    · rw [if_pos hcond]
      simp only [hpager, hparse]
      by_cases hin : offset < cur + (p.length : Int)
      · rw [if_pos hin]
        have hloc : ((offset - cur).toNat : Int) = offset - cur := by omega
        have hloc_lt : (offset - cur).toNat < p.length := by omega
        by_cases hbuf : p.length - (offset - cur).toNat ≤ buf.length
        · -- the page is exhausted before (or exactly when) the buffer is
          have hn : min (p.length - (offset - cur).toNat) buf.length
              = p.length - (offset - cur).toNat := min_eq_left hbuf
          have hco2 : cur + (p.length : Int)
              ≤ offset + ((p.length - (offset - cur).toNat : Nat) : Int) := by
            omega
          have hkey := ih cf f (offset + ((p.length - (offset - cur).toNat : Nat) : Int))
            (cur + (p.length : Int)) (buf.drop (p.length - (offset - cur).toNat))
            (n0 + (p.length - (offset - cur).toNat)) next hrest
            (by rw [hsz']) hco2 hfuel'
          have hdz : ((offset + ((p.length - (offset - cur).toNat : Nat) : Int))
              - (cur + (p.length : Int))).toNat = 0 := by omega
          rw [hdz] at hkey
          simp only [hn, hkey, List.drop_zero, List.length_drop,
            Except.ok.injEq, Prod.mk.injEq]
          constructor
          · omega
          · have hKK : min (psize - offset).toNat buf.length
                = (p.length - (offset - cur).toNat) +
                  min (psize - (offset + ((p.length - (offset - cur).toNat : Nat) : Int))).toNat
                    (buf.length - (p.length - (offset - cur).toNat)) := by
              omega
            rw [hKK, List.flatten_cons,
              load_assemble_page_done p rest.flatten buf (offset - cur).toNat _
                (le_of_lt hloc_lt)]
        · -- the buffer is exhausted inside this page
          have hn : min (p.length - (offset - cur).toNat) buf.length = buf.length :=
            min_eq_right (by omega)
          obtain ⟨f2, rfl⟩ : ∃ f2, f = f2 + 1 := ⟨f - 1, by omega⟩
          simp only [hn, List.drop_length, load_loop_nil_buf,
            Except.ok.injEq, Prod.mk.injEq]
          have hK : min (psize - offset).toNat buf.length = buf.length := by
            omega
          rw [hK]
          constructor
          · rfl
          · rw [List.flatten_cons,
              load_assemble_buf_done p rest.flatten buf (offset - cur).toNat (by omega) (by omega)]
      · rw [if_neg hin]
        have hco2 : cur + (p.length : Int) ≤ offset := by omega
        rw [ih cf f offset (cur + (p.length : Int)) buf n0 next hrest
          (by rw [hsz']) hco2 hfuel']
        have h2 : (offset - (cur + (p.length : Int))).toNat
            = (offset - cur).toNat - p.length := by omega
        rw [h2, List.flatten_cons,
          load_assemble_skip p rest.flatten buf (offset - cur).toNat _ (by omega)]
    · rw [if_neg hcond]
      have hk : min (psize - offset).toNat buf.length = 0 := by
        rcases not_and_or.mp hcond with h | h
        · have hb : buf = [] := not_not.mp h
          simp [hb]
        · have : (psize - offset).toNat = 0 := by omega
          simp [this]
      rw [hk]
      simp

/-- `BtreePayload::load` succeeds on any in-range offset over a
well-formed payload (a chain whose bytes complete `payload_size`), and
fills the destination with the logical payload bytes from the offset
on: it loads `min (size - offset) |buf|` bytes. -/
theorem load_ok_spec (pager : BytePages) (usable cfuel fuel : Nat)
    (p : BtreePayload) (offset : Int) (buf : List Nat) (ps : List (List Nat))
    (hch : chain_list pager usable cfuel p.payload_info.overflow = some ps)
    (hsz : p.payload_info.payload_size
      = (p.buf.length : Int) + ((ps.map List.length).sum : Int))
    (hoff : 0 ≤ offset) (hlt : offset < p.payload_info.payload_size)
    (hfuel : ps.length < fuel) :
    BtreePayload.load pager usable fuel p offset buf =
      .ok (min (p.payload_info.payload_size - offset).toNat buf.length,
        ((p.buf ++ ps.flatten).drop offset.toNat).take
            (min (p.payload_info.payload_size - offset).toNat buf.length) ++
          buf.drop (min (p.payload_info.payload_size - offset).toNat buf.length)) := by
  have hS : (0 : Int) ≤ ((ps.map List.length).sum : Int) := by positivity
  unfold BtreePayload.load
  rw [if_neg (not_lt.mpr hoff), if_neg (not_le.mpr hlt)]
  by_cases hl : offset < (p.buf.length : Int)
  · rw [if_pos hl]
    have hloc_le : offset.toNat ≤ p.buf.length := by omega
    by_cases hbuf : p.buf.length - offset.toNat ≤ buf.length
    · -- the local prefix is exhausted before (or exactly when) the buffer is
      have hn : min (p.buf.length - offset.toNat) buf.length
          = p.buf.length - offset.toNat := min_eq_left hbuf
      have hco2 : (p.buf.length : Int)
          ≤ offset + ((p.buf.length - offset.toNat : Nat) : Int) := by omega
      have hkey := load_loop_ok pager usable p.payload_info.payload_size ps cfuel fuel
        (offset + ((p.buf.length - offset.toNat : Nat) : Int)) (p.buf.length : Int)
        (buf.drop (p.buf.length - offset.toNat)) (p.buf.length - offset.toNat)
        p.payload_info.overflow hch (by rw [hsz]) hco2 hfuel
      have hdz : ((offset + ((p.buf.length - offset.toNat : Nat) : Int))
          - (p.buf.length : Int)).toNat = 0 := by omega
      rw [hdz] at hkey
      simp only [hn, hkey, List.drop_zero, List.length_drop,
        Except.ok.injEq, Prod.mk.injEq]
      constructor
      · omega
      · have hKK : min (p.payload_info.payload_size - offset).toNat buf.length
            = (p.buf.length - offset.toNat) +
              min (p.payload_info.payload_size
                - (offset + ((p.buf.length - offset.toNat : Nat) : Int))).toNat
                (buf.length - (p.buf.length - offset.toNat)) := by
          omega
        rw [hKK, load_assemble_page_done p.buf ps.flatten buf offset.toNat _ hloc_le]
    · -- the buffer is exhausted inside the local prefix
      have hn : min (p.buf.length - offset.toNat) buf.length = buf.length :=
        min_eq_right (by omega)
      obtain ⟨f2, rfl⟩ : ∃ f2, fuel = f2 + 1 := ⟨fuel - 1, by omega⟩
      simp only [hn, List.drop_length, load_loop_nil_buf,
        Except.ok.injEq, Prod.mk.injEq]
      have hK : min (p.payload_info.payload_size - offset).toNat buf.length
          = buf.length := by omega
      rw [hK]
      constructor
      · rfl
      · rw [load_assemble_buf_done p.buf ps.flatten buf offset.toNat hloc_le (by omega)]
  · rw [if_neg hl]
    have hco2 : (p.buf.length : Int) ≤ offset := by omega
    rw [load_loop_ok pager usable p.payload_info.payload_size ps cfuel fuel
      offset (p.buf.length : Int) buf 0 p.payload_info.overflow hch (by rw [hsz])
      hco2 hfuel]
    have h2 : (offset - (p.buf.length : Int)).toNat
        = offset.toNat - p.buf.length := by omega
    rw [h2, Nat.zero_add,
      load_assemble_skip p.buf ps.flatten buf offset.toNat _ (by omega)]

/-- **C7.** For a payload over a well-formed overflow chain and any
valid offset `0 ≤ o < size()`, `load(o, dest)` succeeds, loads exactly
`min (size() - o) |dest|` bytes, and the bytes written are bytes `o`
onward of the logical payload (the local prefix `buf()` followed by the
chain bytes); the untouched tail of the destination is preserved.  In
particular `load(0, buf)` with `|buf| ≥ size()` returns `size()` bytes
whose first `|buf()|` bytes equal `buf()`. -/
theorem load_reads_logical_payload (pager : BytePages) (usable cfuel fuel : Nat)
    (p : BtreePayload) (offset : Int) (buf : List Nat) (ps : List (List Nat))
    (hch : chain_list pager usable cfuel p.payload_info.overflow = some ps)
    (hsz : p.payload_info.payload_size
      = (p.buf.length : Int) + ((ps.map List.length).sum : Int))
    (hoff : 0 ≤ offset) (hlt : offset < p.payload_info.payload_size)
    (hfuel : ps.length < fuel) :
    BtreePayload.load pager usable fuel p offset buf =
      .ok (min (p.payload_info.payload_size - offset).toNat buf.length,
        ((p.buf ++ ps.flatten).drop offset.toNat).take
            (min (p.payload_info.payload_size - offset).toNat buf.length) ++
          buf.drop (min (p.payload_info.payload_size - offset).toNat buf.length)) :=
  load_ok_spec pager usable cfuel fuel p offset buf ps hch hsz hoff hlt hfuel

/-- Witness for `load_reads_logical_payload`: loading 3 bytes from
offset 2 of the 7-byte payload `[2, 3, 4, 10, 11, 12, 13]` yields
`[4, 10, 11]`. -/
theorem load_reads_logical_payload_witness :
    (chain_list pagerC 6 3 payloadC.payload_info.overflow = some [[10, 11], [12, 13]] ∧
     payloadC.payload_info.payload_size
       = (payloadC.buf.length : Int)
         + ((([[10, 11], [12, 13]] : List (List Nat)).map List.length).sum : Int) ∧
     (0 : Int) ≤ 2 ∧ (2 : Int) < payloadC.payload_info.payload_size ∧
     ([[10, 11], [12, 13]] : List (List Nat)).length < 5) ∧
    BtreePayload.load pagerC 6 5 payloadC 2 [0, 0, 0] =
      .ok (min (payloadC.payload_info.payload_size - 2).toNat 3,
        ((payloadC.buf ++ ([[10, 11], [12, 13]] : List (List Nat)).flatten).drop
            (2 : Int).toNat).take
            (min (payloadC.payload_info.payload_size - 2).toNat 3) ++
          ([0, 0, 0] : List Nat).drop
            (min (payloadC.payload_info.payload_size - 2).toNat 3)) :=
  ⟨⟨by rfl, by decide, by decide, by decide, by decide⟩,
   load_reads_logical_payload pagerC 6 3 5 payloadC 2 [0, 0, 0] [[10, 11], [12, 13]]
     (by rfl) (by decide) (by decide) (by decide) (by decide)⟩

/-- **C6.** `Payload::load` fails exactly when the offset is negative
or at least the payload's total size (given a well-formed overflow
chain, which rules out the decode failures of the corrupt-file error
class).  The model's `load` is a pure function of the payload and the
pager — as the source's `&self` method is — so a failing call leaves
every observable cursor and payload state unchanged by construction. -/
theorem load_fails_iff_offset_out_of_range (pager : BytePages)
    (usable cfuel fuel : Nat) (p : BtreePayload) (offset : Int) (buf : List Nat)
    (ps : List (List Nat))
    (hch : chain_list pager usable cfuel p.payload_info.overflow = some ps)
    (hsz : p.payload_info.payload_size
      = (p.buf.length : Int) + ((ps.map List.length).sum : Int))
    (hfuel : ps.length < fuel) :
    (∃ e, BtreePayload.load pager usable fuel p offset buf = .error e) ↔
      (offset < 0 ∨ p.payload_info.payload_size ≤ offset) := by
  constructor
  · intro ⟨e, he⟩
    by_contra hc
    push_neg at hc
    rw [load_ok_spec pager usable cfuel fuel p offset buf ps hch hsz hc.1
      hc.2 hfuel] at he
    exact absurd he (by simp)
  · intro h
    by_cases h0 : offset < 0
    · exact ⟨"offset must be non-negative", by rw [BtreePayload.load, if_pos h0]⟩
    · have hge : p.payload_info.payload_size ≤ offset := by
        rcases h with h | h
        · exact absurd h h0
        · exact h
      exact ⟨"offset exceeds payload size",
        by rw [BtreePayload.load, if_neg h0, if_pos hge]⟩

/-- Witness for `load_fails_iff_offset_out_of_range`: loading at
offset 7 (= the payload size) of the concrete payload fails. -/
theorem load_fails_iff_offset_out_of_range_witness :
    (chain_list pagerC 6 3 payloadC.payload_info.overflow = some [[10, 11], [12, 13]] ∧
     payloadC.payload_info.payload_size
       = (payloadC.buf.length : Int)
         + ((([[10, 11], [12, 13]] : List (List Nat)).map List.length).sum : Int) ∧
     ([[10, 11], [12, 13]] : List (List Nat)).length < 5) ∧
    ((∃ e, BtreePayload.load pagerC 6 5 payloadC 7 [0] = .error e) ↔
      ((7 : Int) < 0 ∨ payloadC.payload_info.payload_size ≤ 7)) :=
  ⟨⟨by rfl, by decide, by decide⟩,
   load_fails_iff_offset_out_of_range pagerC 6 3 5 payloadC 7 [0] [[10, 11], [12, 13]]
     (by rfl) (by decide) (by decide)⟩

/-- `keys_ascending` gives strict pairwise order. -/
theorem keys_ascending_pairwise : ∀ ks : List Int,
    keys_ascending ks = true → List.Pairwise (· < ·) ks
  | [], _ => List.Pairwise.nil
  | [a], _ => by simp
  | a :: b :: t, h => by
    unfold keys_ascending at h
    rw [Bool.and_eq_true, decide_eq_true_eq] at h
    have ih := keys_ascending_pairwise (b :: t) h.2
    refine List.Pairwise.cons ?_ ih
    intro x hx
    rcases List.mem_cons.mp hx with rfl | hx
    · exact h.1
    · exact lt_trans h.1 (List.rel_of_pairwise_cons ih hx)

/-- `find?` returns the element at the first index where the predicate
holds. -/
theorem find?_eq_getElem? {α : Type} (p : α → Bool) :
    ∀ (l : List α) (i : Nat), i ≤ l.length →
      (∀ (j : Nat) (hj : j < l.length), j < i → p l[j] = false) →
      (∀ h : i < l.length, p l[i] = true) →
      l.find? p = l[i]?
  | [], i, hle, _, _ => by simp
  | a :: t, 0, hle, hlt, hge => by
    have ha : p a = true := hge (by simp)
    simp [List.find?_cons_of_pos _ ha]
  | a :: t, i + 1, hle, hlt, hge => by
    have ha : p a = false := hlt 0 (by simp) (by omega)
    rw [List.find?_cons_of_neg _ (by simp [ha])]
    rw [find?_eq_getElem? p t i (by simpa using hle)
      (fun j hj hji => by simpa using hlt (j + 1) (by simpa using hj) (by omega))
      (fun h => by simpa using hge (by simpa using h))]
    simp

/-- The table binary search (`cursor.rs` lines 184-204) is a
lower-bound search: on a page whose keys are strictly ascending it
returns the least index whose key is `≥` the probe (or `n_cells`),
remembering that index's key. -/
theorem table_bin_search_spec (pg : Page) (key : Int) (keys : List Int)
    (hsorted : List.Pairwise (· < ·) keys)
    (hget : ∀ (i : Nat) (h : i < keys.length), table_cell_key pg i = some keys[i]) :
    ∀ (fuel i_min i_max : Nat) (acc : Option Int),
      i_max ≤ keys.length → i_min ≤ i_max → i_max - i_min < fuel →
      (∀ (j : Nat) (hj : j < keys.length), j < i_min → keys[j] < key) →
      (∀ (j : Nat) (hj : j < keys.length), i_max ≤ j → key ≤ keys[j]) →
      acc = keys[i_max]? →
      ∃ i, table_bin_search pg key fuel i_min i_max acc = .ok (i, keys[i]?) ∧
        i ≤ keys.length ∧
        (∀ (j : Nat) (hj : j < keys.length), j < i → keys[j] < key) ∧
        (∀ h : i < keys.length, key ≤ keys[i]) := by
  have hmono : ∀ (j1 j2 : Nat) (h1 : j1 < keys.length) (h2 : j2 < keys.length),
      j1 < j2 → keys[j1] < keys[j2] := by
    intro j1 j2 h1 h2 hj
    exact List.pairwise_iff_getElem.mp hsorted j1 j2 h1 h2 hj
  intro fuel
  induction fuel with
  | zero =>
    intro i_min i_max acc h1 h2 h3
    exact absurd h3 (by omega)
  | succ f ihf =>
    intro i_min i_max acc hmax hmm hfuel hlo hhi hacc
    rw [table_bin_search]
    by_cases hlt : i_min < i_max
    · rw [if_pos hlt]
      have hmid_lt : (i_min + i_max) / 2 < keys.length := by omega
      have hcmp := hget ((i_min + i_max) / 2) hmid_lt
      rcases lt_trichotomy key keys[(i_min + i_max) / 2] with hc | hc | hc
      · have hcc : compare key keys[(i_min + i_max) / 2] = .lt := compare_lt_iff_lt.mpr hc
        simp only [hcmp, hcc]
        exact ihf i_min ((i_min + i_max) / 2) (some keys[(i_min + i_max) / 2])
          (by omega) (by omega) (by omega) hlo
          (fun j hj hge => le_trans (le_of_lt hc)
            (by
              rcases Nat.eq_or_lt_of_le hge with rfl | hgt
              · exact le_refl _
              · exact le_of_lt (hmono _ _ hmid_lt hj hgt)))
          ((List.getElem?_eq_getElem hmid_lt).symm)
      · have hcc : compare key keys[(i_min + i_max) / 2] = .eq := by
          rw [compare_eq_iff_eq]; exact hc
        simp only [hcmp, hcc]
        refine ⟨(i_min + i_max) / 2, ?_, by omega, ?_, ?_⟩
        · rw [List.getElem?_eq_getElem hmid_lt]
        · intro j hj hji
          rw [hc]
          exact hmono _ _ hj hmid_lt hji
        · intro h
          exact le_of_eq hc
      · have hcc : compare key keys[(i_min + i_max) / 2] = .gt := compare_gt_iff_gt.mpr hc
        simp only [hcmp, hcc]
        exact ihf ((i_min + i_max) / 2 + 1) i_max acc
          (by omega) (by omega) (by omega)
          (fun j hj hji => by
            rcases Nat.lt_succ_iff_lt_or_eq.mp hji with hji | rfl
            · exact lt_of_lt_of_le (hmono _ _ hj hmid_lt hji) (le_of_lt hc)
            · exact hc)
          hhi hacc
    · rw [if_neg hlt]
      have : i_min = i_max := by omega
      subst this
      exact ⟨i_min, by rw [hacc], by omega, hlo, fun h => hhi i_min h (le_refl _)⟩

/-- `table_flatten` of an interior page is the concatenation of its
children's rows followed by its right subtree's rows. -/
theorem table_children_flatten_foldr (pages : Pages) (fuel right : Nat) :
    ∀ cells : List TableInteriorCell,
      cells.foldr
        (fun c acc =>
          match table_flatten pages fuel c.child, acc with
          | some lc, some ls => some (lc ++ ls)
          | _, _ => none)
        (table_flatten pages fuel right)
      = table_children_flatten pages fuel right cells
  | [] => rfl
  | c :: cs => by
    simp only [List.foldr_cons, table_children_flatten,
      table_children_flatten_foldr pages fuel right cs]

/-- `table_flatten` of an interior page is the concatenation of its
children's rows followed by its right subtree's rows. -/
theorem table_flatten_interior (pages : Pages) (fuel : Nat) (page_id : Nat)
    (cells : List TableInteriorCell) (right : Nat)
    (hpg : pages page_id = some (.tableInterior cells right)) :
    table_flatten pages (fuel + 1) page_id
      = table_children_flatten pages fuel right cells := by
  rw [table_flatten, hpg]
  exact table_children_flatten_foldr pages fuel right cells

/-- `wf_table` needs positive fuel and an existing page. -/
theorem wf_table_fuel_pos {pages : Pages} {fuel page_id : Nat}
    (h : wf_table pages fuel page_id = true) : 0 < fuel := by
  cases fuel with
  | zero => simp [wf_table] at h
  | succ f => omega

/-- What `wf_table_children` guarantees about the rows under an
interior page: the children's rows exist and decompose around any cell
index, cell keys are strictly ascending and bound their subtrees. -/
theorem wf_children_facts (pages : Pages) (fuel : Nat) :
    ∀ (cells : List TableInteriorCell) (lb : Option Int) (right : Nat),
      wf_table_children (table_flatten pages fuel)
        (fun pid => wf_table pages fuel pid) lb cells right = true →
      ∃ L, table_children_flatten pages fuel right cells = some L ∧
        (∀ e ∈ L, opt_lt lb e.key = true) ∧
        (∀ k ∈ cells.map TableInteriorCell.key, opt_lt lb k = true) ∧
        List.Pairwise (· < ·) (cells.map TableInteriorCell.key) ∧
        (∀ (i : Nat) (h : i < cells.length),
          ∃ Pre li Suf, L = Pre ++ li ++ Suf ∧
            wf_table pages fuel cells[i].child = true ∧
            table_flatten pages fuel cells[i].child = some li ∧
            li ≠ [] ∧
            (∀ e ∈ Pre, ∃ (j : Nat) (hj : j < cells.length),
              j < i ∧ e.key ≤ cells[j].key) ∧
            (∀ e ∈ li, e.key ≤ cells[i].key) ∧
            (∃ e ∈ li, e.key = cells[i].key) ∧
            (∀ e ∈ Suf, cells[i].key < e.key)) ∧
        (∃ Pre Lr, L = Pre ++ Lr ∧
          wf_table pages fuel right = true ∧
          table_flatten pages fuel right = some Lr ∧
          Lr ≠ [] ∧
          (∀ e ∈ Pre, ∃ (j : Nat) (hj : j < cells.length), e.key ≤ cells[j].key))
  | [], lb, right, h => by
    unfold wf_table_children at h
    rw [Bool.and_eq_true] at h
    obtain ⟨hwf, hmatch⟩ := h
    match hflat : table_flatten pages fuel right with
    | none => rw [hflat] at hmatch; simp at hmatch
    | some l =>
      rw [hflat] at hmatch
      rw [Bool.and_eq_true] at hmatch
      obtain ⟨hne, hbound⟩ := hmatch
      refine ⟨l, hflat, fun e he => (List.all_eq_true.mp hbound) e he,
        by simp, by simp, fun i hi => absurd hi (by simp), ?_⟩
      exact ⟨[], l, by simp, hwf, rfl, by simpa using hne,
        fun e he => absurd he (by simp)⟩
  | c :: cs, lb, right, h => by
    unfold wf_table_children at h
    rw [Bool.and_eq_true, Bool.and_eq_true] at h
    obtain ⟨⟨hwfc, hmatch⟩, hrec⟩ := h
    match hflatc : table_flatten pages fuel c.child with
    | none => rw [hflatc] at hmatch; simp at hmatch
    | some lc =>
      rw [hflatc] at hmatch
      rw [Bool.and_eq_true, Bool.and_eq_true, Bool.and_eq_true] at hmatch
      obtain ⟨⟨⟨hne, hlb⟩, hle⟩, hany⟩ := hmatch
      have hlb' : ∀ e ∈ lc, opt_lt lb e.key = true := List.all_eq_true.mp hlb
      have hle' : ∀ e ∈ lc, e.key ≤ c.key := fun e he => by
        simpa using (List.all_eq_true.mp hle) e he
      have hany' : ∃ e ∈ lc, e.key = c.key := by
        obtain ⟨e, he, hek⟩ := List.any_eq_true.mp hany
        exact ⟨e, he, by simpa using hek⟩
      have hlbc : opt_lt lb c.key = true := by
        obtain ⟨e, he, hek⟩ := hany'
        rw [← hek]
        exact hlb' e he
      obtain ⟨L', hL', hbound', hkeys', hpair', hidx', hright'⟩ :=
        wf_children_facts pages fuel cs (some c.key) right hrec
      have hboundL' : ∀ e ∈ L', c.key < e.key := fun e he => by
        simpa [opt_lt] using hbound' e he
      have hL : table_children_flatten pages fuel right (c :: cs) = some (lc ++ L') := by
        unfold table_children_flatten
        rw [hflatc, hL']
      have hkstep : ∀ k ∈ cs.map TableInteriorCell.key, c.key < k := fun k hk => by
        simpa [opt_lt] using hkeys' k hk
      have htrans : ∀ e ∈ lc ++ L', opt_lt lb e.key = true := by
        intro e he
        rcases List.mem_append.mp he with he | he
        · exact hlb' e he
        · cases lb with
          | none => rfl
          | some b =>
            have h1 : b < c.key := by simpa [opt_lt] using hlbc
            have h2 : c.key < e.key := hboundL' e he
            simp [opt_lt]; omega
      refine ⟨lc ++ L', hL, htrans, ?_, ?_, ?_, ?_⟩
      · intro k hk
        rcases (by simpa using hk : k = c.key ∨ ∃ a ∈ cs, a.key = k) with rfl | ⟨a, ha, rfl⟩
        · exact hlbc
        · cases lb with
          | none => rfl
          | some b =>
            have h1 : b < c.key := by simpa [opt_lt] using hlbc
            have h2 : c.key < a.key := hkstep a.key (List.mem_map.mpr ⟨a, ha, rfl⟩)
            simp [opt_lt]; omega
      · simp only [List.map_cons]
        exact List.Pairwise.cons (fun k hk => hkstep k hk) hpair'
      · intro i hi
        match i with
        | 0 =>
          refine ⟨[], lc, L', by simp, hwfc, hflatc, by simpa using hne, by simp,
            ?_, ?_, ?_⟩
          · intro e he
            simpa using hle' e he
          · simpa using hany'
          · intro e he
            simpa using hboundL' e he
        | i + 1 =>
          have hi' : i < cs.length := by simpa using hi
          obtain ⟨Pre, li, Suf, hdec, hwf, hflat, hne2, hpre, hli, hpres, hsuf⟩ :=
            hidx' i hi'
          refine ⟨lc ++ Pre, li, Suf, by rw [hdec]; simp, by simpa using hwf,
            by simpa using hflat, hne2, ?_, by simpa using hli,
            by simpa using hpres, by simpa using hsuf⟩
          intro e he
          rcases List.mem_append.mp he with he | he
          · exact ⟨0, by simp, by omega, by simpa using hle' e he⟩
          · obtain ⟨j, hj, hji, hjk⟩ := hpre e he
            exact ⟨j + 1, by simpa using hj, by omega, by simpa using hjk⟩
      · obtain ⟨Pre, Lr, hdec, hwfr, hflatr, hner, hpre⟩ := hright'
        refine ⟨lc ++ Pre, Lr, by rw [hdec]; simp, hwfr, hflatr, hner, ?_⟩
        intro e he
        rcases List.mem_append.mp he with he | he
        · exact ⟨0, by simp, by simpa using hle' e he⟩
        · obtain ⟨j, hj, hjk⟩ := hpre e he
          exact ⟨j + 1, by simpa using hj, by simpa using hjk⟩

/-- A well-formed subtree's pages exist. -/
theorem wf_table_page_ex {pages : Pages} {fuel pid : Nat}
    (h : wf_table pages fuel pid = true) : ∃ pg, pages pid = some pg := by
  cases fuel with
  | zero => simp [wf_table] at h
  | succ f =>
    unfold wf_table at h
    match hpg : pages pid with
    | none => rw [hpg] at h; exact absurd h (by simp)
    | some pg => exact ⟨pg, rfl⟩

/-- The per-page loop of `table_move_to` on a well-formed table subtree:
it reaches a leaf, sets the lower-bound cell index there, returns the
key under that index, and the subtree's rows split as
`P ++ leaf cells ++ Q` with `P` strictly below and `Q` strictly above
the probe key. -/
theorem table_move_to_loop_spec (pages : Pages) (key : Int) :
    ∀ (fuel : Nat) (cur : BtreeCursor) (l : List TableLeafCell),
      wf_table pages fuel cur.current_page.page_id = true →
      table_flatten pages fuel cur.current_page.page_id = some l →
      cache_ok pages cur.current_page →
      ∃ cur2 lay cells P Q,
        table_move_to_loop pages key fuel cur
          = .ok (cur2, (cells.map TableLeafCell.key)[cur2.current_page.idx_cell]?) ∧
        pages cur2.current_page.page_id = some (.tableLeaf lay cells) ∧
        cur2.current_page.page_type = .tableLeaf ∧
        cur2.current_page.is_leaf = true ∧
        cur2.current_page.n_cells = cells.length ∧
        cur2.inited = true ∧
        l = P ++ cells ++ Q ∧
        (∀ e ∈ P, e.key < key) ∧ (∀ e ∈ Q, key < e.key) ∧
        cur2.current_page.idx_cell ≤ cells.length ∧
        (∀ (j : Nat) (hj : j < cells.length),
          j < cur2.current_page.idx_cell → cells[j].key < key) ∧
        (∀ h : cur2.current_page.idx_cell < cells.length,
          key ≤ cells[cur2.current_page.idx_cell].key) ∧
        keys_ascending (cells.map TableLeafCell.key) = true ∧
        ((∃ e ∈ l, key ≤ e.key) → cur2.current_page.idx_cell < cells.length) ∧
        (∀ e ∈ Q, ∀ h : cur2.current_page.idx_cell < cells.length,
          cells[cur2.current_page.idx_cell].key < e.key) := by
  intro fuel
  induction fuel with
  | zero =>
    intro cur l hwf
    simp [wf_table] at hwf
  | succ fuel ih =>
    intro cur l hwf hflat hcache
    obtain ⟨pg, hpg, hcn, hct, hcl⟩ := hcache
    rw [wf_table, hpg] at hwf
    match pg, hpg, hcn, hct, hcl with
    | .tableLeaf lay cells, hpg, hcn, hct, hcl =>
      have hcn2 : cur.current_page.n_cells = cells.length := by rw [hcn]; rfl
      have hcl2 : cur.current_page.is_leaf = true := by rw [hcl]; rfl
      have hct2 : cur.current_page.page_type = .tableLeaf := by rw [hct]; rfl
      have hwf2 : keys_ascending (cells.map TableLeafCell.key) = true := hwf
      have hl : cells = l := by
        rw [table_flatten, hpg] at hflat
        exact Option.some.inj hflat
      subst hl
      have hsorted := keys_ascending_pairwise _ hwf2
      have hget : ∀ (i : Nat) (h : i < (cells.map TableLeafCell.key).length),
          table_cell_key (Page.tableLeaf lay cells) i
            = some (cells.map TableLeafCell.key)[i] := by
        intro i h
        rw [List.length_map] at h
        simp [table_cell_key, List.getElem?_eq_getElem h]
      obtain ⟨i, hsearch, hle, hlo, hhi⟩ := table_bin_search_spec
        (Page.tableLeaf lay cells) key (cells.map TableLeafCell.key) hsorted hget
        (cur.current_page.n_cells + 1) 0 cur.current_page.n_cells none
        (by simp [hcn2]) (by omega) (by omega)
        (fun j hj hji => absurd hji (by omega))
        (fun j hj hge => by rw [List.length_map] at hj; omega)
        (by rw [List.getElem?_eq_none (by simp [hcn2])])
      rw [List.length_map] at hle
      have hta : ¬ ((!cur.current_page.page_type.is_table) = true) := by
        rw [hct2]; simp [BtreePageType.is_table]
      rw [table_move_to_loop, if_neg hta]
      simp only [hpg, hsearch]
      rw [if_pos hcl2]
      have hlo2 : ∀ (j : Nat) (hj : j < cells.length), j < i → cells[j].key < key := by
        intro j hj hji
        have := hlo j (by simpa using hj) hji
        rwa [List.getElem_map] at this
      have hhi2 : ∀ h : i < cells.length, key ≤ cells[i].key := by
        intro h
        have := hhi (by simpa using h)
        rwa [List.getElem_map] at this
      have hex : (∃ e ∈ cells, key ≤ e.key) → i < cells.length := by
        rintro ⟨e, he, hke⟩
        obtain ⟨m, hm, rfl⟩ := List.mem_iff_getElem.mp he
        by_contra hni
        exact absurd (hlo2 m hm (by omega)) (by omega)
      refine ⟨_, lay, cells, [], [], rfl, hpg, hct2, hcl2, hcn2, rfl,
        by simp, by simp, by simp, by simpa using hle, hlo2, hhi2, hwf2, hex,
        by simp⟩
    | .tableInterior cells right, hpg, hcn, hct, hcl =>
      have hcn2 : cur.current_page.n_cells = cells.length := by rw [hcn]; rfl
      have hcl2 : cur.current_page.is_leaf = false := by rw [hcl]; rfl
      have hct2 : cur.current_page.page_type = .tableInterior := by rw [hct]; rfl
      have hwf2 : (!cells.isEmpty &&
          wf_table_children (table_flatten pages fuel)
            (fun pid => wf_table pages fuel pid) none cells right) = true := hwf
      rw [Bool.and_eq_true] at hwf2
      obtain ⟨hnecells, hch⟩ := hwf2
      obtain ⟨L, hL, hLb, hkb, hkpair, hidx, hrightdec⟩ :=
        wf_children_facts pages fuel cells none right hch
      have hLl : L = l := by
        have hfi := table_flatten_interior pages fuel
          cur.current_page.page_id cells right hpg
        rw [hfi, hL] at hflat
        exact Option.some.inj hflat
      subst hLl
      have hget : ∀ (i : Nat) (h : i < (cells.map TableInteriorCell.key).length),
          table_cell_key (Page.tableInterior cells right) i
            = some (cells.map TableInteriorCell.key)[i] := by
        intro i h
        rw [List.length_map] at h
        simp [table_cell_key, List.getElem?_eq_getElem h]
      obtain ⟨i, hsearch, hle, hlo, hhi⟩ := table_bin_search_spec
        (Page.tableInterior cells right) key
        (cells.map TableInteriorCell.key) hkpair hget
        (cur.current_page.n_cells + 1) 0 cur.current_page.n_cells none
        (by simp [hcn2]) (by omega) (by omega)
        (fun j hj hji => absurd hji (by omega))
        (fun j hj hge => by rw [List.length_map] at hj; omega)
        (by rw [List.getElem?_eq_none (by simp [hcn2])])
      rw [List.length_map] at hle
      have hta : ¬ ((!cur.current_page.page_type.is_table) = true) := by
        rw [hct2]; simp [BtreePageType.is_table]
      rw [table_move_to_loop, if_neg hta]
      simp only [hpg, hsearch]
      rw [if_neg (show ¬ (cur.current_page.is_leaf = true) by rw [hcl2]; simp)]
      by_cases hi_n : i = cur.current_page.n_cells
      · -- descend into the right child
        rw [if_pos hi_n]
        simp only [Page.right_page_id]
        obtain ⟨Pre, Lr, hdec, hwfr, hflatr, hner, hpre⟩ := hrightdec
        obtain ⟨cpg, hcpg⟩ := wf_table_page_ex hwfr
        simp only [move_to_child, CursorPage.new, hcpg]
        obtain ⟨cur2, lay2, cells2, Pp, Qp, hloop, hpg2, hct3, hcl3, hcn3, hin2,
          hdec2, hPp, hQp, hidx2, hlo2, hhi2, hsc2, hex2, hQb2⟩ :=
          ih
            { current_page :=
                { page_id := right, idx_cell := 0, n_cells := cpg.n_cells,
                  page_type := cpg.page_type, is_leaf := cpg.page_type.is_leaf },
              parent_pages :=
                { cur.current_page with idx_cell := i } :: cur.parent_pages,
              inited := cur.inited } Lr hwfr hflatr ⟨cpg, hcpg, rfl, rfl, rfl⟩
        rw [hloop]
        refine ⟨cur2, lay2, cells2, Pre ++ Pp, Qp, rfl, hpg2, hct3, hcl3, hcn3, hin2,
          ?_, ?_, hQp, hidx2, hlo2, hhi2, hsc2, ?_, hQb2⟩
        · rw [hdec, hdec2]
          simp [List.append_assoc]
        · intro e he
          rcases List.mem_append.mp he with he | he
          · obtain ⟨j, hj, hjk⟩ := hpre e he
            have hjm : j < (cells.map TableInteriorCell.key).length := by simpa using hj
            have hjlt := hlo j hjm (by omega)
            rw [List.getElem_map] at hjlt
            omega
          · exact hPp e he
        · rintro ⟨e, he, hke⟩
          rw [hdec] at he
          rcases List.mem_append.mp he with he | he
          · obtain ⟨j, hj, hjk⟩ := hpre e he
            have hjm : j < (cells.map TableInteriorCell.key).length := by simpa using hj
            have hjlt := hlo j hjm (by omega)
            rw [List.getElem_map] at hjlt
            exact absurd hke (by omega)
          · exact hex2 ⟨e, he, hke⟩
      · -- descend into the left child of cell i
        rw [if_neg hi_n]
        have hi_lt : i < cells.length := by omega
        obtain ⟨Pre, li, Suf, hdec, hwf_i, hflat_i, hne_i, hpre, hli, hpres, hsuf⟩ :=
          hidx i hi_lt
        obtain ⟨cpg, hcpg⟩ := wf_table_page_ex hwf_i
        simp only [parse_btree_interior_cell_page_id, List.getElem?_eq_getElem hi_lt,
          Option.map_some', move_to_child, CursorPage.new, hcpg]
        obtain ⟨cur2, lay2, cells2, Pp, Qp, hloop, hpg2, hct3, hcl3, hcn3, hin2,
          hdec2, hPp, hQp, hidx2, hlo2, hhi2, hsc2, hex2, hQb2⟩ :=
          ih
            { current_page :=
                { page_id := cells[i].child, idx_cell := 0,
                  n_cells := cpg.n_cells, page_type := cpg.page_type,
                  is_leaf := cpg.page_type.is_leaf },
              parent_pages :=
                { cur.current_page with idx_cell := i } :: cur.parent_pages,
              inited := cur.inited } li hwf_i hflat_i ⟨cpg, hcpg, rfl, rfl, rfl⟩
        have hki : key ≤ cells[i].key := by
          have := hhi (by simpa using hi_lt)
          rwa [List.getElem_map] at this
        refine ⟨cur2, lay2, cells2, Pre ++ Pp, Qp ++ Suf, hloop, hpg2, hct3, hcl3,
          hcn3, hin2, ?_, ?_, ?_, hidx2, hlo2, hhi2, hsc2, ?_, ?_⟩
        · rw [hdec, hdec2]
          simp [List.append_assoc]
        · intro e he
          rcases List.mem_append.mp he with he | he
          · obtain ⟨j, hj, hji, hjk⟩ := hpre e he
            have hjm : j < (cells.map TableInteriorCell.key).length := by simpa using hj
            have hjlt := hlo j hjm hji
            rw [List.getElem_map] at hjlt
            omega
          · exact hPp e he
        · intro e he
          rcases List.mem_append.mp he with he | he
          · exact hQp e he
          · have := hsuf e he
            omega
        · intro _
          obtain ⟨es, hes, hesk⟩ := hpres
          exact hex2 ⟨es, hes, by rw [hesk]; exact hki⟩
        · intro e he h
          rcases List.mem_append.mp he with he | he
          · exact hQb2 e he h
          · have h1 := hsuf e he
            have h2 : cells2[cur2.current_page.idx_cell] ∈ li := by
              rw [hdec2]
              exact List.mem_append.mpr
                (Or.inl (List.mem_append.mpr
                  (Or.inr (List.mem_iff_getElem.mpr ⟨_, h, rfl⟩))))
            have h3 := hli _ h2
            omega

/-- Length is preserved by an in-range `write_bytes`. -/
theorem write_bytes_length (buf src : List Nat) (off : Nat)
    (h : off + src.length ≤ buf.length) :
    (write_bytes buf off src).length = buf.length := by
  unfold write_bytes
  simp
  omega

/-- `write_bytes` leaves the bytes before the window unchanged. -/
theorem write_bytes_getElem?_lt (buf src : List Nat) (off k : Nat)
    (hoff : off ≤ buf.length) (h : k < off) :
    (write_bytes buf off src)[k]? = buf[k]? := by
  unfold write_bytes
  rw [List.append_assoc, List.getElem?_append_left (by simp; omega),
    List.getElem?_take, if_pos h]

/-- `write_bytes` leaves the bytes after the window unchanged. -/
theorem write_bytes_getElem?_ge (buf src : List Nat) (off k : Nat)
    (hoff : off ≤ buf.length) (h : off + src.length ≤ k) :
    (write_bytes buf off src)[k]? = buf[k]? := by
  unfold write_bytes
  rw [List.getElem?_append_right (by simp; omega), List.getElem?_drop]
  have hk : off + src.length
      + (k - ((buf.take off).length + src.length)) = k := by
    simp
    omega
  rw [List.length_append, hk]

/-- `write_bytes` places the source bytes in the window. -/
theorem write_bytes_getElem?_in (buf src : List Nat) (off k : Nat)
    (hoff : off ≤ buf.length) (h1 : off ≤ k) (h2 : k < off + src.length) :
    (write_bytes buf off src)[k]? = src[k - off]? := by
  unfold write_bytes
  rw [List.append_assoc, List.getElem?_append_right (by simp; omega),
    List.getElem?_append_left (by simp; omega), List.length_take,
    Nat.min_eq_left hoff]

/-- Length of a well-delimited slice. -/
theorem list_slice_length (l : List Nat) (a b : Nat) (h1 : a ≤ b)
    (h2 : b ≤ l.length) : (list_slice l a b).length = b - a := by
  unfold list_slice
  simp
  omega

/-- Elements of a slice. -/
theorem list_slice_getElem? (l : List Nat) (a b i : Nat) (h : i < b - a) :
    (list_slice l a b)[i]? = l[a + i]? := by
  unfold list_slice
  rw [List.getElem?_drop, List.getElem?_take, if_pos (by omega)]

/-- C1: on a well-formed table tree with rows `l`, `table_move_to`
from a fresh cursor succeeds and returns the least key `≥` the probe
in `find?` form; a returned `some k2` is a key of the tree with
`key ≤ k2` minimal among keys `≥ key`; `none` comes back exactly when
the probe exceeds every key; and `get_table_key` at the resulting
position returns the same answer. -/
theorem table_move_to_finds_least_key_geq (pages : Pages) (root fuel : Nat)
    (key : Int) (l : List TableLeafCell) (cur0 : BtreeCursor)
    (hwf : wf_table pages fuel root = true)
    (hflat : table_flatten pages fuel root = some l)
    (hnew : BtreeCursor.new pages root = .ok cur0) :
    ∃ cur2 r,
      table_move_to pages fuel cur0 key = .ok (cur2, r) ∧
      r = (l.map TableLeafCell.key).find? (fun x => decide (key ≤ x)) ∧
      (∀ k2, r = some k2 → key ≤ k2 ∧ k2 ∈ l.map TableLeafCell.key ∧
        ∀ e ∈ l, key ≤ e.key → k2 ≤ e.key) ∧
      (r = none ↔ ∀ e ∈ l, e.key < key) ∧
      get_table_key pages cur2 = .ok r := by
  rcases hpgr : pages root with _ | pg
  · unfold BtreeCursor.new CursorPage.new at hnew
    rw [hpgr] at hnew
    simp at hnew
  · unfold BtreeCursor.new CursorPage.new at hnew
    rw [hpgr] at hnew
    have hc0 : cur0 =
        { current_page :=
            { page_id := root, idx_cell := 0, n_cells := pg.n_cells,
              page_type := pg.page_type, is_leaf := pg.page_type.is_leaf },
          parent_pages := [], inited := false } := (Except.ok.inj hnew).symm
    subst hc0
    obtain ⟨cur2, lay, cells, P, Q, hloop, hpg2, hct2, hcl2, hcn2, hin2, hdec,
      hP, hQ, hle, hlo, hhi, hsc, hex, hQb⟩ :=
      table_move_to_loop_spec pages key fuel
        { current_page :=
            { page_id := root, idx_cell := 0, n_cells := pg.n_cells,
              page_type := pg.page_type, is_leaf := pg.page_type.is_leaf },
          parent_pages := [], inited := false } l hwf hflat
        ⟨pg, hpgr, rfl, rfl, rfl⟩
    have hLdec : l.map TableLeafCell.key
        = P.map TableLeafCell.key ++ cells.map TableLeafCell.key
          ++ Q.map TableLeafCell.key := by
      rw [hdec]; simp [List.map_append]
    have hall : ¬ (cur2.current_page.idx_cell < cells.length) →
        ∀ e ∈ l, e.key < key := by
      intro hni e he
      by_contra hge
      exact hni (hex ⟨e, he, by omega⟩)
    have hmem : ∀ h : cur2.current_page.idx_cell < cells.length,
        cells[cur2.current_page.idx_cell] ∈ l := by
      intro h
      rw [hdec]
      exact List.mem_append.mpr (Or.inl (List.mem_append.mpr
        (Or.inr (List.mem_iff_getElem.mpr ⟨_, h, rfl⟩))))
    have hmin : ∀ h : cur2.current_page.idx_cell < cells.length,
        ∀ e ∈ l, key ≤ e.key →
          cells[cur2.current_page.idx_cell].key ≤ e.key := by
      intro h e he hke
      rw [hdec] at he
      rcases List.mem_append.mp he with he | he
      · rcases List.mem_append.mp he with he | he
        · exact absurd hke (by have := hP e he; omega)
        · obtain ⟨m, hm, rfl⟩ := List.mem_iff_getElem.mp he
          rcases Nat.lt_or_ge m cur2.current_page.idx_cell with hmi | hmi
          · exact absurd hke (by have := hlo m hm hmi; omega)
          · rcases Nat.eq_or_lt_of_le hmi with heq | hmi2
            · subst heq
              exact le_refl _
            · have hpw := keys_ascending_pairwise _ hsc
              rw [List.pairwise_iff_getElem] at hpw
              have hlt2 := hpw cur2.current_page.idx_cell m
                (by simpa using h) (by simpa using hm) hmi2
              rw [List.getElem_map, List.getElem_map] at hlt2
              exact le_of_lt hlt2
      · exact le_of_lt (hQb e he h)
    have hfind : (cells.map TableLeafCell.key)[cur2.current_page.idx_cell]?
        = (l.map TableLeafCell.key).find? (fun x => decide (key ≤ x)) := by
      by_cases h : cur2.current_page.idx_cell < cells.length
      · have hL1 : (l.map TableLeafCell.key)[P.length + cur2.current_page.idx_cell]?
            = (cells.map TableLeafCell.key)[cur2.current_page.idx_cell]? := by
          rw [hLdec, List.getElem?_append_left (by simp; omega),
            List.getElem?_append_right (by simp),
            List.length_map, Nat.add_sub_cancel_left]
        have hlen : P.length + cur2.current_page.idx_cell
            ≤ (l.map TableLeafCell.key).length := by
          simp [hdec]; omega
        have hbelow : ∀ (j : Nat) (hj : j < (l.map TableLeafCell.key).length),
            j < P.length + cur2.current_page.idx_cell →
            decide (key ≤ (l.map TableLeafCell.key)[j]) = false := by
          intro j hj hji
          rw [decide_eq_false_iff_not, not_le]
          rcases Nat.lt_or_ge j P.length with hjP | hjP
          · have hv : (l.map TableLeafCell.key)[j]? = some (P[j].key) := by
              rw [hLdec, List.getElem?_append_left (by simp; omega),
                List.getElem?_append_left (by simpa using hjP),
                List.getElem?_map, List.getElem?_eq_getElem hjP]
              rfl
            have hvv : (l.map TableLeafCell.key)[j] = P[j].key :=
              Option.some.inj ((List.getElem?_eq_getElem hj).symm.trans hv)
            rw [hvv]
            exact hP _ (List.mem_iff_getElem.mpr ⟨j, hjP, rfl⟩)
          · have hij : j - P.length < cells.length := by omega
            have hv : (l.map TableLeafCell.key)[j]?
                = some (cells[j - P.length].key) := by
              rw [hLdec, List.getElem?_append_left (by simp; omega),
                List.getElem?_append_right (by simpa using hjP),
                List.getElem?_map, List.length_map, List.getElem?_eq_getElem hij]
              rfl
            have hvv : (l.map TableLeafCell.key)[j] = cells[j - P.length].key :=
              Option.some.inj ((List.getElem?_eq_getElem hj).symm.trans hv)
            rw [hvv]
            exact hlo _ hij (by omega)
        have habove : ∀ hh : P.length + cur2.current_page.idx_cell
              < (l.map TableLeafCell.key).length,
            decide (key ≤
              (l.map TableLeafCell.key)[P.length + cur2.current_page.idx_cell])
              = true := by
          intro hh
          rw [decide_eq_true_eq]
          have hv : (l.map TableLeafCell.key)[P.length + cur2.current_page.idx_cell]?
              = some (cells[cur2.current_page.idx_cell].key) := by
            rw [hL1, List.getElem?_map, List.getElem?_eq_getElem h]
            rfl
          have hvv := Option.some.inj ((List.getElem?_eq_getElem hh).symm.trans hv)
          rw [hvv]
          exact hhi h
        rw [find?_eq_getElem? (fun x => decide (key ≤ x)) (l.map TableLeafCell.key)
          (P.length + cur2.current_page.idx_cell) hlen hbelow habove, hL1]
      · have hnone : (cells.map TableLeafCell.key)[cur2.current_page.idx_cell]?
            = none := List.getElem?_eq_none (by simp; omega)
        rw [hnone, eq_comm, List.find?_eq_none]
        intro x hx
        obtain ⟨e, he, rfl⟩ := List.mem_map.mp hx
        have := hall h e he
        simp only [decide_eq_true_eq]
        omega
    have hsome : ∀ k2,
        (cells.map TableLeafCell.key)[cur2.current_page.idx_cell]? = some k2 →
        key ≤ k2 ∧ k2 ∈ l.map TableLeafCell.key ∧
          ∀ e ∈ l, key ≤ e.key → k2 ≤ e.key := by
      intro k2 hk2
      have h : cur2.current_page.idx_cell < cells.length := by
        by_contra hni
        rw [List.getElem?_eq_none (by simp; omega)] at hk2
        exact absurd hk2 (by simp)
      rw [List.getElem?_eq_getElem (by simpa using h)] at hk2
      have hk2v : k2 = cells[cur2.current_page.idx_cell].key := by
        have h1 := Option.some.inj hk2
        rw [List.getElem_map] at h1
        exact h1.symm
      subst hk2v
      exact ⟨hhi h, List.mem_map.mpr ⟨_, hmem h, rfl⟩, hmin h⟩
    have hnone_iff :
        (cells.map TableLeafCell.key)[cur2.current_page.idx_cell]? = none ↔
        ∀ e ∈ l, e.key < key := by
      constructor
      · intro hn
        refine hall (fun h => ?_)
        rw [List.getElem?_eq_getElem (by simpa using h)] at hn
        exact absurd hn (by simp)
      · intro hall2
        apply List.getElem?_eq_none
        simp only [List.length_map]
        by_contra hlt
        push_neg at hlt
        have h1 := hhi hlt
        have h2 := hall2 cells[cur2.current_page.idx_cell] (hmem hlt)
        omega
    have hgtk : get_table_key pages cur2
        = .ok ((cells.map TableLeafCell.key)[cur2.current_page.idx_cell]?) := by
      unfold get_table_key
      rw [if_neg (by rw [hin2]; simp)]
      rw [if_neg (by rw [hct2]; simp [BtreePageType.is_table])]
      by_cases h : cur2.current_page.idx_cell < cells.length
      · rw [if_neg (by rw [hcn2]; omega)]
        rw [if_neg (by rw [hcl2]; simp)]
        rw [hpg2]
        have hck : table_cell_key (Page.tableLeaf lay cells)
            cur2.current_page.idx_cell
            = some (cells[cur2.current_page.idx_cell].key) := by
          simp [table_cell_key, List.getElem?_eq_getElem h]
        simp [hck, List.getElem?_eq_getElem
          (show cur2.current_page.idx_cell
            < (cells.map TableLeafCell.key).length by simpa using h)]
      · rw [if_pos (by rw [hcn2]; omega)]
        rw [List.getElem?_eq_none (by simp; omega)]
    exact ⟨cur2, _, hloop, hfind, hsome, hnone_iff, hgtk⟩

/-- Witness for C1: the two-level tree `pagesT2` probed with key `2`
from the fresh root cursor. -/
theorem table_move_to_finds_least_key_geq_witness :
    wf_table pagesT2 4 1 = true ∧
    table_flatten pagesT2 4 1 = some rowsT2 ∧
    BtreeCursor.new pagesT2 1 = .ok cursorT2new ∧
    (∃ cur2 r,
      table_move_to pagesT2 4 cursorT2new 2 = .ok (cur2, r) ∧
      r = (rowsT2.map TableLeafCell.key).find? (fun x => decide ((2:Int) ≤ x)) ∧
      (∀ k2, r = some k2 → (2:Int) ≤ k2 ∧ k2 ∈ rowsT2.map TableLeafCell.key ∧
        ∀ e ∈ rowsT2, (2:Int) ≤ e.key → k2 ≤ e.key) ∧
      (r = none ↔ ∀ e ∈ rowsT2, e.key < (2:Int)) ∧
      get_table_key pagesT2 cur2 = .ok r) :=
  ⟨by decide, by rfl, by rfl,
    table_move_to_finds_least_key_geq pagesT2 1 4 2 rowsT2 cursorT2new
      (by decide) (by rfl) (by rfl)⟩

/-- C10: a successful byte-level cell insertion modifies, on the target
page, only the cell-count and content-area-offset header fields, the
cell-pointer slots from the insertion index on (each existing pointer
moves two bytes right with its value intact, and the new slot holds the
new cell offset), and the newly allocated range now holding the cell
header and payload; every other byte of the page keeps its value. -/
theorem page_insert_cell_frame (buf bufR : List Nat)
    (ho idx n : Nat) (b : Bool) (ch p : List Nat)
    (hsz : buf.length ≤ 65536)
    (hcc : page_ccao buf ho ≤ buf.length)
    (hidx : idx ≤ n)
    (hok : page_insert_cell buf ho idx n b ch p = .ok bufR) :
    bufR.length = buf.length ∧
    read_be16 bufR (ho + 3) = n + 1 ∧
    read_be16 bufR (ho + 5) = page_ccao buf ho - (ch.length + p.length) ∧
    (∀ j, j < (if b then idx else n) →
      read_be16 bufR (ho + 8 + 2 * j) = read_be16 buf (ho + 8 + 2 * j)) ∧
    (∀ j, (if b then idx else n) ≤ j → j < n →
      read_be16 bufR (ho + 8 + 2 * (j + 1)) = read_be16 buf (ho + 8 + 2 * j)) ∧
    read_be16 bufR (ho + 8 + 2 * (if b then idx else n))
      = page_ccao buf ho - (ch.length + p.length) ∧
    list_slice bufR (page_ccao buf ho - (ch.length + p.length))
      (page_ccao buf ho) = ch ++ p ∧
    (∀ k, k < buf.length →
      ¬ (ho + 3 ≤ k ∧ k < ho + 7) →
      ¬ (ho + 8 + 2 * (if b then idx else n) ≤ k ∧ k < ho + 8 + 2 * n + 2) →
      ¬ (page_ccao buf ho - (ch.length + p.length) ≤ k ∧
         k < page_ccao buf ho) →
      bufR[k]? = buf[k]?) := by
  simp only [page_insert_cell] at hok
  split at hok
  case isTrue h1 => exact Except.noConfusion hok
  case isFalse h1 =>
  split at hok
  case isTrue h2 => exact Except.noConfusion hok
  case isFalse h2 =>
  split at hok
  case isTrue h3 => exact Except.noConfusion hok
  case isFalse h3 =>
  split at hok
  case isTrue h4 => exact Except.noConfusion hok
  case isFalse h4 =>
  split at hok
  case isTrue h5 => exact Except.noConfusion hok
  case isFalse h5 =>
  split at hok
  case isTrue h6 => exact Except.noConfusion hok
  case isFalse h6 =>
  injection hok with hout
  subst hout
  cases b with
  | false =>
    simp only [if_neg (show ¬ ((false : Bool) = true) from by simp)]
    set CC := page_ccao buf ho with hCC
    set OFF := CC - (ch.length + p.length) with hOFF
    set USO := ho + 8 + 2 * n with hUSO
    set S1 := write_bytes buf (ho + 5) (be16_bytes OFF) with hS1
    set S2 := write_bytes S1 (ho + 3) (be16_bytes (n + 1)) with hS2
    set S4 := write_bytes S2 USO (be16_bytes OFF) with hS4
    set S5 := write_bytes S4 OFF ch with hS5
    set B := write_bytes S5 (OFF + ch.length) p with hB
    have hfree : USO + (ch.length + p.length) + 2 ≤ CC := by omega
    have hOp : 0 < OFF := by omega
    have hOl : OFF < 65535 := by omega
    have hOcc : OFF + (ch.length + p.length) = CC := by omega
    have hL1 : S1.length = buf.length := by
      rw [hS1]
      exact write_bytes_length _ _ _ (by simp [be16_bytes]; omega)
    have hL2 : S2.length = buf.length := by
      rw [hS2]
      rw [write_bytes_length _ _ _ (by simp [be16_bytes, hL1]; omega)]
      exact hL1
    have hL4 : S4.length = buf.length := by
      rw [hS4]
      rw [write_bytes_length _ _ _ (by simp [be16_bytes, hL2]; omega)]
      exact hL2
    have hL5 : S5.length = buf.length := by
      rw [hS5]
      rw [write_bytes_length _ _ _ (by rw [hL4]; omega)]
      exact hL4
    have hLB : B.length = buf.length := by
      rw [hB]
      rw [write_bytes_length _ _ _ (by rw [hL5]; omega)]
      exact hL5
    have hpt : ∀ k, k < buf.length →
        B[k]? =
          if OFF + ch.length ≤ k ∧ k < OFF + (ch.length + p.length) then
            p[k - (OFF + ch.length)]?
          else if OFF ≤ k ∧ k < OFF + ch.length then ch[k - OFF]?
          else if USO ≤ k ∧ k < USO + 2 then (be16_bytes OFF)[k - USO]?
          else if ho + 3 ≤ k ∧ k < ho + 5 then
            (be16_bytes (n + 1))[k - (ho + 3)]?
          else if ho + 5 ≤ k ∧ k < ho + 7 then
            (be16_bytes OFF)[k - (ho + 5)]?
          else buf[k]? := by
      intro k hk
      rw [hB]
      by_cases c1 : OFF + ch.length ≤ k ∧ k < OFF + (ch.length + p.length)
      · rw [if_pos c1,
          write_bytes_getElem?_in _ _ _ _ (by rw [hL5]; omega) c1.1 (by omega)]
      · rw [if_neg c1]
        have e1 : (write_bytes S5 (OFF + ch.length) p)[k]? = S5[k]? := by
          rcases Nat.lt_or_ge k (OFF + ch.length) with hc | hc
          · exact write_bytes_getElem?_lt _ _ _ _ (by rw [hL5]; omega) hc
          · exact write_bytes_getElem?_ge _ _ _ _ (by rw [hL5]; omega) (by omega)
        rw [e1, hS5]
        by_cases c2 : OFF ≤ k ∧ k < OFF + ch.length
        · rw [if_pos c2,
            write_bytes_getElem?_in _ _ _ _ (by rw [hL4]; omega) c2.1 c2.2]
        · rw [if_neg c2]
          have e2 : (write_bytes S4 OFF ch)[k]? = S4[k]? := by
            rcases Nat.lt_or_ge k OFF with hc | hc
            · exact write_bytes_getElem?_lt _ _ _ _ (by rw [hL4]; omega) hc
            · exact write_bytes_getElem?_ge _ _ _ _ (by rw [hL4]; omega) (by omega)
          rw [e2, hS4]
          by_cases c3 : USO ≤ k ∧ k < USO + 2
          · rw [if_pos c3,
              write_bytes_getElem?_in _ _ _ _ (by rw [hL2]; omega) c3.1
                (by simp [be16_bytes]; omega)]
          · rw [if_neg c3]
            have e3 : (write_bytes S2 USO (be16_bytes OFF))[k]? = S2[k]? := by
              rcases Nat.lt_or_ge k USO with hc | hc
              · exact write_bytes_getElem?_lt _ _ _ _ (by rw [hL2]; omega) hc
              · exact write_bytes_getElem?_ge _ _ _ _ (by rw [hL2]; omega)
                  (by simp [be16_bytes]; omega)
            rw [e3, hS2]
            by_cases c4 : ho + 3 ≤ k ∧ k < ho + 5
            · rw [if_pos c4,
                write_bytes_getElem?_in _ _ _ _ (by rw [hL1]; omega) c4.1
                  (by simp [be16_bytes]; omega)]
            · rw [if_neg c4]
              have e4 : (write_bytes S1 (ho + 3) (be16_bytes (n + 1)))[k]?
                  = S1[k]? := by
                rcases Nat.lt_or_ge k (ho + 3) with hc | hc
                · exact write_bytes_getElem?_lt _ _ _ _ (by rw [hL1]; omega) hc
                · exact write_bytes_getElem?_ge _ _ _ _ (by rw [hL1]; omega)
                    (by simp [be16_bytes]; omega)
              rw [e4, hS1]
              by_cases c5 : ho + 5 ≤ k ∧ k < ho + 7
              · rw [if_pos c5,
                  write_bytes_getElem?_in _ _ _ _ (by omega) c5.1
                    (by simp [be16_bytes]; omega)]
              · rw [if_neg c5]
                rcases Nat.lt_or_ge k (ho + 5) with hc | hc
                · exact write_bytes_getElem?_lt _ _ _ _ (by omega) hc
                · exact write_bytes_getElem?_ge _ _ _ _ (by omega)
                    (by simp [be16_bytes]; omega)
    refine ⟨hLB, ?_, ?_, ?_, ?_, ?_, ?_, ?_⟩
    · unfold read_be16
      rw [hpt (ho + 3) (by omega), hpt (ho + 3 + 1) (by omega)]
      rw [if_neg (by omega), if_neg (by omega), if_neg (by omega),
        if_pos (by omega)]
      rw [if_neg (by omega), if_neg (by omega), if_neg (by omega),
        if_pos (by omega)]
      have i1 : ho + 3 - (ho + 3) = 0 := by omega
      have i2 : ho + 3 + 1 - (ho + 3) = 1 := by omega
      rw [i1, i2]
      simp [be16_bytes]
      omega
    · unfold read_be16
      rw [hpt (ho + 5) (by omega), hpt (ho + 5 + 1) (by omega)]
      rw [if_neg (by omega), if_neg (by omega), if_neg (by omega),
        if_neg (by omega), if_pos (by omega)]
      rw [if_neg (by omega), if_neg (by omega), if_neg (by omega),
        if_neg (by omega), if_pos (by omega)]
      have i1 : ho + 5 - (ho + 5) = 0 := by omega
      have i2 : ho + 5 + 1 - (ho + 5) = 1 := by omega
      rw [i1, i2]
      simp [be16_bytes]
      omega
    · intro j hj
      unfold read_be16
      rw [hpt (ho + 8 + 2 * j) (by omega), hpt (ho + 8 + 2 * j + 1) (by omega)]
      rw [if_neg (by omega), if_neg (by omega), if_neg (by omega),
        if_neg (by omega), if_neg (by omega)]
      rw [if_neg (by omega), if_neg (by omega), if_neg (by omega),
        if_neg (by omega), if_neg (by omega)]
    · intro j hj1 hj2
      exact absurd hj2 (by omega)
    · unfold read_be16
      rw [hpt USO (by omega), hpt (USO + 1) (by omega)]
      rw [if_neg (by omega), if_neg (by omega), if_pos (by omega)]
      rw [if_neg (by omega), if_neg (by omega), if_pos (by omega)]
      have i1 : USO - USO = 0 := by omega
      have i2 : USO + 1 - USO = 1 := by omega
      rw [i1, i2]
      simp [be16_bytes]
      omega
    · apply List.ext_getElem?
      intro i
      by_cases hi : i < ch.length + p.length
      · rw [list_slice_getElem? _ _ _ _ (by omega)]
        rw [hpt (OFF + i) (by omega)]
        by_cases hic : i < ch.length
        · have hii : OFF + i - OFF = i := by omega
          rw [if_neg (by omega), if_pos (by omega), hii,
            List.getElem?_append_left hic]
        · have hii : OFF + i - (OFF + ch.length) = i - ch.length := by omega
          rw [if_pos (by omega), hii, List.getElem?_append_right (by omega)]
      · rw [List.getElem?_eq_none (by
            rw [list_slice_length _ _ _ (by omega) (by rw [hLB]; omega)]
            omega),
          List.getElem?_eq_none (by simp; omega)]
    · intro k hk hr1 hr2 hr3
      rw [hpt k hk, if_neg (by omega), if_neg (by omega), if_neg (by omega),
        if_neg (by omega), if_neg (by omega)]
  | true =>
    simp only [eq_self_iff_true, if_true]
    set CC := page_ccao buf ho with hCC
    set OFF := CC - (ch.length + p.length) with hOFF
    set USO := ho + 8 + 2 * n with hUSO
    set CP := ho + 8 + 2 * idx with hCP
    set S1 := write_bytes buf (ho + 5) (be16_bytes OFF) with hS1
    set S2 := write_bytes S1 (ho + 3) (be16_bytes (n + 1)) with hS2
    set S3 := copy_within S2 CP USO (CP + 2) with hS3
    set S4 := write_bytes S3 CP (be16_bytes OFF) with hS4
    set S5 := write_bytes S4 OFF ch with hS5
    set B := write_bytes S5 (OFF + ch.length) p with hB
    have hfree : USO + (ch.length + p.length) + 2 ≤ CC := by omega
    have hOp : 0 < OFF := by omega
    have hOl : OFF < 65535 := by omega
    have hOcc : OFF + (ch.length + p.length) = CC := by omega
    have hcpu : CP ≤ USO := by omega
    have hL1 : S1.length = buf.length := by
      rw [hS1]
      exact write_bytes_length _ _ _ (by simp [be16_bytes]; omega)
    have hL2 : S2.length = buf.length := by
      rw [hS2]
      rw [write_bytes_length _ _ _ (by simp [be16_bytes, hL1]; omega)]
      exact hL1
    have hsl : (list_slice S2 CP USO).length = USO - CP :=
      list_slice_length _ _ _ (by omega) (by rw [hL2]; omega)
    have hL3 : S3.length = buf.length := by
      rw [hS3]
      simp only [copy_within]
      rw [write_bytes_length _ _ _ (by rw [hsl, hL2]; omega)]
      exact hL2
    have hL4 : S4.length = buf.length := by
      rw [hS4]
      rw [write_bytes_length _ _ _ (by simp [be16_bytes, hL3]; omega)]
      exact hL3
    have hL5 : S5.length = buf.length := by
      rw [hS5]
      rw [write_bytes_length _ _ _ (by rw [hL4]; omega)]
      exact hL4
    have hLB : B.length = buf.length := by
      rw [hB]
      rw [write_bytes_length _ _ _ (by rw [hL5]; omega)]
      exact hL5
    have hpt : ∀ k, k < buf.length →
        B[k]? =
          if OFF + ch.length ≤ k ∧ k < OFF + (ch.length + p.length) then
            p[k - (OFF + ch.length)]?
          else if OFF ≤ k ∧ k < OFF + ch.length then ch[k - OFF]?
          else if CP ≤ k ∧ k < CP + 2 then (be16_bytes OFF)[k - CP]?
          else if CP + 2 ≤ k ∧ k < USO + 2 then buf[k - 2]?
          else if ho + 3 ≤ k ∧ k < ho + 5 then
            (be16_bytes (n + 1))[k - (ho + 3)]?
          else if ho + 5 ≤ k ∧ k < ho + 7 then
            (be16_bytes OFF)[k - (ho + 5)]?
          else buf[k]? := by
      intro k hk
      rw [hB]
      by_cases c1 : OFF + ch.length ≤ k ∧ k < OFF + (ch.length + p.length)
      · rw [if_pos c1,
          write_bytes_getElem?_in _ _ _ _ (by rw [hL5]; omega) c1.1 (by omega)]
      · rw [if_neg c1]
        have e1 : (write_bytes S5 (OFF + ch.length) p)[k]? = S5[k]? := by
          rcases Nat.lt_or_ge k (OFF + ch.length) with hc | hc
          · exact write_bytes_getElem?_lt _ _ _ _ (by rw [hL5]; omega) hc
          · exact write_bytes_getElem?_ge _ _ _ _ (by rw [hL5]; omega) (by omega)
        rw [e1, hS5]
        by_cases c2 : OFF ≤ k ∧ k < OFF + ch.length
        · rw [if_pos c2,
            write_bytes_getElem?_in _ _ _ _ (by rw [hL4]; omega) c2.1 c2.2]
        · rw [if_neg c2]
          have e2 : (write_bytes S4 OFF ch)[k]? = S4[k]? := by
            rcases Nat.lt_or_ge k OFF with hc | hc
            · exact write_bytes_getElem?_lt _ _ _ _ (by rw [hL4]; omega) hc
            · exact write_bytes_getElem?_ge _ _ _ _ (by rw [hL4]; omega) (by omega)
          rw [e2, hS4]
          by_cases c3 : CP ≤ k ∧ k < CP + 2
          · rw [if_pos c3,
              write_bytes_getElem?_in _ _ _ _ (by rw [hL3]; omega) c3.1
                (by simp [be16_bytes]; omega)]
          · rw [if_neg c3]
            have e3 : (write_bytes S3 CP (be16_bytes OFF))[k]? = S3[k]? := by
              rcases Nat.lt_or_ge k CP with hc | hc
              · exact write_bytes_getElem?_lt _ _ _ _ (by rw [hL3]; omega) hc
              · exact write_bytes_getElem?_ge _ _ _ _ (by rw [hL3]; omega)
                  (by simp [be16_bytes]; omega)
            rw [e3, hS3]
            simp only [copy_within]
            by_cases c4 : CP + 2 ≤ k ∧ k < USO + 2
            · rw [if_pos c4,
                write_bytes_getElem?_in _ _ _ _ (by rw [hL2]; omega) c4.1
                  (by rw [hsl]; omega),
                list_slice_getElem? _ _ _ _ (by omega)]
              have hi2 : CP + (k - (CP + 2)) = k - 2 := by omega
              rw [hi2, hS2,
                write_bytes_getElem?_ge _ _ _ _ (by rw [hL1]; omega)
                  (by simp [be16_bytes]; omega),
                hS1,
                write_bytes_getElem?_ge _ _ _ _ (by omega)
                  (by simp [be16_bytes]; omega)]
            · rw [if_neg c4]
              have e4 : (write_bytes S2 (CP + 2) (list_slice S2 CP USO))[k]?
                  = S2[k]? := by
                rcases Nat.lt_or_ge k (CP + 2) with hc | hc
                · exact write_bytes_getElem?_lt _ _ _ _ (by rw [hL2]; omega) hc
                · exact write_bytes_getElem?_ge _ _ _ _ (by rw [hL2]; omega)
                    (by rw [hsl]; omega)
              rw [e4, hS2]
              by_cases c5 : ho + 3 ≤ k ∧ k < ho + 5
              · rw [if_pos c5,
                  write_bytes_getElem?_in _ _ _ _ (by rw [hL1]; omega) c5.1
                    (by simp [be16_bytes]; omega)]
              · rw [if_neg c5]
                have e5 : (write_bytes S1 (ho + 3) (be16_bytes (n + 1)))[k]?
                    = S1[k]? := by
                  rcases Nat.lt_or_ge k (ho + 3) with hc | hc
                  · exact write_bytes_getElem?_lt _ _ _ _ (by rw [hL1]; omega) hc
                  · exact write_bytes_getElem?_ge _ _ _ _ (by rw [hL1]; omega)
                      (by simp [be16_bytes]; omega)
                rw [e5, hS1]
                by_cases c6 : ho + 5 ≤ k ∧ k < ho + 7
                · rw [if_pos c6,
                    write_bytes_getElem?_in _ _ _ _ (by omega) c6.1
                      (by simp [be16_bytes]; omega)]
                · rw [if_neg c6]
                  rcases Nat.lt_or_ge k (ho + 5) with hc | hc
                  · exact write_bytes_getElem?_lt _ _ _ _ (by omega) hc
                  · exact write_bytes_getElem?_ge _ _ _ _ (by omega)
                      (by simp [be16_bytes]; omega)
    refine ⟨hLB, ?_, ?_, ?_, ?_, ?_, ?_, ?_⟩
    · unfold read_be16
      rw [hpt (ho + 3) (by omega), hpt (ho + 3 + 1) (by omega)]
      rw [if_neg (by omega), if_neg (by omega), if_neg (by omega),
        if_neg (by omega), if_pos (by omega)]
      rw [if_neg (by omega), if_neg (by omega), if_neg (by omega),
        if_neg (by omega), if_pos (by omega)]
      have i1 : ho + 3 - (ho + 3) = 0 := by omega
      have i2 : ho + 3 + 1 - (ho + 3) = 1 := by omega
      rw [i1, i2]
      simp [be16_bytes]
      omega
    · unfold read_be16
      rw [hpt (ho + 5) (by omega), hpt (ho + 5 + 1) (by omega)]
      rw [if_neg (by omega), if_neg (by omega), if_neg (by omega),
        if_neg (by omega), if_neg (by omega), if_pos (by omega)]
      rw [if_neg (by omega), if_neg (by omega), if_neg (by omega),
        if_neg (by omega), if_neg (by omega), if_pos (by omega)]
      have i1 : ho + 5 - (ho + 5) = 0 := by omega
      have i2 : ho + 5 + 1 - (ho + 5) = 1 := by omega
      rw [i1, i2]
      simp [be16_bytes]
      omega
    · intro j hj
      unfold read_be16
      rw [hpt (ho + 8 + 2 * j) (by omega), hpt (ho + 8 + 2 * j + 1) (by omega)]
      rw [if_neg (by omega), if_neg (by omega), if_neg (by omega),
        if_neg (by omega), if_neg (by omega), if_neg (by omega)]
      rw [if_neg (by omega), if_neg (by omega), if_neg (by omega),
        if_neg (by omega), if_neg (by omega), if_neg (by omega)]
    · intro j hj1 hj2
      unfold read_be16
      rw [hpt (ho + 8 + 2 * (j + 1)) (by omega),
        hpt (ho + 8 + 2 * (j + 1) + 1) (by omega)]
      rw [if_neg (by omega), if_neg (by omega), if_neg (by omega),
        if_pos (by omega)]
      rw [if_neg (by omega), if_neg (by omega), if_neg (by omega),
        if_pos (by omega)]
      have i1 : ho + 8 + 2 * (j + 1) - 2 = ho + 8 + 2 * j := by omega
      have i2 : ho + 8 + 2 * (j + 1) + 1 - 2 = ho + 8 + 2 * j + 1 := by omega
      rw [i1, i2]
    · unfold read_be16
      rw [hpt CP (by omega), hpt (CP + 1) (by omega)]
      rw [if_neg (by omega), if_neg (by omega), if_pos (by omega)]
      rw [if_neg (by omega), if_neg (by omega), if_pos (by omega)]
      have i1 : CP - CP = 0 := by omega
      have i2 : CP + 1 - CP = 1 := by omega
      rw [i1, i2]
      simp [be16_bytes]
      omega
    · apply List.ext_getElem?
      intro i
      by_cases hi : i < ch.length + p.length
      · rw [list_slice_getElem? _ _ _ _ (by omega)]
        rw [hpt (OFF + i) (by omega)]
        by_cases hic : i < ch.length
        · have hii : OFF + i - OFF = i := by omega
          rw [if_neg (by omega), if_pos (by omega), hii,
            List.getElem?_append_left hic]
        · have hii : OFF + i - (OFF + ch.length) = i - ch.length := by omega
          rw [if_pos (by omega), hii, List.getElem?_append_right (by omega)]
      · rw [List.getElem?_eq_none (by
            rw [list_slice_length _ _ _ (by omega) (by rw [hLB]; omega)]
            omega),
          List.getElem?_eq_none (by simp; omega)]
    · intro k hk hr1 hr2 hr3
      rw [hpt k hk, if_neg (by omega), if_neg (by omega), if_neg (by omega),
        if_neg (by omega), if_neg (by omega), if_neg (by omega)]

/-- Witness for C10 on the concrete page `bufW`: appending the cell
with varint header `[2, 5]` and payload `[9]` as the second cell. -/
theorem page_insert_cell_frame_witness :
    bufW.length ≤ 65536 ∧ page_ccao bufW 0 ≤ bufW.length ∧ (1 : Nat) ≤ 1 ∧
    page_insert_cell bufW 0 1 1 false [2, 5] [9] = .ok bufW2 ∧
    bufW2.length = bufW.length ∧
    read_be16 bufW2 (0 + 3) = 1 + 1 ∧
    read_be16 bufW2 (0 + 5) = page_ccao bufW 0 - 3 ∧
    (∀ j, j < 1 →
      read_be16 bufW2 (0 + 8 + 2 * j) = read_be16 bufW (0 + 8 + 2 * j)) ∧
    read_be16 bufW2 (0 + 8 + 2 * 1) = page_ccao bufW 0 - 3 ∧
    list_slice bufW2 (page_ccao bufW 0 - 3) (page_ccao bufW 0) = [2, 5, 9] := by
  have h := page_insert_cell_frame bufW bufW2 0 1 1 false [2, 5] [9]
    (by decide) (by decide) (by decide) (by rfl)
  exact ⟨by decide, by decide, by decide, by rfl, h.1, h.2.1, h.2.2.1,
    fun j hj => h.2.2.2.1 j hj, h.2.2.2.2.2.1, h.2.2.2.2.2.2.1⟩

/-- `lex_cmp` answers `.eq` exactly on equal tuples. -/
theorem lex_cmp_eq_iff : ∀ a b : List Int, lex_cmp a b = .eq ↔ a = b := by
  intro a
  induction a with
  | nil => intro b; cases b <;> simp [lex_cmp]
  | cons x as ih =>
    intro b
    cases b with
    | nil => simp [lex_cmp]
    | cons y bs =>
      unfold lex_cmp
      match hxy : compare x y with
      | .lt =>
        have h1 := compare_lt_iff_lt.mp hxy
        simp only [List.cons.injEq]
        constructor
        · intro h; exact absurd h (by simp)
        · rintro ⟨h2, _⟩; omega
      | .eq =>
        have h1 := compare_eq_iff_eq.mp hxy
        simp only [List.cons.injEq, h1, true_and]
        exact ih bs
      | .gt =>
        have h1 := compare_gt_iff_gt.mp hxy
        simp only [List.cons.injEq]
        constructor
        · intro h; exact absurd h (by simp)
        · rintro ⟨h2, _⟩; omega

/-- `lex_cmp` reversed swaps the answer. -/
theorem lex_cmp_swap : ∀ a b : List Int,
    lex_cmp b a = (lex_cmp a b).swap := by
  intro a
  induction a with
  | nil => intro b; cases b <;> simp [lex_cmp, Ordering.swap]
  | cons x as ih =>
    intro b
    cases b with
    | nil => simp [lex_cmp, Ordering.swap]
    | cons y bs =>
      unfold lex_cmp
      match hxy : compare x y with
      | .lt =>
        have h1 := compare_lt_iff_lt.mp hxy
        rw [show compare y x = .gt from compare_gt_iff_gt.mpr h1]
        rfl
      | .eq =>
        have h1 := compare_eq_iff_eq.mp hxy
        rw [show compare y x = .eq from compare_eq_iff_eq.mpr h1.symm]
        exact ih bs
      | .gt =>
        have h1 := compare_gt_iff_gt.mp hxy
        rw [show compare y x = .lt from compare_lt_iff_lt.mpr h1]
        rfl

/-- `lex_cmp` strict order is transitive. -/
theorem lex_cmp_trans : ∀ a b c : List Int,
    lex_cmp a b = .lt → lex_cmp b c = .lt → lex_cmp a c = .lt := by
  intro a
  induction a with
  | nil =>
    intro b c hab hbc
    cases c with
    | nil =>
      cases b with
      | nil => simp [lex_cmp] at hbc
      | cons y bs => simp [lex_cmp] at hbc
    | cons z cs => simp [lex_cmp]
  | cons x as ih =>
    intro b c hab hbc
    cases b with
    | nil => simp [lex_cmp] at hab
    | cons y bs =>
      cases c with
      | nil => simp [lex_cmp] at hbc
      | cons z cs =>
        unfold lex_cmp at hab hbc ⊢
        match hxy : compare x y, hyz : compare y z with
        | .lt, .lt =>
          have h1 := compare_lt_iff_lt.mp hxy
          have h2 := compare_lt_iff_lt.mp hyz
          rw [show compare x z = .lt from compare_lt_iff_lt.mpr (by omega)]
        | .lt, .eq =>
          have h1 := compare_lt_iff_lt.mp hxy
          have h2 := compare_eq_iff_eq.mp hyz
          rw [show compare x z = .lt from compare_lt_iff_lt.mpr (by omega)]
        | .lt, .gt => rw [hyz] at hbc; simp at hbc
        | .eq, .lt =>
          have h1 := compare_eq_iff_eq.mp hxy
          have h2 := compare_lt_iff_lt.mp hyz
          rw [show compare x z = .lt from compare_lt_iff_lt.mpr (by omega)]
        | .eq, .eq =>
          have h1 := compare_eq_iff_eq.mp hxy
          have h2 := compare_eq_iff_eq.mp hyz
          rw [hxy] at hab
          rw [hyz] at hbc
          rw [show compare x z = .eq from compare_eq_iff_eq.mpr (by omega)]
          exact ih bs cs hab hbc
        | .eq, .gt => rw [hyz] at hbc; simp at hbc
        | .gt, .lt => rw [hxy] at hab; simp at hab
        | .gt, .eq => rw [hxy] at hab; simp at hab
        | .gt, .gt => rw [hxy] at hab; simp at hab

/-- Truncating both tuples preserves `.lt` or makes them equal. -/
theorem lex_cmp_take : ∀ (n : Nat) (a b : List Int), lex_cmp a b = .lt →
    lex_cmp (a.take n) (b.take n) = .lt ∨ a.take n = b.take n := by
  intro n
  induction n with
  | zero => intro a b h; right; simp
  | succ m ih =>
    intro a b h
    cases a with
    | nil =>
      cases b with
      | nil => simp [lex_cmp] at h
      | cons y bs => left; simp [lex_cmp]
    | cons x as =>
      cases b with
      | nil => simp [lex_cmp] at h
      | cons y bs =>
        unfold lex_cmp at h
        simp only [List.take_succ_cons]
        match hxy : compare x y with
        | .lt =>
          left
          unfold lex_cmp
          rw [hxy]
        | .eq =>
          rw [hxy] at h
          have hxe := compare_eq_iff_eq.mp hxy
          rcases ih as bs h with h3 | h3
          · left
            unfold lex_cmp
            rw [hxy]
            exact h3
          · right
            rw [hxe, h3]
        | .gt => rw [hxy] at h; simp at h

/-- A key tuple prefix-below one record stays prefix-below any larger
record. -/
theorem compare_record_lt_mono (keys r1 r2 : List Int)
    (h1 : compare_record keys r1 = .lt) (h2 : lex_cmp r1 r2 = .lt) :
    compare_record keys r2 = .lt := by
  unfold compare_record at h1 ⊢
  rcases lex_cmp_take keys.length r1 r2 h2 with h3 | h3
  · exact lex_cmp_trans _ _ _ h1 h3
  · rw [← h3]; exact h1

/-- A key tuple prefix-above one record stays prefix-above any smaller
record. -/
theorem compare_record_gt_mono (keys r1 r2 : List Int)
    (h1 : compare_record keys r2 = .gt) (h2 : lex_cmp r1 r2 = .lt) :
    compare_record keys r1 = .gt := by
  unfold compare_record at h1 ⊢
  rcases lex_cmp_take keys.length r1 r2 h2 with h3 | h3
  · have h4 : lex_cmp (r2.take keys.length) keys = .lt := by
      rw [lex_cmp_swap keys (r2.take keys.length), h1]
      rfl
    have h5 : lex_cmp (r1.take keys.length) keys = .lt :=
      lex_cmp_trans _ _ _ h3 h4
    rw [lex_cmp_swap (r1.take keys.length) keys, h5]
    rfl
  · rw [h3]; exact h1

/-- `recs_ascending` gives strict pairwise record order. -/
theorem recs_ascending_pairwise : ∀ rs : List (List Int),
    recs_ascending rs = true →
    List.Pairwise (fun a b => lex_cmp a b = .lt) rs
  | [], _ => List.Pairwise.nil
  | [a], _ => by simp
  | a :: b :: t, h => by
    unfold recs_ascending at h
    rw [Bool.and_eq_true, decide_eq_true_eq] at h
    have ih := recs_ascending_pairwise (b :: t) h.2
    refine List.Pairwise.cons ?_ ih
    intro x hx
    rcases List.mem_cons.mp hx with rfl | hx
    · exact h.1
    · exact lex_cmp_trans _ _ _ h.1 (List.rel_of_pairwise_cons ih hx)

/-- The index binary search (`cursor.rs` lines 242-265): it either
stops on a cell whose record prefix-matches the probe tuple, or
returns the boundary between the prefix-above run and the prefix-below
run (monotone by the page order). -/
theorem index_bin_search_spec (pg : Page) (keys : List Int)
    (recs : List (List Int))
    (hget : ∀ (i : Nat) (h : i < recs.length),
      index_cell_key pg i = some recs[i])
    (hmlt : ∀ (i j : Nat) (hi : i < recs.length) (hj : j < recs.length),
      i ≤ j → compare_record keys recs[i] = .lt →
      compare_record keys recs[j] = .lt)
    (hmgt : ∀ (i j : Nat) (hi : i < recs.length) (hj : j < recs.length),
      j ≤ i → compare_record keys recs[i] = .gt →
      compare_record keys recs[j] = .gt) :
    ∀ (fuel i_min i_max : Nat),
      i_max ≤ recs.length → i_min ≤ i_max → i_max - i_min < fuel →
      (∀ (j : Nat) (hj : j < recs.length), j < i_min →
        compare_record keys recs[j] = .gt) →
      (∀ (j : Nat) (hj : j < recs.length), i_max ≤ j →
        compare_record keys recs[j] = .lt) →
      ∃ res, index_bin_search pg keys fuel i_min i_max = .ok res ∧
        ((∃ i, ∃ hi : i < recs.length, res = (some i, i) ∧
            compare_record keys recs[i] = .eq) ∨
         (∃ i, res = (none, i) ∧ i_min ≤ i ∧ i ≤ i_max ∧
            (∀ (j : Nat) (hj : j < recs.length), j < i →
              compare_record keys recs[j] = .gt) ∧
            (∀ (j : Nat) (hj : j < recs.length), i ≤ j →
              compare_record keys recs[j] = .lt))) := by
  intro fuel
  induction fuel with
  | zero =>
    intro i_min i_max h1 h2 h3
    exact absurd h3 (by omega)
  | succ f ihf =>
    intro i_min i_max hmax hmm hfuel inv1 inv2
    rw [index_bin_search]
    by_cases hlt : i_min < i_max
    · rw [if_pos hlt]
      have hmid_lt : (i_min + i_max) / 2 < recs.length := by omega
      have hkey := hget ((i_min + i_max) / 2) hmid_lt
      match hcmp : compare_record keys recs[(i_min + i_max) / 2] with
      | .lt =>
        simp only [hkey, hcmp]
        have ⟨res, hres, hcase⟩ := ihf i_min ((i_min + i_max) / 2)
          (by omega) (by omega) (by omega) inv1
          (fun j hj hge => hmlt _ _ hmid_lt hj hge hcmp)
        refine ⟨res, hres, ?_⟩
        rcases hcase with hcase | ⟨i, hi1, hi2, hi3, hi4, hi5⟩
        · exact Or.inl hcase
        · exact Or.inr ⟨i, hi1, by omega, by omega, hi4, hi5⟩
      | .eq =>
        simp only [hkey, hcmp]
        exact ⟨(some ((i_min + i_max) / 2), (i_min + i_max) / 2), rfl,
          Or.inl ⟨(i_min + i_max) / 2, hmid_lt, rfl, hcmp⟩⟩
      | .gt =>
        simp only [hkey, hcmp]
        have ⟨res, hres, hcase⟩ := ihf ((i_min + i_max) / 2 + 1) i_max
          (by omega) (by omega) (by omega)
          (fun j hj hji => by
            rcases Nat.lt_succ_iff_lt_or_eq.mp hji with hji | rfl
            · exact hmgt _ _ hmid_lt hj (by omega) hcmp
            · exact hcmp)
          inv2
        refine ⟨res, hres, ?_⟩
        rcases hcase with hcase | ⟨i, hi1, hi2, hi3, hi4, hi5⟩
        · exact Or.inl hcase
        · exact Or.inr ⟨i, hi1, by omega, by omega, hi4, hi5⟩
    · rw [if_neg hlt]
      exact ⟨(none, i_min), rfl,
        Or.inr ⟨i_min, rfl, by omega, by omega, inv1,
          fun j hj hge => inv2 j hj (by omega)⟩⟩

/-- `index_flatten` of an interior page as `index_children_flatten`. -/
theorem index_children_flatten_foldr (pages : Pages) (fuel right : Nat) :
    ∀ cells : List IndexInteriorCell,
      cells.foldr
        (fun c acc =>
          match index_flatten pages fuel c.child, acc with
          | some lc, some ls => some (lc ++ c.record :: ls)
          | _, _ => none)
        (index_flatten pages fuel right)
      = index_children_flatten pages fuel right cells
  | [] => rfl
  | c :: cs => by
    simp only [List.foldr_cons, index_children_flatten,
      index_children_flatten_foldr pages fuel right cs]

/-- `index_flatten` on an interior page. -/
theorem index_flatten_interior (pages : Pages) (fuel : Nat) (page_id : Nat)
    (cells : List IndexInteriorCell) (right : Nat)
    (hpg : pages page_id = some (.indexInterior cells right)) :
    index_flatten pages (fuel + 1) page_id
      = index_children_flatten pages fuel right cells := by
  rw [index_flatten, hpg]
  exact index_children_flatten_foldr pages fuel right cells

/-- A well-formed index subtree's pages exist. -/
theorem wf_index_page_ex {pages : Pages} {fuel pid : Nat}
    (h : wf_index pages fuel pid = true) : ∃ pg, pages pid = some pg := by
  cases fuel with
  | zero => simp [wf_index] at h
  | succ f =>
    unfold wf_index at h
    match hpg : pages pid with
    | none => rw [hpg] at h; exact absurd h (by simp)
    | some pg => exact ⟨pg, rfl⟩

/-- Order and decomposition facts of a well-formed index interior
page's children. -/
theorem wf_index_children_facts (pages : Pages) (fuel : Nat) :
    ∀ (cells : List IndexInteriorCell) (lb : Option (List Int)) (right : Nat),
      wf_index_children (index_flatten pages fuel)
        (fun pid => wf_index pages fuel pid) lb cells right = true →
      ∃ L, index_children_flatten pages fuel right cells = some L ∧
        (∀ e ∈ L, opt_rec_lt lb e = true) ∧
        (∀ k ∈ cells.map IndexInteriorCell.record, opt_rec_lt lb k = true) ∧
        List.Pairwise (fun a b => lex_cmp a b = .lt)
          (cells.map IndexInteriorCell.record) ∧
        (∀ (i : Nat) (h : i < cells.length),
          ∃ Pre li Suf, L = Pre ++ li ++ cells[i].record :: Suf ∧
            wf_index pages fuel cells[i].child = true ∧
            index_flatten pages fuel cells[i].child = some li ∧
            index_children_flatten pages fuel right (cells.drop (i + 1))
              = some Suf ∧
            (∀ e ∈ Pre, ∃ (j : Nat) (hj : j < cells.length), j < i ∧
              (lex_cmp e cells[j].record = .lt ∨ e = cells[j].record)) ∧
            (∀ e ∈ li, lex_cmp e cells[i].record = .lt) ∧
            (∀ e ∈ Suf, lex_cmp cells[i].record e = .lt)) ∧
        (∃ Pre Lr, L = Pre ++ Lr ∧
          wf_index pages fuel right = true ∧
          index_flatten pages fuel right = some Lr ∧
          (∀ e ∈ Pre, ∃ (j : Nat) (hj : j < cells.length),
            (lex_cmp e cells[j].record = .lt ∨ e = cells[j].record)))
  | [], lb, right, h => by
    unfold wf_index_children at h
    rw [Bool.and_eq_true] at h
    obtain ⟨hwf, hmatch⟩ := h
    match hflat : index_flatten pages fuel right with
    | none => rw [hflat] at hmatch; simp at hmatch
    | some l =>
      rw [hflat] at hmatch
      rw [Bool.and_eq_true] at hmatch
      obtain ⟨hne, hbound⟩ := hmatch
      refine ⟨l, hflat, fun e he => (List.all_eq_true.mp hbound) e he,
        by simp, by simp, fun i hi => absurd hi (by simp), ?_⟩
      exact ⟨[], l, by simp, hwf, rfl, fun e he => absurd he (by simp)⟩
  | c :: cs, lb, right, h => by
    unfold wf_index_children at h
    rw [Bool.and_eq_true, Bool.and_eq_true] at h
    obtain ⟨⟨hwfc, hmatch⟩, hrec⟩ := h
    match hflatc : index_flatten pages fuel c.child with
    | none => rw [hflatc] at hmatch; simp at hmatch
    | some lc =>
      rw [hflatc] at hmatch
      rw [Bool.and_eq_true, Bool.and_eq_true, Bool.and_eq_true] at hmatch
      obtain ⟨⟨⟨hne, hlb⟩, hle⟩, hlbc⟩ := hmatch
      have hlb2 : ∀ e ∈ lc, opt_rec_lt lb e = true := List.all_eq_true.mp hlb
      have hle2 : ∀ e ∈ lc, lex_cmp e c.record = .lt := fun e he => by
        simpa using (List.all_eq_true.mp hle) e he
      obtain ⟨L2, hL2, hbound2, hkeys2, hpair2, hidx2, hright2⟩ :=
        wf_index_children_facts pages fuel cs (some c.record) right hrec
      have hboundL2 : ∀ e ∈ L2, lex_cmp c.record e = .lt := fun e he => by
        simpa [opt_rec_lt] using hbound2 e he
      have hL : index_children_flatten pages fuel right (c :: cs)
          = some (lc ++ c.record :: L2) := by
        unfold index_children_flatten
        rw [hflatc, hL2]
      have hkstep : ∀ k ∈ cs.map IndexInteriorCell.record,
          lex_cmp c.record k = .lt := fun k hk => by
        simpa [opt_rec_lt] using hkeys2 k hk
      have hoptlb : ∀ e, lex_cmp c.record e = .lt → opt_rec_lt lb e = true := by
        intro e he
        cases lb with
        | none => rfl
        | some b =>
          have h1 : lex_cmp b c.record = .lt := by
            simpa [opt_rec_lt] using hlbc
          simpa [opt_rec_lt] using lex_cmp_trans _ _ _ h1 he
      have htrans : ∀ e ∈ lc ++ c.record :: L2, opt_rec_lt lb e = true := by
        intro e he
        rcases List.mem_append.mp he with he | he
        · exact hlb2 e he
        · rcases List.mem_cons.mp he with rfl | he
          · exact hlbc
          · exact hoptlb e (hboundL2 e he)
      refine ⟨lc ++ c.record :: L2, hL, htrans, ?_, ?_, ?_, ?_⟩
      · intro k hk
        rcases (by simpa using hk :
            k = c.record ∨ ∃ a ∈ cs, a.record = k) with rfl | ⟨a, ha, rfl⟩
        · exact hlbc
        · exact hoptlb a.record
            (hkstep a.record (List.mem_map.mpr ⟨a, ha, rfl⟩))
      · simp only [List.map_cons]
        exact List.Pairwise.cons (fun k hk => hkstep k hk) hpair2
      · intro i hi
        match i with
        | 0 =>
          refine ⟨[], lc, L2, by simp, hwfc, hflatc, by simpa using hL2,
            fun e he => absurd he (by simp), ?_, ?_⟩
          · intro e he
            simpa using hle2 e he
          · intro e he
            simpa using hboundL2 e he
        | i + 1 =>
          have hi2 : i < cs.length := by simpa using hi
          obtain ⟨Pre, li, Suf, hdec, hwf, hflat, hsufeq, hpre, hli, hsuf⟩ :=
            hidx2 i hi2
          refine ⟨lc ++ c.record :: Pre, li, Suf, by rw [hdec]; simp,
            by simpa using hwf, by simpa using hflat, by simpa using hsufeq,
            ?_, by simpa using hli, by simpa using hsuf⟩
          intro e he
          rcases List.mem_append.mp he with he | he
          · exact ⟨0, by simp, by omega, Or.inl (by simpa using hle2 e he)⟩
          · rcases List.mem_cons.mp he with rfl | he
            · exact ⟨0, by simp, by omega, Or.inr (by simp)⟩
            · obtain ⟨j, hj, hji, hjk⟩ := hpre e he
              exact ⟨j + 1, by simpa using hj, by omega, by simpa using hjk⟩
      · obtain ⟨Pre, Lr, hdec, hwfr, hflatr, hpre⟩ := hright2
        refine ⟨lc ++ c.record :: Pre, Lr, by rw [hdec]; simp, hwfr, hflatr, ?_⟩
        intro e he
        rcases List.mem_append.mp he with he | he
        · exact ⟨0, by simp, Or.inl (by simpa using hle2 e he)⟩
        · rcases List.mem_cons.mp he with rfl | he
          · exact ⟨0, by simp, Or.inr (by simp)⟩
          · obtain ⟨j, hj, hjk⟩ := hpre e he
            exact ⟨j + 1, by simpa using hj, by simpa using hjk⟩

/-- With an exhausted stack, the index ascend walks to the completion
sentinel on an index page. -/
theorem index_ascend_empty (pages : Pages) :
    ∀ (S : List CursorPage) (c : CursorPage),
      stack_rest pages S [] →
      c.idx_cell = c.n_cells →
      c.page_type.is_index = true →
      ∃ c2, index_next_ascend c S = (c2, []) ∧
        c2.idx_cell = c2.n_cells + 1 ∧ c2.page_type.is_index = true := by
  intro S
  induction S with
  | nil =>
    intro c hst hidx hty
    exact ⟨{ c with idx_cell := c.idx_cell + 1 }, rfl, by simp [hidx], hty⟩
  | cons p rest ih =>
    intro c hst hidx hty
    obtain ⟨cells, right, pageR, restR, hpg, hcn, hct, hcl, hpos, hR, hrest⟩ := hst
    have hpr := List.append_eq_nil.mp hR.symm
    rcases hpos with ⟨hpe, _⟩ | ⟨hlt, L, hpR⟩
    · obtain ⟨c2, hasc, h1, h2⟩ := ih p (by rw [hpr.2] at hrest; exact hrest)
        (by rw [hcn, hpe]) (by rw [hct]; rfl)
      refine ⟨c2, ?_, h1, h2⟩
      rw [index_next_ascend, if_pos (by rw [hcn, hpe])]
      exact hasc
    · rw [hpR] at hpr
      exact absurd hpr.1 (by simp)

/-- With a non-exhausted stack, the index ascend stops on the nearest
ancestor cell, whose record heads the remaining-records list. -/
theorem index_ascend_nonempty (pages : Pages) :
    ∀ (S : List CursorPage) (R0 : List Int) (Rt : List (List Int))
      (c : CursorPage),
      stack_rest pages S (R0 :: Rt) →
      ∃ c2 s2, index_next_ascend c S = (c2, s2) ∧
        cache_ok pages c2 ∧ c2.page_type = .indexInterior ∧
        c2.idx_cell < c2.n_cells ∧
        (∃ cells right, pages c2.page_id = some (.indexInterior cells right) ∧
          ∃ hlt : c2.idx_cell < cells.length,
            cells[c2.idx_cell].record = R0) := by
  intro S
  induction S with
  | nil =>
    intro R0 Rt c hst
    exact absurd hst (by simp [stack_rest])
  | cons p rest ih =>
    intro R0 Rt c hst
    obtain ⟨cells, right, pageR, restR, hpg, hcn, hct, hcl, hpos, hR, hrest⟩ := hst
    rcases hpos with ⟨hpe, hpR⟩ | ⟨hlt, L, hpR⟩
    · have hre : restR = R0 :: Rt := by rw [hpR] at hR; simpa using hR.symm
      obtain ⟨c2, s2, hasc, hco, hcty, hci, hrec⟩ := ih R0 Rt p
        (hre ▸ hrest)
      refine ⟨c2, s2, ?_, hco, hcty, hci, hrec⟩
      rw [index_next_ascend, if_pos (by rw [hcn, hpe])]
      exact hasc
    · have hrec : cells[p.idx_cell].record = R0 := by
        rw [hpR, List.cons_append] at hR
        injection hR.symm with h1 h2
      refine ⟨p, rest, ?_, ⟨.indexInterior cells right, hpg, by rw [hcn]; rfl,
        by rw [hct]; rfl, by rw [hcl]; rfl⟩, hct, by omega, cells, right, hpg,
        hlt, hrec⟩
      rw [index_next_ascend, if_neg (by omega)]

/-- `get_index_payload` on an initialized index cursor resting on a
parsable cell. -/
theorem get_index_payload_at (pages : Pages) (cur2 : BtreeCursor) (pg : Page)
    (hin : cur2.inited = true)
    (hty : cur2.current_page.page_type.is_index = true)
    (hlt : cur2.current_page.idx_cell < cur2.current_page.n_cells)
    (hpg : pages cur2.current_page.page_id = some pg)
    (rec : List Int)
    (hkey : index_cell_key pg cur2.current_page.idx_cell = some rec) :
    get_index_payload pages cur2 = .ok (some rec) := by
  unfold get_index_payload
  rw [if_neg (by rw [hin]; simp), if_neg (by rw [hty]; simp),
    if_neg (by omega)]
  simp only [hpg, hkey]

/-- `get_index_payload` past the cells of an initialized index
cursor. -/
theorem get_index_payload_none (pages : Pages) (cur2 : BtreeCursor)
    (hin : cur2.inited = true)
    (hty : cur2.current_page.page_type.is_index = true)
    (hge : cur2.current_page.n_cells ≤ cur2.current_page.idx_cell) :
    get_index_payload pages cur2 = .ok none := by
  unfold get_index_payload
  rw [if_neg (by rw [hin]; simp), if_neg (by rw [hty]; simp), if_pos hge]

/-- The per-page loop of `index_move_to` on a well-formed index
subtree whose records are `l`, with `R` the records that follow the
subtree (all strictly above the probe): the loop lands either on a
record prefix-equal to the probe tuple, or on the least record
prefix-above it (with everything before prefix-below), or completes
the cursor when every record is prefix-below the probe. -/
theorem index_move_to_loop_spec (pages : Pages) (keys : List Int) :
    ∀ (fuel : Nat) (cur : BtreeCursor) (l R : List (List Int)),
      wf_index pages fuel cur.current_page.page_id = true →
      index_flatten pages fuel cur.current_page.page_id = some l →
      cache_ok pages cur.current_page →
      stack_rest pages cur.parent_pages R →
      (∀ r ∈ R, compare_record keys r = .lt) →
      ∃ cur2, index_move_to_loop pages keys fuel cur = .ok cur2 ∧
        cur2.inited = true ∧
        ((∃ R0, R0 ∈ l ∧ compare_record keys R0 = .eq ∧
            get_index_payload pages cur2 = .ok (some R0)) ∨
         (∃ P R0 Q, l ++ R = P ++ R0 :: Q ∧
            (∀ e ∈ P, compare_record keys e = .gt) ∧
            compare_record keys R0 = .lt ∧
            (∀ e ∈ Q, compare_record keys e = .lt) ∧
            get_index_payload pages cur2 = .ok (some R0)) ∨
         ((∀ e ∈ l ++ R, compare_record keys e = .gt) ∧
            is_completed cur2 = true ∧
            get_index_payload pages cur2 = .ok none)) := by
  intro fuel
  induction fuel with
  | zero =>
    intro cur l R hwf
    simp [wf_index] at hwf
  | succ fuel ih =>
    intro cur l R hwf hflat hcache hstack hR
    obtain ⟨pg, hpg, hcn, hct, hcl⟩ := hcache
    rw [wf_index, hpg] at hwf
    match pg, hpg, hcn, hct, hcl with
    | .indexLeaf cells, hpg, hcn, hct, hcl =>
      have hcn2 : cur.current_page.n_cells = cells.length := by rw [hcn]; rfl
      have hcl2 : cur.current_page.is_leaf = true := by rw [hcl]; rfl
      have hct2 : cur.current_page.page_type = .indexLeaf := by rw [hct]; rfl
      have hwf2 : recs_ascending cells = true := hwf
      have hl : cells = l := by
        rw [index_flatten, hpg] at hflat
        exact Option.some.inj hflat
      subst hl
      have hpw := List.pairwise_iff_getElem.mp (recs_ascending_pairwise _ hwf2)
      have hget : ∀ (i : Nat) (h : i < cells.length),
          index_cell_key (Page.indexLeaf cells) i = some cells[i] := by
        intro i h
        simp [index_cell_key, List.getElem?_eq_getElem h]
      have hmlt : ∀ (i j : Nat) (hi : i < cells.length) (hj : j < cells.length),
          i ≤ j → compare_record keys cells[i] = .lt →
          compare_record keys cells[j] = .lt := by
        intro i j hi hj hij hcmp
        rcases Nat.eq_or_lt_of_le hij with rfl | hij
        · exact hcmp
        · exact compare_record_lt_mono _ _ _ hcmp (hpw i j hi hj hij)
      have hmgt : ∀ (i j : Nat) (hi : i < cells.length) (hj : j < cells.length),
          j ≤ i → compare_record keys cells[i] = .gt →
          compare_record keys cells[j] = .gt := by
        intro i j hi hj hij hcmp
        rcases Nat.eq_or_lt_of_le hij with rfl | hij
        · exact hcmp
        · exact compare_record_gt_mono _ _ _ hcmp (hpw j i hj hi hij)
      obtain ⟨res, hsearch, hcase⟩ := index_bin_search_spec
        (Page.indexLeaf cells) keys cells hget hmlt hmgt
        (cur.current_page.n_cells + 1) 0 cur.current_page.n_cells
        (by omega) (by omega) (by omega)
        (fun j hj hji => absurd hji (by omega))
        (fun j hj hge => absurd hge (by omega))
      have hty2 : cur.current_page.page_type.is_index = true := by
        rw [hct2]; rfl
      rw [index_move_to_loop,
        if_neg (show ¬((!cur.current_page.page_type.is_index) = true) by
          rw [hty2]; simp)]
      rcases hcase with ⟨i, hi, hres, hcmp⟩ | ⟨i, hres, hge0, hlen, inv1, inv2⟩
      · subst hres
        simp only [hpg, hsearch]
        refine ⟨{ cur with
            current_page := { cur.current_page with idx_cell := i },
            inited := true }, rfl, rfl,
          Or.inl ⟨cells[i], List.mem_iff_getElem.mpr ⟨i, hi, rfl⟩, hcmp, ?_⟩⟩
        exact get_index_payload_at pages
          { cur with
            current_page := { cur.current_page with idx_cell := i },
            inited := true }
          (Page.indexLeaf cells) rfl hty2
          (show i < cur.current_page.n_cells by omega) hpg cells[i] (hget i hi)
      · subst hres
        simp only [hpg, hsearch]
        rw [if_pos hcl2]
        by_cases hi_n : i = cur.current_page.n_cells
        · rw [if_pos hi_n]
          match hRc : R, hR, hstack with
          | [], hR, hstack =>
            obtain ⟨c2, hasc, hc2i, hc2ty⟩ := index_ascend_empty pages
              cur.parent_pages { cur.current_page with idx_cell := i }
              hstack (by rw [hi_n]) hty2
            simp only [hasc]
            refine ⟨{ current_page := c2, parent_pages := [], inited := true },
              rfl, rfl, Or.inr (Or.inr ⟨?_, ?_, ?_⟩)⟩
            · intro e he
              rw [List.append_nil] at he
              obtain ⟨j, hj, rfl⟩ := List.mem_iff_getElem.mp he
              exact inv1 j hj (by omega)
            · simp [is_completed, hc2i]
            · exact get_index_payload_none pages
                { current_page := c2, parent_pages := [], inited := true }
                rfl hc2ty (show c2.n_cells ≤ c2.idx_cell by omega)
          | R0 :: Rt, hR, hstack =>
            obtain ⟨c2, s2, hasc, hco, hcty2, hclt, icells, iright, hipg,
              hilt, hirec⟩ := index_ascend_nonempty pages cur.parent_pages
              R0 Rt { cur.current_page with idx_cell := i } hstack
            simp only [hasc]
            refine ⟨{ current_page := c2, parent_pages := s2, inited := true },
              rfl, rfl, Or.inr (Or.inl
              ⟨cells, R0, Rt, rfl, ?_, hR R0 (by simp),
                fun e he => hR e (List.mem_cons_of_mem _ he), ?_⟩)⟩
            · intro e he
              obtain ⟨j, hj, rfl⟩ := List.mem_iff_getElem.mp he
              exact inv1 j hj (by omega)
            · refine get_index_payload_at pages
                { current_page := c2, parent_pages := s2, inited := true }
                (.indexInterior icells iright)
                rfl (show c2.page_type.is_index = true by rw [hcty2]; rfl)
                hclt hipg R0 ?_
              simp [index_cell_key, List.getElem?_eq_getElem hilt, hirec]
        · rw [if_neg hi_n]
          have hi_lt : i < cells.length := by omega
          refine ⟨{ cur with
              current_page := { cur.current_page with idx_cell := i },
              inited := true }, rfl, rfl, Or.inr (Or.inl
            ⟨cells.take i, cells[i], cells.drop (i + 1) ++ R, ?_, ?_,
              inv2 i hi_lt (by omega), ?_, ?_⟩)⟩
          · have hsplit : cells = cells.take i ++ cells[i] :: cells.drop (i + 1) := by
              conv_lhs => rw [← List.take_append_drop i cells,
                List.drop_eq_getElem_cons hi_lt]
            conv_lhs => rw [hsplit]
            rw [List.append_assoc, List.cons_append]
          · intro e he
            obtain ⟨j, hj, rfl⟩ := List.mem_iff_getElem.mp he
            have hjt : j < i := by
              have := hj
              rw [List.length_take] at this
              omega
            have hjc : j < cells.length := by omega
            have hte : (cells.take i)[j] = cells[j] := List.getElem_take ..
            rw [hte]
            exact inv1 j hjc hjt
          · intro e he
            rcases List.mem_append.mp he with he | he
            · obtain ⟨j, hj, rfl⟩ := List.mem_iff_getElem.mp he
              have hj2 : j < cells.length - (i + 1) := by simpa using hj
              have hge : (cells.drop (i + 1))[j] = cells[i + 1 + j] :=
                List.getElem_drop ..
              rw [hge]
              exact inv2 (i + 1 + j) (by omega) (by omega)
            · exact hR e he
          · exact get_index_payload_at pages
              { cur with
                current_page := { cur.current_page with idx_cell := i },
                inited := true }
              (Page.indexLeaf cells) rfl hty2
              (show i < cur.current_page.n_cells by omega) hpg cells[i]
              (hget i hi_lt)
    | .indexInterior cells right, hpg, hcn, hct, hcl =>
      have hcn2 : cur.current_page.n_cells = cells.length := by rw [hcn]; rfl
      have hcl2 : cur.current_page.is_leaf = false := by rw [hcl]; rfl
      have hct2 : cur.current_page.page_type = .indexInterior := by rw [hct]; rfl
      have hty2 : cur.current_page.page_type.is_index = true := by
        rw [hct2]; rfl
      have hwf2 : (!cells.isEmpty &&
          wf_index_children (index_flatten pages fuel)
            (fun pid => wf_index pages fuel pid) none cells right) = true := hwf
      rw [Bool.and_eq_true] at hwf2
      obtain ⟨hnecells, hch⟩ := hwf2
      obtain ⟨L, hL, hLb, hkb, hkpair, hidx, hrightdec⟩ :=
        wf_index_children_facts pages fuel cells none right hch
      have hLl : L = l := by
        have hfi := index_flatten_interior pages fuel
          cur.current_page.page_id cells right hpg
        rw [hfi, hL] at hflat
        exact Option.some.inj hflat
      subst hLl
      have hpw := List.pairwise_iff_getElem.mp hkpair
      have hget : ∀ (i : Nat) (h : i < (cells.map IndexInteriorCell.record).length),
          index_cell_key (Page.indexInterior cells right) i
            = some (cells.map IndexInteriorCell.record)[i] := by
        intro i h
        rw [List.length_map] at h
        simp [index_cell_key, List.getElem?_eq_getElem h]
      have hmlt : ∀ (i j : Nat)
          (hi : i < (cells.map IndexInteriorCell.record).length)
          (hj : j < (cells.map IndexInteriorCell.record).length),
          i ≤ j →
          compare_record keys (cells.map IndexInteriorCell.record)[i] = .lt →
          compare_record keys (cells.map IndexInteriorCell.record)[j] = .lt := by
        intro i j hi hj hij hcmp
        rcases Nat.eq_or_lt_of_le hij with rfl | hij
        · exact hcmp
        · exact compare_record_lt_mono _ _ _ hcmp (hpw i j hi hj hij)
      have hmgt : ∀ (i j : Nat)
          (hi : i < (cells.map IndexInteriorCell.record).length)
          (hj : j < (cells.map IndexInteriorCell.record).length),
          j ≤ i →
          compare_record keys (cells.map IndexInteriorCell.record)[i] = .gt →
          compare_record keys (cells.map IndexInteriorCell.record)[j] = .gt := by
        intro i j hi hj hij hcmp
        rcases Nat.eq_or_lt_of_le hij with rfl | hij
        · exact hcmp
        · exact compare_record_gt_mono _ _ _ hcmp (hpw j i hj hi hij)
      obtain ⟨res, hsearch, hcase⟩ := index_bin_search_spec
        (Page.indexInterior cells right) keys
        (cells.map IndexInteriorCell.record) hget hmlt hmgt
        (cur.current_page.n_cells + 1) 0 cur.current_page.n_cells
        (by simp [hcn2]) (by omega) (by omega)
        (fun j hj hji => absurd hji (by omega))
        (fun j hj hge => absurd hge (by rw [List.length_map] at hj; omega))
      rw [index_move_to_loop,
        if_neg (show ¬((!cur.current_page.page_type.is_index) = true) by
          rw [hty2]; simp)]
      have hgtPre : ∀ (b : Nat), b ≤ cells.length →
          (∀ (j : Nat) (hj : j < (cells.map IndexInteriorCell.record).length),
            j < b →
            compare_record keys (cells.map IndexInteriorCell.record)[j] = .gt) →
          ∀ e, (∃ (j : Nat) (hj : j < cells.length), j < b ∧
            (lex_cmp e cells[j].record = .lt ∨ e = cells[j].record)) →
          compare_record keys e = .gt := by
        intro b hb hinv e ⟨j, hj, hjb, hrel⟩
        have hjm : j < (cells.map IndexInteriorCell.record).length := by
          simpa using hj
        have hgt := hinv j hjm hjb
        rw [List.getElem_map] at hgt
        rcases hrel with hrel | rfl
        · exact compare_record_gt_mono _ _ _ hgt hrel
        · exact hgt
      rcases hcase with ⟨i, hi, hres, hcmp⟩ | ⟨i, hres, hge0, hlen, inv1, inv2⟩
      · subst hres
        simp only [hpg, hsearch]
        rw [List.length_map] at hi
        have hcmp2 : compare_record keys cells[i].record = .eq := by
          rw [List.getElem_map] at hcmp
          exact hcmp
        obtain ⟨Pre, li, Suf, hdec, hwf_i, hflat_i, hsufeq, hpre, hli, hsuf⟩ :=
          hidx i hi
        refine ⟨{ cur with
            current_page := { cur.current_page with idx_cell := i },
            inited := true }, rfl, rfl,
          Or.inl ⟨cells[i].record, ?_, hcmp2, ?_⟩⟩
        · rw [hdec]
          exact List.mem_append.mpr (Or.inr (by simp))
        · refine get_index_payload_at pages
            { cur with
              current_page := { cur.current_page with idx_cell := i },
              inited := true }
            (.indexInterior cells right)
            rfl hty2 (show i < cur.current_page.n_cells by omega) hpg
            cells[i].record ?_
          simp [index_cell_key, List.getElem?_eq_getElem hi]
      · subst hres
        simp only [hpg, hsearch]
        rw [if_neg (show ¬ (cur.current_page.is_leaf = true) by
          rw [hcl2]; simp)]
        by_cases hi_n : i = cur.current_page.n_cells
        · rw [if_pos hi_n]
          simp only [Page.right_page_id]
          obtain ⟨Pre, Lr, hdec, hwfr, hflatr, hpre⟩ := hrightdec
          obtain ⟨cpg, hcpg⟩ := wf_index_page_ex hwfr
          simp only [move_to_child, CursorPage.new, hcpg]
          have hstack2 : stack_rest pages
              ({ cur.current_page with idx_cell := i } :: cur.parent_pages) R :=
            ⟨cells, right, [], R, hpg, hcn2, hct2, hcl2,
              Or.inl ⟨show i = cells.length by omega, rfl⟩, rfl, hstack⟩
          obtain ⟨cur2, hloop, hin2, hcase2⟩ :=
            ih
              { current_page :=
                  { page_id := right, idx_cell := 0, n_cells := cpg.n_cells,
                    page_type := cpg.page_type, is_leaf := cpg.page_type.is_leaf },
                parent_pages :=
                  { cur.current_page with idx_cell := i } :: cur.parent_pages,
                inited := cur.inited } Lr R hwfr hflatr
              ⟨cpg, hcpg, rfl, rfl, rfl⟩ hstack2 hR
          refine ⟨cur2, hloop, hin2, ?_⟩
          have hPreGt : ∀ e ∈ Pre, compare_record keys e = .gt := by
            intro e he
            exact hgtPre cells.length (le_refl _)
              (fun j hj hjb => inv1 j hj (by omega)) e
              (by
                obtain ⟨j, hj, hrel⟩ := hpre e he
                exact ⟨j, hj, by omega, hrel⟩)
          rcases hcase2 with ⟨R0, hmem, hcmp0, hpay⟩
            | ⟨P, R0, Q, hd, hP, hc0, hQ0, hpay⟩
            | ⟨hall, hcomp, hpay⟩
          · exact Or.inl ⟨R0, by rw [hdec]; exact List.mem_append.mpr (Or.inr hmem),
              hcmp0, hpay⟩
          · refine Or.inr (Or.inl ⟨Pre ++ P, R0, Q, ?_, ?_, hc0, hQ0, hpay⟩)
            · rw [hdec, List.append_assoc, hd]
              simp
            · intro e he
              rcases List.mem_append.mp he with he | he
              · exact hPreGt e he
              · exact hP e he
          · refine Or.inr (Or.inr ⟨?_, hcomp, hpay⟩)
            intro e he
            rw [hdec, List.append_assoc] at he
            rcases List.mem_append.mp he with he | he
            · exact hPreGt e he
            · exact hall e he
        · rw [if_neg hi_n]
          have hi_lt : i < cells.length := by omega
          obtain ⟨Pre, li, Suf, hdec, hwf_i, hflat_i, hsufeq, hpre, hli, hsuf⟩ :=
            hidx i hi_lt
          obtain ⟨cpg, hcpg⟩ := wf_index_page_ex hwf_i
          simp only [parse_btree_interior_cell_page_id,
            List.getElem?_eq_getElem hi_lt, Option.map_some', move_to_child,
            CursorPage.new, hcpg]
          have hrecLt : compare_record keys cells[i].record = .lt := by
            have := inv2 i (by simpa using hi_lt) (by omega)
            rwa [List.getElem_map] at this
          have hstack2 : stack_rest pages
              ({ cur.current_page with idx_cell := i } :: cur.parent_pages)
              ((cells[i].record :: Suf) ++ R) :=
            ⟨cells, right, cells[i].record :: Suf, R, hpg, hcn2, hct2, hcl2,
              Or.inr ⟨hi_lt, Suf, rfl⟩, rfl, hstack⟩
          have hR2 : ∀ r ∈ (cells[i].record :: Suf) ++ R,
              compare_record keys r = .lt := by
            intro r hr
            rcases List.mem_append.mp hr with hr | hr
            · rcases List.mem_cons.mp hr with rfl | hr
              · exact hrecLt
              · exact compare_record_lt_mono _ _ _ hrecLt (hsuf r hr)
            · exact hR r hr
          obtain ⟨cur2, hloop, hin2, hcase2⟩ :=
            ih
              { current_page :=
                  { page_id := cells[i].child, idx_cell := 0,
                    n_cells := cpg.n_cells, page_type := cpg.page_type,
                    is_leaf := cpg.page_type.is_leaf },
                parent_pages :=
                  { cur.current_page with idx_cell := i } :: cur.parent_pages,
                inited := cur.inited } li ((cells[i].record :: Suf) ++ R)
              hwf_i hflat_i ⟨cpg, hcpg, rfl, rfl, rfl⟩ hstack2 hR2
          refine ⟨cur2, hloop, hin2, ?_⟩
          have hPreGt : ∀ e ∈ Pre, compare_record keys e = .gt := by
            intro e he
            exact hgtPre i (by omega) inv1 e (hpre e he)
          have hglue : L ++ R = Pre ++ (li ++ ((cells[i].record :: Suf) ++ R)) := by
            rw [hdec]
            simp
          rcases hcase2 with ⟨R0, hmem, hcmp0, hpay⟩
            | ⟨P, R0, Q, hd, hP, hc0, hQ0, hpay⟩
            | ⟨hall, hcomp, hpay⟩
          · exact Or.inl ⟨R0, by
              rw [hdec]
              exact List.mem_append.mpr
                (Or.inl (List.mem_append.mpr (Or.inr hmem))), hcmp0, hpay⟩
          · refine Or.inr (Or.inl ⟨Pre ++ P, R0, Q, ?_, ?_, hc0, hQ0, hpay⟩)
            · rw [hglue, hd]
              simp
            · intro e he
              rcases List.mem_append.mp he with he | he
              · exact hPreGt e he
              · exact hP e he
          · exact absurd (hall cells[i].record
              (List.mem_append.mpr (Or.inr (by simp)))) (by rw [hrecLt]; simp)

/-- C5: on a well-formed index tree with records `l`, `index_move_to`
from a fresh cursor succeeds and leaves an initialized cursor that
either rests on a record whose leading columns prefix-compare equal to
the probe tuple (possibly on an interior cell, without descending), or
rests on the least record prefix-above the tuple with every earlier
record prefix-below it, or is completed with every record prefix-below
the tuple; and whenever a prefix-equal record exists, the landed-on
record is such a record. -/
theorem index_move_to_finds_record (pages : Pages) (root fuel : Nat)
    (keys : List Int) (l : List (List Int)) (cur0 : BtreeCursor)
    (hwf : wf_index pages fuel root = true)
    (hflat : index_flatten pages fuel root = some l)
    (hnew : BtreeCursor.new pages root = .ok cur0) :
    ∃ cur2, index_move_to pages fuel cur0 keys = .ok cur2 ∧
      cur2.inited = true ∧
      ((∃ R0, R0 ∈ l ∧ compare_record keys R0 = .eq ∧
          get_index_payload pages cur2 = .ok (some R0)) ∨
       (∃ P R0 Q, l = P ++ R0 :: Q ∧
          (∀ e ∈ P, compare_record keys e = .gt) ∧
          compare_record keys R0 = .lt ∧
          (∀ e ∈ Q, compare_record keys e = .lt) ∧
          get_index_payload pages cur2 = .ok (some R0)) ∨
       ((∀ e ∈ l, compare_record keys e = .gt) ∧
          is_completed cur2 = true ∧
          get_index_payload pages cur2 = .ok none)) ∧
      ((∃ R0 ∈ l, compare_record keys R0 = .eq) →
        ∃ R0, R0 ∈ l ∧ compare_record keys R0 = .eq ∧
          get_index_payload pages cur2 = .ok (some R0)) := by
  rcases hpgr : pages root with _ | pg
  · unfold BtreeCursor.new CursorPage.new at hnew
    rw [hpgr] at hnew
    simp at hnew
  · unfold BtreeCursor.new CursorPage.new at hnew
    rw [hpgr] at hnew
    have hc0 : cur0 =
        { current_page :=
            { page_id := root, idx_cell := 0, n_cells := pg.n_cells,
              page_type := pg.page_type, is_leaf := pg.page_type.is_leaf },
          parent_pages := [], inited := false } := (Except.ok.inj hnew).symm
    subst hc0
    obtain ⟨cur2, hloop, hin2, hcase⟩ :=
      index_move_to_loop_spec pages keys fuel
        { current_page :=
            { page_id := root, idx_cell := 0, n_cells := pg.n_cells,
              page_type := pg.page_type, is_leaf := pg.page_type.is_leaf },
          parent_pages := [], inited := false } l [] hwf hflat
        ⟨pg, hpgr, rfl, rfl, rfl⟩ rfl (fun r hr => absurd hr (by simp))
    rw [List.append_nil] at hcase
    refine ⟨cur2, hloop, hin2, hcase, ?_⟩
    rintro ⟨R0, hR0, heq⟩
    rcases hcase with ⟨R1, h1, h2, h3⟩
      | ⟨P, R1, Q, hd, hP, hc1, hQ, hpay⟩ | ⟨hall, hcomp, hpay⟩
    · exact ⟨R1, h1, h2, h3⟩
    · exfalso
      rw [hd] at hR0
      rcases List.mem_append.mp hR0 with h | h
      · have h4 := hP R0 h
        rw [heq] at h4
        simp at h4
      · rcases List.mem_cons.mp h with rfl | h
        · rw [heq] at hc1
          simp at hc1
        · have h4 := hQ R0 h
          rw [heq] at h4
          simp at h4
    · have h4 := hall R0 hR0
      rw [heq] at h4
      simp at h4

/-- Witness for C5: the two-level index tree `pagesI` probed with the
one-column tuple `[2]`, which matches the root interior cell. -/
theorem index_move_to_finds_record_witness :
    wf_index pagesI 4 1 = true ∧
    index_flatten pagesI 4 1 = some [[1, 10], [2, 20], [3, 30]] ∧
    BtreeCursor.new pagesI 1 = .ok cursorInew ∧
    (∃ cur2, index_move_to pagesI 4 cursorInew [2] = .ok cur2 ∧
      cur2.inited = true ∧
      ((∃ R0, R0 ∈ [[1, 10], [2, 20], [3, 30]] ∧
          compare_record [2] R0 = .eq ∧
          get_index_payload pagesI cur2 = .ok (some R0)) ∨
       (∃ P R0 Q, [[1, 10], [2, 20], [3, 30]] = P ++ R0 :: Q ∧
          (∀ e ∈ P, compare_record [2] e = .gt) ∧
          compare_record [2] R0 = .lt ∧
          (∀ e ∈ Q, compare_record [2] e = .lt) ∧
          get_index_payload pagesI cur2 = .ok (some R0)) ∨
       ((∀ e ∈ [[1, 10], [2, 20], [3, 30]], compare_record [2] e = .gt) ∧
          is_completed cur2 = true ∧
          get_index_payload pagesI cur2 = .ok none)) ∧
      ((∃ R0 ∈ [[1, 10], [2, 20], [3, 30]], compare_record [2] R0 = .eq) →
        ∃ R0, R0 ∈ [[1, 10], [2, 20], [3, 30]] ∧
          compare_record [2] R0 = .eq ∧
          get_index_payload pagesI cur2 = .ok (some R0))) :=
  ⟨by decide, by rfl, by rfl,
    index_move_to_finds_record pagesI 1 4 [2] [[1, 10], [2, 20], [3, 30]]
      cursorInew (by decide) (by rfl) (by rfl)⟩

/-- `insertIdx` as take-cons-drop. -/
theorem insertIdx_decomp {α : Type} :
    ∀ (l : List α) (i : Nat) (a : α), i ≤ l.length →
      l.insertIdx i a = l.take i ++ a :: l.drop i
  | l, 0, a, _ => by simp
  | [], i + 1, a, h => by simp at h
  | x :: l, i + 1, a, h => by
    simp only [List.insertIdx_succ_cons, List.take_succ_cons, List.drop_succ_cons,
      List.cons_append]
    rw [insertIdx_decomp l i a (by simpa using h)]

/-- Converse of `keys_ascending_pairwise`. -/
theorem keys_ascending_of_pairwise : ∀ ks : List Int,
    List.Pairwise (· < ·) ks → keys_ascending ks = true
  | [], _ => rfl
  | [_], _ => rfl
  | a :: b :: t, h => by
    unfold keys_ascending
    rw [Bool.and_eq_true, decide_eq_true_eq]
    exact ⟨List.rel_of_pairwise_cons h (by simp),
      keys_ascending_of_pairwise (b :: t) h.tail⟩

/-- `children_flatten_f` on the store's own flatten is
`table_children_flatten`. -/
theorem children_flatten_f_eq (pages : Pages) (fuel right : Nat) :
    ∀ cells : List TableInteriorCell,
      children_flatten_f (table_flatten pages fuel) right cells
        = table_children_flatten pages fuel right cells
  | [] => rfl
  | c :: cs => by
    unfold children_flatten_f table_children_flatten
    rw [children_flatten_f_eq pages fuel right cs]

/-- The children-pids fold of `table_pids` as `table_children_pids`. -/
theorem table_children_pids_foldr (pages : Pages) (fuel right : Nat) :
    ∀ cells : List TableInteriorCell,
      cells.foldr
        (fun c acc =>
          match table_pids pages fuel c.child, acc with
          | some a, some b => some (a ++ b)
          | _, _ => none)
        (table_pids pages fuel right)
      = table_children_pids pages fuel right cells
  | [] => rfl
  | c :: cs => by
    simp only [List.foldr_cons, table_children_pids,
      table_children_pids_foldr pages fuel right cs]

/-- `table_pids` on an interior page. -/
theorem table_pids_interior (pages : Pages) (fuel : Nat) (page_id : Nat)
    (cells : List TableInteriorCell) (right : Nat)
    (hpg : pages page_id = some (.tableInterior cells right)) :
    table_pids pages (fuel + 1) page_id
      = match table_children_pids pages fuel right cells with
        | some ids => some (page_id :: ids)
        | none => none := by
  have h1 : table_pids pages (fuel + 1) page_id
      = match cells.foldr
          (fun c acc =>
            match table_pids pages fuel c.child, acc with
            | some a, some b => some (a ++ b)
            | _, _ => none)
          (table_pids pages fuel right) with
        | some ids => some (page_id :: ids)
        | none => none := by
    simp only [table_pids, hpg]
  rw [h1, table_children_pids_foldr]

/-- Decomposition of the children pids into per-subtree blocks. -/
theorem table_children_pids_blocks (pages : Pages) (fuel right : Nat) :
    ∀ (cells : List TableInteriorCell) (ids : List Nat),
      table_children_pids pages fuel right cells = some ids →
      ∃ blocks : List (List Nat),
        ids = blocks.flatten ∧ blocks.length = cells.length + 1 ∧
        (∀ (i : Nat) (hi : i < cells.length) (hb : i < blocks.length),
          table_pids pages fuel cells[i].child = some blocks[i]) ∧
        (∀ hb : cells.length < blocks.length,
          table_pids pages fuel right = some blocks[cells.length])
  | [], ids, h => by
    refine ⟨[ids], by simp, by simp, fun i hi => absurd hi (by simp), ?_⟩
    intro hb
    simpa using h
  | c :: cs, ids, h => by
    unfold table_children_pids at h
    match ha : table_pids pages fuel c.child,
        hb : table_children_pids pages fuel right cs with
    | none, _ => rw [ha] at h; simp at h
    | some a, none => rw [ha, hb] at h; simp at h
    | some a, some b =>
      rw [ha, hb] at h
      obtain ⟨blocks, hflat2, hlen, hcell, hright⟩ :=
        table_children_pids_blocks pages fuel right cs b hb
      refine ⟨a :: blocks, ?_, by simpa using hlen, ?_, ?_⟩
      · rw [List.flatten_cons, ← hflat2]
        exact (Option.some.inj h).symm
      · intro i hi hbl
        match i with
        | 0 => simpa using ha
        | i + 1 =>
          have hi2 : i < cs.length := by simpa using hi
          have hb2 : i < blocks.length := by omega
          simpa using hcell i hi2 hb2
      · intro hbl
        have hb2 : cs.length < blocks.length := by omega
        simpa using hright hb2

/-- Updating one page leaves the rows of any subtree not containing it
unchanged. -/
theorem table_flatten_frame (pages pages2 : Pages) (x : Nat)
    (hagree : ∀ q, q ≠ x → pages2 q = pages q) :
    ∀ (fuel q : Nat) (idsq : List Nat),
      table_pids pages fuel q = some idsq → x ∉ idsq →
      table_flatten pages2 fuel q = table_flatten pages fuel q := by
  intro fuel
  induction fuel with
  | zero =>
    intro q idsq h hx
    simp [table_pids] at h
  | succ fuel ihf =>
    intro q idsq hpids hx
    match hq : pages q with
    | none => simp only [table_pids, hq] at hpids; exact Option.noConfusion hpids
    | some (.indexLeaf cells) => simp only [table_pids, hq] at hpids; exact Option.noConfusion hpids
    | some (.indexInterior cells right) => simp only [table_pids, hq] at hpids; exact Option.noConfusion hpids
    | some (.tableLeaf lay cells) =>
      have hqx : q ≠ x := by
        simp only [table_pids, hq] at hpids
        have h2 : idsq = [q] := (Option.some.inj hpids).symm
        subst h2
        simp at hx
        omega
      simp only [table_flatten, hagree q hqx, hq]
    | some (.tableInterior cells right) =>
      rw [table_pids_interior pages fuel q cells right hq] at hpids
      match hcp : table_children_pids pages fuel right cells with
      | none => rw [hcp] at hpids; exact absurd hpids (by simp)
      | some ids2 =>
        rw [hcp] at hpids
        have hids : idsq = q :: ids2 := (Option.some.inj hpids).symm
        subst hids
        rw [List.mem_cons] at hx
        push_neg at hx
        have hqx : q ≠ x := fun h => hx.1 h.symm
        have hcf : ∀ (cs : List TableInteriorCell) (ids3 : List Nat),
            table_children_pids pages fuel right cs = some ids3 → x ∉ ids3 →
            table_children_flatten pages2 fuel right cs
              = table_children_flatten pages fuel right cs := by
          intro cs
          induction cs with
          | nil =>
            intro ids3 h3 hx3
            unfold table_children_pids at h3
            unfold table_children_flatten
            exact ihf right ids3 h3 hx3
          | cons c cs2 ihc =>
            intro ids3 h3 hx3
            unfold table_children_pids at h3
            match ha : table_pids pages fuel c.child,
                hb : table_children_pids pages fuel right cs2 with
            | none, _ => rw [ha] at h3; exact absurd h3 (by simp)
            | some a, none => rw [ha, hb] at h3; exact absurd h3 (by simp)
            | some a, some b =>
              rw [ha, hb] at h3
              have h4 : ids3 = a ++ b := (Option.some.inj h3).symm
              subst h4
              rw [List.mem_append] at hx3
              push_neg at hx3
              unfold table_children_flatten
              rw [ihf c.child a ha hx3.1, ihc b hb hx3.2]
        rw [table_flatten_interior pages fuel q cells right hq,
          table_flatten_interior pages2 fuel q cells right
            (by rw [hagree q hqx]; exact hq)]
        exact hcf cells ids2 hcp hx.2

/-- Updating one page leaves the well-formedness of any subtree not
containing it unchanged. -/
theorem wf_table_frame (pages pages2 : Pages) (x : Nat)
    (hagree : ∀ q, q ≠ x → pages2 q = pages q) :
    ∀ (fuel q : Nat) (idsq : List Nat),
      table_pids pages fuel q = some idsq → x ∉ idsq →
      wf_table pages2 fuel q = wf_table pages fuel q := by
  intro fuel
  induction fuel with
  | zero => intro q idsq h hx; rfl
  | succ fuel ihf =>
    intro q idsq hpids hx
    match hq : pages q with
    | none => simp only [table_pids, hq] at hpids; exact Option.noConfusion hpids
    | some (.indexLeaf cells) => simp only [table_pids, hq] at hpids; exact Option.noConfusion hpids
    | some (.indexInterior cells right) => simp only [table_pids, hq] at hpids; exact Option.noConfusion hpids
    | some (.tableLeaf lay cells) =>
      have hqx : q ≠ x := by
        simp only [table_pids, hq] at hpids
        have h2 : idsq = [q] := (Option.some.inj hpids).symm
        subst h2
        simp at hx
        omega
      simp only [wf_table, hagree q hqx, hq]
    | some (.tableInterior cells right) =>
      rw [table_pids_interior pages fuel q cells right hq] at hpids
      match hcp : table_children_pids pages fuel right cells with
      | none => rw [hcp] at hpids; exact absurd hpids (by simp)
      | some ids2 =>
        rw [hcp] at hpids
        have hids : idsq = q :: ids2 := (Option.some.inj hpids).symm
        subst hids
        rw [List.mem_cons] at hx
        push_neg at hx
        have hqx : q ≠ x := fun h => hx.1 h.symm
        have hcw : ∀ (cs : List TableInteriorCell) (ids3 : List Nat)
            (lb : Option Int),
            table_children_pids pages fuel right cs = some ids3 → x ∉ ids3 →
            wf_table_children (table_flatten pages2 fuel)
              (fun pid => wf_table pages2 fuel pid) lb cs right
            = wf_table_children (table_flatten pages fuel)
              (fun pid => wf_table pages fuel pid) lb cs right := by
          intro cs
          induction cs with
          | nil =>
            intro ids3 lb h3 hx3
            unfold table_children_pids at h3
            unfold wf_table_children
            rw [ihf right ids3 h3 hx3,
              table_flatten_frame pages pages2 x hagree fuel right ids3 h3 hx3]
          | cons c cs2 ihc =>
            intro ids3 lb h3 hx3
            unfold table_children_pids at h3
            match ha : table_pids pages fuel c.child,
                hb : table_children_pids pages fuel right cs2 with
            | none, _ => rw [ha] at h3; exact absurd h3 (by simp)
            | some a, none => rw [ha, hb] at h3; exact absurd h3 (by simp)
            | some a, some b =>
              rw [ha, hb] at h3
              have h4 : ids3 = a ++ b := (Option.some.inj h3).symm
              subst h4
              rw [List.mem_append] at hx3
              push_neg at hx3
              unfold wf_table_children
              rw [ihf c.child a ha hx3.1,
                table_flatten_frame pages pages2 x hagree fuel c.child a ha
                  hx3.1,
                ihc b (some c.key) hb hx3.2]
        have h5 : wf_table pages2 (fuel + 1) q
            = (!cells.isEmpty &&
                wf_table_children (table_flatten pages2 fuel)
                  (fun pid => wf_table pages2 fuel pid) none cells right) := by
          simp only [wf_table, hagree q hqx, hq]
        have h6 : wf_table pages (fuel + 1) q
            = (!cells.isEmpty &&
                wf_table_children (table_flatten pages fuel)
                  (fun pid => wf_table pages fuel pid) none cells right) := by
          simp only [wf_table, hq]
        rw [h5, h6, hcw cells ids2 none hcp hx.2]

/-- `table_children_flatten` only depends on the flatten of the child
and right subtrees. -/
theorem table_children_flatten_congr (pages pages2 : Pages) (fuel right : Nat)
    (hr : table_flatten pages2 fuel right = table_flatten pages fuel right) :
    ∀ cs : List TableInteriorCell,
      (∀ c ∈ cs, table_flatten pages2 fuel c.child
        = table_flatten pages fuel c.child) →
      table_children_flatten pages2 fuel right cs
        = table_children_flatten pages fuel right cs
  | [], _ => by
    unfold table_children_flatten
    exact hr
  | c :: cs, hc => by
    unfold table_children_flatten
    rw [hc c (by simp),
      table_children_flatten_congr pages pages2 fuel right hr cs
        (fun d hd => hc d (List.mem_cons_of_mem c hd))]

/-- `wf_table_children` only depends on the flatten and well-formedness
of the child and right subtrees. -/
theorem wf_table_children_congr (pages pages2 : Pages) (fuel right : Nat)
    (hr : table_flatten pages2 fuel right = table_flatten pages fuel right)
    (hwr : wf_table pages2 fuel right = wf_table pages fuel right) :
    ∀ cs : List TableInteriorCell,
      (∀ c ∈ cs, table_flatten pages2 fuel c.child
        = table_flatten pages fuel c.child) →
      (∀ c ∈ cs, wf_table pages2 fuel c.child
        = wf_table pages fuel c.child) →
      ∀ lb : Option Int,
        wf_table_children (table_flatten pages2 fuel)
          (fun p => wf_table pages2 fuel p) lb cs right
        = wf_table_children (table_flatten pages fuel)
          (fun p => wf_table pages fuel p) lb cs right
  | [], _, _, lb => by
    unfold wf_table_children
    rw [hr, hwr]
  | c :: cs, hc, hw, lb => by
    unfold wf_table_children
    rw [hc c (by simp), hw c (by simp),
      wf_table_children_congr pages pages2 fuel right hr hwr cs
        (fun d hd => hc d (List.mem_cons_of_mem c hd))
        (fun d hd => hw d (List.mem_cons_of_mem c hd)) (some c.key)]

/-- Rebuilding the children invariant of a table interior page after a
single child subtree (at cell position `j`, or the right subtree when
`j` equals the cell count) had the row `⟨key, pl⟩` spliced in: the
children stay well-formed and their rows gain exactly that row, in key
position. -/
theorem table_children_rebuild (pages pages2 : Pages) (fuel : Nat) (key : Int)
    (pl : List Nat) (right x : Nat)
    (hupwf : wf_table pages2 fuel x = true)
    (hupflat : ∃ lx P2 Q2, table_flatten pages fuel x = some lx ∧
      table_flatten pages2 fuel x
        = some (P2 ++ ⟨key, pl⟩ :: Q2) ∧
      P2 ++ Q2 = lx ∧ (∀ e ∈ P2, e.key < key) ∧ (∀ e ∈ Q2, key < e.key)) :
    ∀ (cs : List TableInteriorCell) (lb : Option Int) (j : Nat),
      j ≤ cs.length →
      wf_table_children (table_flatten pages fuel)
        (fun p => wf_table pages fuel p) lb cs right = true →
      (∀ hj : j < cs.length, x = cs[j].child) →
      (j = cs.length → x = right) →
      (∀ (m : Nat) (hm : m < cs.length), m ≠ j →
        table_flatten pages2 fuel cs[m].child
          = table_flatten pages fuel cs[m].child ∧
        wf_table pages2 fuel cs[m].child = wf_table pages fuel cs[m].child) →
      (j < cs.length →
        table_flatten pages2 fuel right = table_flatten pages fuel right ∧
        wf_table pages2 fuel right = wf_table pages fuel right) →
      (∀ (m : Nat) (hm : m < cs.length), m < j → cs[m].key < key) →
      (∀ hj : j < cs.length, key ≤ cs[j].key) →
      opt_lt lb key = true →
      wf_table_children (table_flatten pages2 fuel)
        (fun p => wf_table pages2 fuel p) lb cs right = true ∧
      ∃ m P3 Q3, table_children_flatten pages fuel right cs = some m ∧
        table_children_flatten pages2 fuel right cs
          = some (P3 ++ ⟨key, pl⟩ :: Q3) ∧
        P3 ++ Q3 = m ∧ (∀ e ∈ P3, e.key < key) ∧
        (∀ e ∈ Q3, key < e.key) := by
  intro cs
  induction cs with
  | nil =>
    intro lb j hj hwfc hxj hxr hunt huntr hmlt hjk hlbk
    have hj0 : j = 0 := by simpa using hj
    subst hj0
    have hxr2 : x = right := hxr (by simp)
    obtain ⟨lx, P2, Q2, hfx, hfx2, hPQ, hPb, hQb⟩ := hupflat
    unfold wf_table_children at hwfc
    rw [Bool.and_eq_true] at hwfc
    obtain ⟨hwfr, hmatch⟩ := hwfc
    rw [hxr2] at hfx hfx2
    rw [hfx] at hmatch
    rw [Bool.and_eq_true] at hmatch
    obtain ⟨hne, hlbAll⟩ := hmatch
    have hlbAll2 : ∀ e ∈ lx, opt_lt lb e.key = true := List.all_eq_true.mp hlbAll
    constructor
    · unfold wf_table_children
      rw [hfx2, Bool.and_eq_true]
      refine ⟨by rw [hxr2] at hupwf; exact hupwf, ?_⟩
      rw [Bool.and_eq_true]
      refine ⟨by simp, List.all_eq_true.mpr ?_⟩
      intro e he
      rcases List.mem_append.mp he with he | he
      · exact hlbAll2 e (by rw [← hPQ]; exact List.mem_append.mpr (Or.inl he))
      · rcases List.mem_cons.mp he with rfl | he
        · exact hlbk
        · exact hlbAll2 e (by rw [← hPQ]; exact List.mem_append.mpr (Or.inr he))
    · refine ⟨lx, P2, Q2, ?_, ?_, hPQ, hPb, hQb⟩
      · unfold table_children_flatten
        exact hfx
      · unfold table_children_flatten
        exact hfx2
  | cons c cs ih =>
    intro lb j hj hwfc hxj hxr hunt huntr hmlt hjk hlbk
    unfold wf_table_children at hwfc
    rw [Bool.and_eq_true, Bool.and_eq_true] at hwfc
    obtain ⟨⟨hwfc0, hmatch⟩, hrec⟩ := hwfc
    match hflatc : table_flatten pages fuel c.child with
    | none =>
      rw [hflatc] at hmatch
      exact absurd hmatch (by simp)
    | some lc =>
      have hmatch2 := hmatch
      rw [hflatc] at hmatch2
      rw [Bool.and_eq_true, Bool.and_eq_true, Bool.and_eq_true] at hmatch2
      obtain ⟨⟨⟨hne, hlbA⟩, hleA⟩, hanyE⟩ := hmatch2
      have hlb2 : ∀ e ∈ lc, opt_lt lb e.key = true := List.all_eq_true.mp hlbA
      have hle2 : ∀ e ∈ lc, e.key ≤ c.key := fun e he => by
        simpa using (List.all_eq_true.mp hleA) e he
      have hany2 : ∃ e ∈ lc, e.key = c.key := by
        obtain ⟨e, he, hek⟩ := List.any_eq_true.mp hanyE
        exact ⟨e, he, by simpa using hek⟩
      match j with
      | 0 =>
        have hx0 : x = c.child := by simpa using hxj (by simp)
        obtain ⟨lx, P2, Q2, hfx, hfx2, hPQ, hPb, hQb⟩ := hupflat
        rw [hx0] at hfx hfx2
        have hlx : lx = lc := by
          rw [hflatc] at hfx
          exact (Option.some.inj hfx).symm
        subst hlx
        obtain ⟨L2, hL2, hbound2, _, _, _, _⟩ :=
          wf_children_facts pages fuel cs (some c.key) right hrec
        have hck : key ≤ c.key := by simpa using hjk (by simp)
        have hcf : ∀ d ∈ cs, table_flatten pages2 fuel d.child
            = table_flatten pages fuel d.child := by
          intro d hd
          obtain ⟨m, hm, rfl⟩ := List.mem_iff_getElem.mp hd
          have := (hunt (m + 1) (by simpa using hm) (by omega)).1
          simpa using this
        have hcw : ∀ d ∈ cs, wf_table pages2 fuel d.child
            = wf_table pages fuel d.child := by
          intro d hd
          obtain ⟨m, hm, rfl⟩ := List.mem_iff_getElem.mp hd
          have := (hunt (m + 1) (by simpa using hm) (by omega)).2
          simpa using this
        have hrpair := huntr (by simp)
        have hcongrf := table_children_flatten_congr pages pages2 fuel right
          hrpair.1 cs hcf
        have hcongrw := wf_table_children_congr pages pages2 fuel right
          hrpair.1 hrpair.2 cs hcf hcw (some c.key)
        constructor
        · unfold wf_table_children
          rw [Bool.and_eq_true, Bool.and_eq_true]
          refine ⟨⟨by rw [hx0] at hupwf; exact hupwf, ?_⟩,
            by rw [hcongrw]; exact hrec⟩
          rw [hfx2]
          rw [Bool.and_eq_true, Bool.and_eq_true, Bool.and_eq_true]
          refine ⟨⟨⟨by simp, List.all_eq_true.mpr ?_⟩,
            List.all_eq_true.mpr ?_⟩, List.any_eq_true.mpr ?_⟩
          · intro e he
            rcases List.mem_append.mp he with he | he
            · exact hlb2 e (by rw [← hPQ]; exact List.mem_append.mpr (Or.inl he))
            · rcases List.mem_cons.mp he with rfl | he
              · exact hlbk
              · exact hlb2 e (by rw [← hPQ]; exact List.mem_append.mpr (Or.inr he))
          · intro e he
            simp only [decide_eq_true_eq]
            rcases List.mem_append.mp he with he | he
            · exact hle2 e (by rw [← hPQ]; exact List.mem_append.mpr (Or.inl he))
            · rcases List.mem_cons.mp he with rfl | he
              · exact hck
              · exact hle2 e (by rw [← hPQ]; exact List.mem_append.mpr (Or.inr he))
          · obtain ⟨e0, he0, hek0⟩ := hany2
            rw [← hPQ] at he0
            rcases List.mem_append.mp he0 with he0 | he0
            · exact ⟨e0, List.mem_append.mpr (Or.inl he0), by simpa using hek0⟩
            · exact ⟨e0, List.mem_append.mpr
                (Or.inr (List.mem_cons_of_mem _ he0)), by simpa using hek0⟩
        · refine ⟨lx ++ L2, P2, Q2 ++ L2, ?_, ?_, ?_, hPb, ?_⟩
          · unfold table_children_flatten
            rw [hflatc, hL2]
          · unfold table_children_flatten
            simp only [hfx2, hcongrf, hL2]
            rw [List.append_assoc, List.cons_append]
          · rw [← List.append_assoc, hPQ]
          · intro e he
            rcases List.mem_append.mp he with he | he
            · exact hQb e he
            · have h1 : decide (c.key < e.key) = true := hbound2 e he
              rw [decide_eq_true_eq] at h1
              omega
      | j2 + 1 =>
        have hj2 : j2 ≤ cs.length := by simpa using hj
        have hc0 : table_flatten pages2 fuel c.child
            = table_flatten pages fuel c.child ∧
            wf_table pages2 fuel c.child = wf_table pages fuel c.child := by
          simpa using hunt 0 (by simp) (by omega)
        have hmlt0 : c.key < key := by simpa using hmlt 0 (by simp) (by omega)
        have hlbk2 : opt_lt (some c.key) key = true := by
          simp only [opt_lt, decide_eq_true_eq]
          exact hmlt0
        obtain ⟨hwf2, m2, P3, Q3, hm2, hm2b, hPQ2, hPb2, hQb2⟩ :=
          ih (some c.key) j2 hj2 hrec
            (fun hjl => by simpa using hxj (by simpa using hjl))
            (fun hjl => hxr (by simpa using hjl))
            (fun m hm hmj => by
              have := hunt (m + 1) (by simpa using hm) (by omega)
              simpa using this)
            (fun hjl => huntr (by simpa using hjl))
            (fun m hm hmj => by
              have := hmlt (m + 1) (by simpa using hm) (by omega)
              simpa using this)
            (fun hjl => by simpa using hjk (by simpa using hjl))
            hlbk2
        have hc00 : table_flatten pages2 fuel c.child = some lc := by
          rw [hc0.1, hflatc]
        constructor
        · unfold wf_table_children
          rw [Bool.and_eq_true, Bool.and_eq_true]
          refine ⟨⟨by rw [hc0.2]; exact hwfc0, ?_⟩, hwf2⟩
          rw [hc00]
          rw [hflatc] at hmatch
          exact hmatch
        · refine ⟨lc ++ m2, lc ++ P3, Q3, ?_, ?_, ?_, ?_, hQb2⟩
          · unfold table_children_flatten
            rw [hflatc, hm2]
          · unfold table_children_flatten
            rw [hc00, hm2b, List.append_assoc]
          · rw [List.append_assoc, hPQ2]
          · intro e he
            rcases List.mem_append.mp he with he | he
            · have := hle2 e he
              omega
            · exact hPb2 e he

/-- Inserting at the end of the list is an append. -/
theorem insertIdx_length_self {α : Type} (l : List α) (a : α) :
    l.insertIdx l.length a = l ++ [a] := by
  rw [insertIdx_decomp l l.length a (le_refl _)]
  simp

/-- Splicing `⟨key, pl⟩` into a sorted leaf at the lower-bound index
keeps the keys strictly ascending, with the prefix strictly below and
the suffix strictly above the new key. -/
theorem keys_ascending_insert (cells : List TableLeafCell) (key : Int)
    (pl : List Nat) (i : Nat) (hi : i ≤ cells.length)
    (hsorted : List.Pairwise (· < ·) (cells.map TableLeafCell.key))
    (hlo : ∀ (j : Nat) (hj : j < cells.length), j < i → cells[j].key < key)
    (hhi : ∀ h : i < cells.length, key < cells[i].key) :
    keys_ascending
      ((cells.insertIdx i ⟨key, pl⟩).map TableLeafCell.key) = true ∧
    (∀ e ∈ cells.take i, e.key < key) ∧
    (∀ e ∈ cells.drop i, key < e.key) := by
  have hmono : ∀ (j1 j2 : Nat) (h1 : j1 < cells.length) (h2 : j2 < cells.length),
      j1 < j2 → cells[j1].key < cells[j2].key := by
    intro j1 j2 h1 h2 hj
    have := List.pairwise_iff_getElem.mp hsorted j1 j2
      (by simpa using h1) (by simpa using h2) hj
    rwa [List.getElem_map, List.getElem_map] at this
  have htake : ∀ e ∈ cells.take i, e.key < key := by
    intro e he
    obtain ⟨m, hm, hget⟩ := List.mem_iff_getElem.mp he
    have hm2 : m < i := by
      rw [List.length_take] at hm
      omega
    have hm3 : m < cells.length := by
      rw [List.length_take] at hm
      omega
    have hv : (cells.take i)[m]? = cells[m]? := by
      rw [List.getElem?_take, if_pos hm2]
    rw [List.getElem?_eq_getElem hm, List.getElem?_eq_getElem hm3, hget] at hv
    rw [Option.some.inj hv]
    exact hlo m hm3 hm2
  have hdrop : ∀ e ∈ cells.drop i, key < e.key := by
    intro e he
    obtain ⟨m, hm, hget⟩ := List.mem_iff_getElem.mp he
    have hm3 : i + m < cells.length := by
      rw [List.length_drop] at hm
      omega
    have hilt : i < cells.length := by omega
    have hv : (cells.drop i)[m]? = cells[i + m]? := List.getElem?_drop cells i m
    rw [List.getElem?_eq_getElem hm, List.getElem?_eq_getElem hm3, hget] at hv
    rw [Option.some.inj hv]
    rcases Nat.eq_zero_or_pos m with rfl | hm0
    · simpa using hhi hilt
    · have h1 := hhi hilt
      have h2 := hmono i (i + m) hilt hm3 (by omega)
      omega
  refine ⟨?_, htake, hdrop⟩
  rw [insertIdx_decomp cells i _ hi, List.map_append, List.map_cons]
  apply keys_ascending_of_pairwise
  rw [List.pairwise_append]
  refine ⟨List.Pairwise.sublist
      (List.Sublist.map TableLeafCell.key (List.take_sublist i cells)) hsorted,
    ?_, ?_⟩
  · refine List.Pairwise.cons ?_ (List.Pairwise.sublist
      (List.Sublist.map TableLeafCell.key (List.drop_sublist i cells)) hsorted)
    intro b hb
    obtain ⟨e, he, rfl⟩ := List.mem_map.mp hb
    exact hdrop e he
  · intro a ha b hb
    obtain ⟨ea, hea, rfl⟩ := List.mem_map.mp ha
    have h1 := htake ea hea
    rcases List.mem_cons.mp hb with rfl | hb
    · exact h1
    · obtain ⟨eb, heb, rfl⟩ := List.mem_map.mp hb
      have h2 := hdrop eb heb
      omega

/-- Rows under a well-formed children list are sorted, given that every
well-formed subtree at the child level has sorted rows. -/
theorem children_flatten_sorted_aux (pages : Pages) (fuel right : Nat)
    (ihf : ∀ (pid : Nat) (m : List TableLeafCell),
      wf_table pages fuel pid = true →
      table_flatten pages fuel pid = some m →
      List.Pairwise (· < ·) (m.map TableLeafCell.key)) :
    ∀ (cs : List TableInteriorCell) (lb : Option Int)
      (m : List TableLeafCell),
      wf_table_children (table_flatten pages fuel)
        (fun p => wf_table pages fuel p) lb cs right = true →
      table_children_flatten pages fuel right cs = some m →
      List.Pairwise (· < ·) (m.map TableLeafCell.key)
  | [], lb, m, hwfc, hflat => by
    unfold wf_table_children at hwfc
    rw [Bool.and_eq_true] at hwfc
    unfold table_children_flatten at hflat
    exact ihf right m hwfc.1 hflat
  | c :: cs, lb, m, hwfc, hflat => by
    unfold wf_table_children at hwfc
    rw [Bool.and_eq_true, Bool.and_eq_true] at hwfc
    obtain ⟨⟨hwfc0, hmatch⟩, hrec⟩ := hwfc
    unfold table_children_flatten at hflat
    match hflatc : table_flatten pages fuel c.child,
        hflatr : table_children_flatten pages fuel right cs with
    | none, _ =>
      rw [hflatc] at hflat
      exact absurd hflat (by simp)
    | some lc, none =>
      rw [hflatc, hflatr] at hflat
      exact absurd hflat (by simp)
    | some lc, some m2 =>
      rw [hflatc, hflatr] at hflat
      have hm : m = lc ++ m2 := (Option.some.inj hflat).symm
      subst hm
      rw [hflatc] at hmatch
      rw [Bool.and_eq_true, Bool.and_eq_true, Bool.and_eq_true] at hmatch
      obtain ⟨⟨⟨hne, hlbA⟩, hleA⟩, hanyE⟩ := hmatch
      obtain ⟨L2, hL2, hbound2, _, _, _, _⟩ :=
        wf_children_facts pages fuel cs (some c.key) right hrec
      have hm2L : m2 = L2 := by
        rw [hflatr] at hL2
        exact Option.some.inj hL2
      subst hm2L
      rw [List.map_append, List.pairwise_append]
      refine ⟨ihf c.child lc hwfc0 hflatc,
        children_flatten_sorted_aux pages fuel right ihf cs (some c.key)
          m2 hrec hflatr, ?_⟩
      intro a ha b hb
      obtain ⟨ea, hea, rfl⟩ := List.mem_map.mp ha
      obtain ⟨eb, heb, rfl⟩ := List.mem_map.mp hb
      have h1 : ea.key ≤ c.key := by
        simpa using (List.all_eq_true.mp hleA) ea hea
      have h2 : c.key < eb.key := by
        simpa [opt_lt] using hbound2 eb heb
      omega

/-- The rows of a well-formed table subtree are strictly ascending by
rowid. -/
theorem wf_flatten_sorted (pages : Pages) :
    ∀ (fuel pid : Nat) (m : List TableLeafCell),
      wf_table pages fuel pid = true →
      table_flatten pages fuel pid = some m →
      List.Pairwise (· < ·) (m.map TableLeafCell.key) := by
  intro fuel
  induction fuel with
  | zero =>
    intro pid m hwf
    simp [wf_table] at hwf
  | succ fuel ihf =>
    intro pid m hwf hflat
    match hpg : pages pid with
    | none =>
      simp only [wf_table, hpg] at hwf
      exact absurd hwf (by simp)
    | some (.indexLeaf cells) =>
      simp only [wf_table, hpg] at hwf
      exact absurd hwf (by simp)
    | some (.indexInterior cells right) =>
      simp only [wf_table, hpg] at hwf
      exact absurd hwf (by simp)
    | some (.tableLeaf lay cells) =>
      simp only [wf_table, hpg] at hwf
      simp only [table_flatten, hpg] at hflat
      have hm : m = cells := (Option.some.inj hflat).symm
      subst hm
      exact keys_ascending_pairwise _ hwf
    | some (.tableInterior cells right) =>
      simp only [wf_table, hpg] at hwf
      rw [Bool.and_eq_true] at hwf
      rw [table_flatten_interior pages fuel pid cells right hpg] at hflat
      exact children_flatten_sorted_aux pages fuel right ihf cells none m
        hwf.2 hflat

end Prsqlite
